/-
Verification of the ScholarSoup scraper (src/main.py) against its
natural-language specification.

The development is a shallow embedding of the program's core pipeline:
  * `validate_url`   - the validation regex, embedded as a regular-expression
    AST together with a derivative-based matcher (`re.match` semantics,
    including `re.IGNORECASE` and the `$`-before-trailing-newline rule);
  * `sanitize_input`, `urljoinE` and friends - the relevant fragment of
    CPython's `urllib.parse` (modelled after CPython 3.11.6, the reference
    interpreter: `urlsplit`, `urlparse`, `urlunsplit`, `urlunparse`,
    `urljoin`, including the WHATWG control-character stripping, the
    "Invalid IPv6 URL" error and the bracketed-host check);
  * `extract_scholarship_data` - the BeautifulSoup-based extraction loop,
    over an explicit HTML node tree (`find_all`/`find` are modelled as
    filters over the preorder descendant list, which is exactly how
    BeautifulSoup iterates, and `get_text(separator=' ', strip=True)`
    joins the per-text-node stripped, non-empty strings);
  * `fetch_page_content`, `save_to_json`, `scrape` - the HTTP fetch with
    its status handling (`raise_for_status` of `requests`), the best-effort
    JSON write, and the `/scrape` endpoint control flow, with network and
    disk outcomes supplied as explicit parameters.

Strings are modelled as `List Char`.  Character-level operations
(`str.lower`, `str.strip`, the `re` character classes) are modelled on the
ASCII plane, which covers every character class appearing in the program's
regex; the NFKC normalisation check that CPython's `_checknetloc` applies
to non-ASCII authorities is modelled exactly by the finite character table
`nfkcSeparator` (see its doc comment for why the check is character-local).
-/
import Mathlib

set_option linter.unusedVariables false
set_option linter.unnecessarySimpa false

namespace ScholarSoup

/-- Strings are modelled as lists of characters. -/
abbrev Str := List Char

/-- ASCII lower-casing, the fragment of Python's `str.lower` relevant here. -/
def lowerC (c : Char) : Char :=
  if 'A' ≤ c ∧ c ≤ 'Z' then Char.ofNat (c.toNat + 32) else c

/-- Lower-case a whole string. -/
def lowerStr (s : Str) : Str := s.map lowerC

/-- Whitespace in the sense of Python's `str.strip` / `\s` (ASCII fragment:
space, tab, newline, carriage return, vertical tab, form feed). -/
def isSpacePy (c : Char) : Bool :=
  c = ' ' || c = '\t' || c = '\n' || c = '\r' || c = '\x0b' || c = '\x0c'

/-- ASCII decimal digit (`\d`, ASCII fragment). -/
def isDigitC (c : Char) : Bool := '0' ≤ c && c ≤ '9'

/-- ASCII letter. -/
def isAlphaC (c : Char) : Bool := ('a' ≤ c && c ≤ 'z') || ('A' ≤ c && c ≤ 'Z')

/-! ## Regular expressions

The source validates URLs with `re.match` on a fixed pattern.  We embed
regular expressions with character classes (needed for `[A-Z0-9-]`, `\S`,
`\d` and the case-insensitive literals produced by `re.IGNORECASE`), give
them the standard language semantics `Accepts`, and an executable
derivative-based matcher `matchRE` proved equivalent. -/

/-- Regular expressions over characters, with semantic character classes. -/
inductive RE where
  | eps : RE
  | nul : RE
  | cls : (Char → Bool) → RE
  | cat : RE → RE → RE
  | alt : RE → RE → RE
  | star : RE → RE

/-- Language semantics of a regular expression. -/
inductive Accepts : RE → Str → Prop where
  | eps : Accepts .eps []
  | cls {p : Char → Bool} {c : Char} : p c = true → Accepts (.cls p) [c]
  | cat {r s : RE} {a b : Str} :
      Accepts r a → Accepts s b → Accepts (.cat r s) (a ++ b)
  | altL {r s : RE} {a : Str} : Accepts r a → Accepts (.alt r s) a
  | altR {r s : RE} {a : Str} : Accepts s a → Accepts (.alt r s) a
  | starNil {r : RE} : Accepts (.star r) []
  | starCat {r : RE} {a b : Str} :
      Accepts r a → Accepts (.star r) b → Accepts (.star r) (a ++ b)

/-- Does the expression accept the empty string? -/
def nullable : RE → Bool
  | .eps => true
  | .nul => false
  | .cls _ => false
  | .cat r s => nullable r && nullable s
  | .alt r s => nullable r || nullable s
  | .star _ => true

/-- Concatenation, short-circuiting the empty language (keeps derivatives
small so that the matcher evaluates fast inside the kernel). -/
def catS : RE → RE → RE
  | .nul, _ => .nul
  | r, s => .cat r s

/-- Alternation, short-circuiting the empty language. -/
def altS : RE → RE → RE
  | .nul, s => s
  | r, .nul => r
  | r, s => .alt r s

/-- Brzozowski derivative by one character. -/
def deriv (c : Char) : RE → RE
  | .eps => .nul
  | .nul => .nul
  | .cls p => if p c then .eps else .nul
  | .cat r s =>
      if nullable r then altS (catS (deriv c r) s) (deriv c s)
      else catS (deriv c r) s
  | .alt r s => altS (deriv c r) (deriv c s)
  | .star r => catS (deriv c r) (.star r)

/-- Executable matcher: whole-string match of `r` against `w`. -/
def matchRE (r : RE) : Str → Bool
  | [] => nullable r
  | c :: cs => matchRE (deriv c r) cs

theorem accepts_eps_iff {w : Str} : Accepts .eps w ↔ w = [] := by
  constructor
  · intro h; cases h; rfl
  · rintro rfl; exact .eps

theorem accepts_nul {w : Str} : ¬ Accepts .nul w := by
  intro h; cases h

theorem accepts_cls_iff {p : Char → Bool} {w : Str} :
    Accepts (.cls p) w ↔ ∃ c, w = [c] ∧ p c = true := by
  constructor
  · intro h; cases h with
    | cls hc => exact ⟨_, rfl, hc⟩
  · rintro ⟨c, rfl, hc⟩; exact .cls hc

theorem accepts_cat_iff {r s : RE} {w : Str} :
    Accepts (.cat r s) w ↔ ∃ a b, w = a ++ b ∧ Accepts r a ∧ Accepts s b := by
  constructor
  · intro h; cases h with
    | cat ha hb => exact ⟨_, _, rfl, ha, hb⟩
  · rintro ⟨a, b, rfl, ha, hb⟩; exact .cat ha hb

theorem accepts_alt_iff {r s : RE} {w : Str} :
    Accepts (.alt r s) w ↔ Accepts r w ∨ Accepts s w := by
  constructor
  · intro h; cases h with
    | altL h => exact .inl h
    | altR h => exact .inr h
  · rintro (h | h)
    · exact .altL h
    · exact .altR h

theorem nullable_iff (r : RE) : nullable r = true ↔ Accepts r [] := by
  induction r with
  | eps => simpa [nullable] using Accepts.eps
  | nul => simp [nullable]; exact accepts_nul
  | cls p =>
      simp [nullable]
      intro h
      rcases accepts_cls_iff.mp h with ⟨c, hc, _⟩
      exact List.noConfusion hc
  | cat r s ihr ihs =>
      simp only [nullable, Bool.and_eq_true, ihr, ihs]
      constructor
      · rintro ⟨h1, h2⟩
        simpa using Accepts.cat h1 h2
      · intro h
        rcases accepts_cat_iff.mp h with ⟨a, b, hab, ha, hb⟩
        rcases List.append_eq_nil.mp hab.symm with ⟨rfl, rfl⟩
        exact ⟨ha, hb⟩
  | alt r s ihr ihs =>
      simp only [nullable, Bool.or_eq_true, ihr, ihs, accepts_alt_iff]
  | star r ih =>
      simpa [nullable] using Accepts.starNil

theorem accepts_catS_iff {r s : RE} {w : Str} :
    Accepts (catS r s) w ↔ Accepts (.cat r s) w := by
  cases r with
  | nul =>
      simp only [catS]
      constructor
      · intro h; exact absurd h accepts_nul
      · intro h
        rcases accepts_cat_iff.mp h with ⟨a, b, _, ha, _⟩
        exact absurd ha accepts_nul
  | eps => simp [catS]
  | cls p => simp [catS]
  | cat r1 r2 => simp [catS]
  | alt r1 r2 => simp [catS]
  | star r1 => simp [catS]

theorem accepts_altS_iff {r s : RE} {w : Str} :
    Accepts (altS r s) w ↔ Accepts (.alt r s) w := by
  have key : ∀ (t u : RE),
      (altS t u = u ∧ t = RE.nul) ∨ (altS t u = t ∧ u = RE.nul) ∨
        altS t u = .alt t u := by
    intro t u; cases t <;> cases u <;> simp [altS]
  rcases key r s with ⟨he, rfl⟩ | ⟨he, rfl⟩ | he
  · rw [he, accepts_alt_iff]
    constructor
    · exact .inr
    · rintro (h | h)
      · exact absurd h accepts_nul
      · exact h
  · rw [he, accepts_alt_iff]
    constructor
    · exact .inl
    · rintro (h | h)
      · exact h
      · exact absurd h accepts_nul
  · rw [he]

theorem accepts_star_split {q : RE} {v : Str} (h : Accepts q v) :
    ∀ r, q = .star r →
      v = [] ∨ ∃ a b, v = a ++ b ∧ a ≠ [] ∧ Accepts r a ∧ Accepts (.star r) b := by
  induction h with
  | eps => intro r hq; exact RE.noConfusion hq
  | cls _ => intro r hq; exact RE.noConfusion hq
  | cat _ _ _ _ => intro r hq; exact RE.noConfusion hq
  | altL _ _ => intro r hq; exact RE.noConfusion hq
  | altR _ _ => intro r hq; exact RE.noConfusion hq
  | starNil => intro r hq; exact .inl rfl
  | starCat ha hb iha ihb =>
      intro r hq
      have hr : _ = r := (RE.star.injEq _ _).mp hq
      subst hr
      rename_i a b
      cases a with
      | nil =>
          rcases ihb _ rfl with h0 | ⟨a2, b2, hab, hne, h1, h2⟩
          · exact .inl (by simpa using h0)
          · exact .inr ⟨a2, b2, by simpa using hab, hne, h1, h2⟩
      | cons x xs =>
          exact .inr ⟨x :: xs, b, rfl, by simp, ha, hb⟩

theorem accepts_star_cons {r : RE} {c : Char} {w : Str}
    (h : Accepts (.star r) (c :: w)) :
    ∃ a b, w = a ++ b ∧ Accepts r (c :: a) ∧ Accepts (.star r) b := by
  rcases accepts_star_split h r rfl with h0 | ⟨a, b, hab, hne, h1, h2⟩
  · exact absurd h0 (by simp)
  · cases a with
    | nil => exact absurd rfl hne
    | cons x xs =>
        rcases List.cons.injEq _ _ _ _ ▸ hab with ⟨rfl, rfl⟩
        exact ⟨xs, b, by simpa using hab, by simpa [List.cons_append] using h1, h2⟩

theorem accepts_deriv_iff {c : Char} {r : RE} {w : Str} :
    Accepts (deriv c r) w ↔ Accepts r (c :: w) := by
  induction r generalizing w with
  | eps =>
      simp only [deriv]
      constructor
      · intro h; exact absurd h accepts_nul
      · intro h; rcases accepts_eps_iff.mp h with h; exact List.noConfusion h
  | nul =>
      simp only [deriv]
      constructor
      · intro h; exact absurd h accepts_nul
      · intro h; exact absurd h accepts_nul
  | cls p =>
      simp only [deriv]
      by_cases hp : p c = true
      · rw [if_pos hp]
        rw [accepts_eps_iff, accepts_cls_iff]
        constructor
        · rintro rfl; exact ⟨c, rfl, hp⟩
        · rintro ⟨d, hd, _⟩
          exact (List.cons.injEq _ _ _ _ ▸ hd).2
      · rw [if_neg hp]
        constructor
        · intro h; exact absurd h accepts_nul
        · intro h
          rcases accepts_cls_iff.mp h with ⟨d, hd, hpd⟩
          rcases List.cons.injEq _ _ _ _ ▸ hd with ⟨rfl, rfl⟩
          exact absurd hpd hp
  | cat r s ihr ihs =>
      simp only [deriv]
      by_cases hn : nullable r = true
      · rw [if_pos hn, accepts_altS_iff, accepts_alt_iff, accepts_catS_iff,
          accepts_cat_iff]
        constructor
        · rintro (⟨a, b, rfl, ha, hb⟩ | h)
          · exact (accepts_cat_iff.mpr ⟨c :: a, b, rfl, ihr.mp ha, hb⟩)
          · have : Accepts (.cat r s) ([] ++ c :: w) :=
              .cat ((nullable_iff r).mp hn) (ihs.mp h)
            simpa using this
        · intro h
          rcases accepts_cat_iff.mp h with ⟨a, b, hab, ha, hb⟩
          cases a with
          | nil => exact .inr (ihs.mpr (by rw [hab]; simpa using hb))
          | cons x xs =>
              rcases List.cons.injEq _ _ _ _ ▸ hab with ⟨rfl, rfl⟩
              exact .inl ⟨xs, b, rfl, ihr.mpr ha, hb⟩
      · rw [if_neg hn, accepts_catS_iff, accepts_cat_iff]
        constructor
        · rintro ⟨a, b, rfl, ha, hb⟩
          exact accepts_cat_iff.mpr ⟨c :: a, b, rfl, ihr.mp ha, hb⟩
        · intro h
          rcases accepts_cat_iff.mp h with ⟨a, b, hab, ha, hb⟩
          cases a with
          | nil => exact absurd ((nullable_iff r).mpr ha) hn
          | cons x xs =>
              rcases List.cons.injEq _ _ _ _ ▸ hab with ⟨rfl, rfl⟩
              exact ⟨xs, b, rfl, ihr.mpr ha, hb⟩
  | alt r s ihr ihs =>
      simp only [deriv]
      rw [accepts_altS_iff, accepts_alt_iff, accepts_alt_iff, ihr, ihs]
  | star r ih =>
      simp only [deriv]
      rw [accepts_catS_iff, accepts_cat_iff]
      constructor
      · rintro ⟨a, b, rfl, ha, hb⟩
        have : Accepts (.star r) ((c :: a) ++ b) := .starCat (ih.mp ha) hb
        simpa using this
      · intro h
        rcases accepts_star_cons h with ⟨a, b, rfl, ha, hb⟩
        exact ⟨a, b, rfl, ih.mpr ha, hb⟩

theorem matchRE_iff {r : RE} {w : Str} : matchRE r w = true ↔ Accepts r w := by
  induction w generalizing r with
  | nil => exact (nullable_iff r)
  | cons c cs ih => rw [matchRE, ih, accepts_deriv_iff]

/-! ### Derived regex forms

`chrRE` is a literal character, `ichrRE` a case-insensitive literal (as
produced by `re.IGNORECASE`), `strRE`/`istrRE` literal words, `optRE` is
`?`, `plusRE` is `+`, and `upToRE r n` is `r{0,n}` (used to expand the
bounded repetitions `{1,3}` and `{2,6}` of the source pattern). -/

/-- Literal character. -/
def chrRE (c : Char) : RE := .cls (fun x => x = c)

/-- Case-insensitive literal character (`c` is given in lower case). -/
def ichrRE (c : Char) : RE := .cls (fun x => lowerC x = c)

/-- Literal word. -/
def strRE (s : Str) : RE := s.foldr (fun c r => .cat (chrRE c) r) .eps

/-- Case-insensitive literal word (`s` is given in lower case). -/
def istrRE (s : Str) : RE := s.foldr (fun c r => .cat (ichrRE c) r) .eps

/-- The `?` quantifier. -/
def optRE (r : RE) : RE := .alt .eps r

/-- The `+` quantifier. -/
def plusRE (r : RE) : RE := .cat r (.star r)

/-- The `{0,n}` quantifier. -/
def upToRE (r : RE) : Nat → RE
  | 0 => .eps
  | n + 1 => .alt .eps (.cat r (upToRE r n))

theorem accepts_chr_iff {c : Char} {w : Str} : Accepts (chrRE c) w ↔ w = [c] := by
  rw [chrRE, accepts_cls_iff]
  constructor
  · rintro ⟨d, rfl, hd⟩
    simpa using hd
  · rintro rfl
    exact ⟨c, rfl, by simp⟩

theorem accepts_ichr_iff {c : Char} {w : Str} :
    Accepts (ichrRE c) w ↔ ∃ d, w = [d] ∧ lowerC d = c := by
  rw [ichrRE, accepts_cls_iff]
  constructor
  · rintro ⟨d, rfl, hd⟩
    exact ⟨d, rfl, by simpa using hd⟩
  · rintro ⟨d, rfl, hd⟩
    exact ⟨d, rfl, by simpa using hd⟩

theorem accepts_opt_iff {r : RE} {w : Str} :
    Accepts (optRE r) w ↔ w = [] ∨ Accepts r w := by
  rw [optRE, accepts_alt_iff, accepts_eps_iff]

theorem accepts_str_iff {s w : Str} : Accepts (strRE s) w ↔ w = s := by
  induction s generalizing w with
  | nil => simpa [strRE] using accepts_eps_iff
  | cons c cs ih =>
      simp only [strRE, List.foldr_cons]
      rw [show (List.foldr (fun c r => RE.cat (chrRE c) r) RE.eps cs) = strRE cs from rfl,
        accepts_cat_iff]
      constructor
      · rintro ⟨a, b, rfl, ha, hb⟩
        rw [accepts_chr_iff.mp ha, ih.mp hb]
        rfl
      · rintro rfl
        exact ⟨[c], cs, rfl, accepts_chr_iff.mpr rfl, ih.mpr rfl⟩

theorem accepts_istr_iff {s w : Str} : Accepts (istrRE s) w ↔ lowerStr w = s := by
  induction s generalizing w with
  | nil =>
      rw [show istrRE [] = RE.eps from rfl, accepts_eps_iff]
      constructor
      · rintro rfl; rfl
      · intro h
        cases w with
        | nil => rfl
        | cons c cs => exact List.noConfusion h
  | cons c cs ih =>
      simp only [istrRE, List.foldr_cons]
      rw [show (List.foldr (fun c r => RE.cat (ichrRE c) r) RE.eps cs) = istrRE cs from rfl,
        accepts_cat_iff]
      constructor
      · rintro ⟨a, b, rfl, ha, hb⟩
        rcases accepts_ichr_iff.mp ha with ⟨d, rfl, hd⟩
        rw [lowerStr, List.map_append]
        simp only [List.map_cons, List.map_nil]
        rw [hd, List.singleton_append]
        exact congrArg (c :: ·) (ih.mp hb)
      · intro h
        cases w with
        | nil => exact List.noConfusion h
        | cons d ds =>
            rw [lowerStr, List.map_cons] at h
            rcases List.cons.injEq _ _ _ _ ▸ h with ⟨h1, h2⟩
            exact ⟨[d], ds, rfl, accepts_ichr_iff.mpr ⟨d, rfl, h1⟩, ih.mpr h2⟩

theorem flatten_map_singleton (w : Str) : (w.map (fun c => [c])).flatten = w := by
  induction w with
  | nil => rfl
  | cons c cs ih => simp [ih]

theorem accepts_star_join {q : RE} {v : Str} (h : Accepts q v) :
    ∀ r, q = .star r → ∃ L : List Str, v = L.flatten ∧ ∀ x ∈ L, Accepts r x := by
  induction h with
  | eps => intro r hq; exact RE.noConfusion hq
  | cls _ => intro r hq; exact RE.noConfusion hq
  | cat _ _ _ _ => intro r hq; exact RE.noConfusion hq
  | altL _ _ => intro r hq; exact RE.noConfusion hq
  | altR _ _ => intro r hq; exact RE.noConfusion hq
  | starNil => intro r _; exact ⟨[], rfl, by simp⟩
  | starCat ha hb iha ihb =>
      intro r hq
      have hr := (RE.star.injEq _ _).mp hq
      subst hr
      rcases ihb _ rfl with ⟨L, rfl, hL⟩
      refine ⟨_ :: L, rfl, ?_⟩
      intro x hx
      rcases List.mem_cons.mp hx with rfl | hx
      · exact ha
      · exact hL x hx

theorem accepts_star_iff {r : RE} {w : Str} :
    Accepts (.star r) w ↔ ∃ L : List Str, w = L.flatten ∧ ∀ x ∈ L, Accepts r x := by
  constructor
  · intro h; exact accepts_star_join h r rfl
  · rintro ⟨L, rfl, hL⟩
    induction L with
    | nil => exact .starNil
    | cons x xs ih =>
        rw [List.flatten_cons]
        exact .starCat (hL x (by simp)) (ih fun y hy => hL y (by simp [hy]))

theorem accepts_starCls_iff {p : Char → Bool} {w : Str} :
    Accepts (.star (.cls p)) w ↔ ∀ c ∈ w, p c = true := by
  rw [accepts_star_iff]
  constructor
  · rintro ⟨L, rfl, hL⟩
    intro c hc
    rcases List.mem_flatten.mp hc with ⟨x, hx, hcx⟩
    rcases accepts_cls_iff.mp (hL x hx) with ⟨d, rfl, hd⟩
    rcases List.mem_singleton.mp hcx with rfl
    exact hd
  · intro h
    refine ⟨w.map (fun c => [c]), (flatten_map_singleton w).symm, ?_⟩
    intro x hx
    rcases List.mem_map.mp hx with ⟨c, hc, rfl⟩
    exact accepts_cls_iff.mpr ⟨c, rfl, h c hc⟩

theorem accepts_plusCls_iff {p : Char → Bool} {w : Str} :
    Accepts (plusRE (.cls p)) w ↔ w ≠ [] ∧ ∀ c ∈ w, p c = true := by
  rw [plusRE, accepts_cat_iff]
  constructor
  · rintro ⟨a, b, rfl, ha, hb⟩
    rcases accepts_cls_iff.mp ha with ⟨c, rfl, hc⟩
    have hall := accepts_starCls_iff.mp hb
    refine ⟨by simp, ?_⟩
    intro d hd
    rcases List.mem_cons.mp (by simpa using hd) with rfl | hd2
    · exact hc
    · exact hall d hd2
  · rintro ⟨hne, hall⟩
    cases w with
    | nil => exact absurd rfl hne
    | cons c cs =>
        exact ⟨[c], cs, rfl, accepts_cls_iff.mpr ⟨c, rfl, hall c (by simp)⟩,
          accepts_starCls_iff.mpr fun d hd => hall d (by simp [hd])⟩

theorem accepts_upToCls_iff {p : Char → Bool} {n : Nat} {w : Str} :
    Accepts (upToRE (.cls p) n) w ↔ w.length ≤ n ∧ ∀ c ∈ w, p c = true := by
  induction n generalizing w with
  | zero =>
      rw [upToRE, accepts_eps_iff]
      constructor
      · rintro rfl; simp
      · rintro ⟨hlen, _⟩
        exact List.length_eq_zero.mp (Nat.le_zero.mp hlen)
  | succ n ih =>
      rw [upToRE, accepts_alt_iff, accepts_eps_iff, accepts_cat_iff]
      constructor
      · rintro (rfl | ⟨a, b, rfl, ha, hb⟩)
        · simp
        · rcases accepts_cls_iff.mp ha with ⟨c, rfl, hc⟩
          rcases ih.mp hb with ⟨hlen, hall⟩
          refine ⟨by simpa using Nat.succ_le_succ hlen, ?_⟩
          intro d hd
          rcases List.mem_cons.mp (by simpa using hd) with rfl | hd2
          · exact hc
          · exact hall d hd2
      · rintro ⟨hlen, hall⟩
        cases w with
        | nil => exact .inl rfl
        | cons c cs =>
            refine .inr ⟨[c], cs, rfl, accepts_cls_iff.mpr ⟨c, rfl, hall c (by simp)⟩,
              ih.mpr ⟨Nat.le_of_succ_le_succ (by simpa using hlen), fun d hd => hall d (by simp [hd])⟩⟩

/-! ## The URL validation regex of `validate_url` (src/main.py lines 41-60)

The source compiles, with `re.IGNORECASE`:
```
^(?:http|ftp)s?://          scheme
(?:\S+(?::\S*)?@)?          user:pass authentication
(?:(?:[A-Z0-9-]+\.)+[A-Z]{2,6}\.?|   domain
localhost|                  localhost
\d{1,3}(?:\.\d{1,3}){3})    or IPv4
(?::\d+)?                   optional port
(?:/?|[/?]\S+)$
```
and tests `re.match(regex, url) is not None`.  Each piece is translated
below; bounded repetitions are expanded.  `\S` and `\d` are the ASCII
fragments of Python's classes. -/

/-- Class `\S` (non-whitespace). -/
def clsNS : RE := .cls (fun c => !isSpacePy c)

/-- Class `\d`. -/
def clsD : RE := .cls isDigitC

/-- Class `[A-Z0-9-]` under `re.IGNORECASE`. -/
def clsHostC : RE := .cls (fun c => isAlphaC c || isDigitC c || c = '-')

/-- Class `[A-Z]` under `re.IGNORECASE`. -/
def clsAlpha : RE := .cls isAlphaC

/-- Piece `(?:http|ftp)s?` (case-insensitive). -/
def schemeRE : RE :=
  .cat (.alt (istrRE "http".data) (istrRE "ftp".data)) (optRE (ichrRE 's'))

/-- Piece `(?:\S+(?::\S*)?@)?`. -/
def credsRE : RE :=
  optRE (.cat (plusRE clsNS)
    (.cat (optRE (.cat (chrRE ':') (.star clsNS))) (chrRE '@')))

/-- Piece `\d{1,3}`. -/
def dig13 : RE := .cat clsD (upToRE clsD 2)

/-- Piece `(?:[A-Z0-9-]+\.)+[A-Z]{2,6}\.?` (case-insensitive). -/
def domainRE : RE :=
  .cat (plusRE (.cat (plusRE clsHostC) (chrRE '.')))
    (.cat (.cat clsAlpha (.cat clsAlpha (upToRE clsAlpha 4))) (optRE (chrRE '.')))

/-- Piece `\d{1,3}(?:\.\d{1,3}){3}`, the `{3}` expanded. -/
def ipv4RE : RE :=
  .cat dig13 (.cat (.cat (chrRE '.') dig13)
    (.cat (.cat (chrRE '.') dig13) (.cat (chrRE '.') dig13)))

/-- The host alternation: domain, `localhost`, or IPv4. -/
def hostRE : RE := .alt domainRE (.alt (istrRE "localhost".data) ipv4RE)

/-- Piece `(?::\d+)?`. -/
def portRE : RE := optRE (.cat (chrRE ':') (plusRE clsD))

/-- Piece `(?:/?|[/?]\S+)`. -/
def tailRE : RE :=
  .alt (optRE (chrRE '/'))
    (.cat (.cls (fun c => c = '/' || c = '?')) (plusRE clsNS))

/-- The whole pattern between `^` and `$`. -/
def urlRegex : RE :=
  .cat schemeRE (.cat (strRE "://".data)
    (.cat credsRE (.cat hostRE (.cat portRE tailRE))))

/-- The URL validator of src/main.py (lines 41-60): `re.match` of the
anchored pattern.  Python's `$` matches at the end of the string or just
before a newline that ends the string, hence the second disjunct. -/
def validate_url (url : Str) : Bool :=
  matchRE urlRegex url ||
    (match url.getLast? with
     | some c => c = '\n' && matchRE urlRegex url.dropLast
     | none => false)

/-! ## The spec's absolute-URL shape

The following predicates are written from the specification's words
(spec.md section 4.2): an absolute-URL shape
`scheme://[credentials@]host[:port][/path][?query]` with scheme one of
`http`, `https`, `ftp`, `ftps` (case-insensitive) and host a dotted DNS
name with a valid top-level label, the literal `localhost`, or a
dotted-quad IPv4 address (case-insensitive).  They are compared with the
source regex in the theorem for claim C3. -/

/-- A string with no whitespace characters. -/
def nonWsStr (s : Str) : Prop := ∀ c ∈ s, isSpacePy c = false

/-- Spec scheme: `http`, `https` or `ftp` with optional trailing `s`,
case-insensitively. -/
def specScheme (s : Str) : Prop :=
  lowerStr s = "http".data ∨ lowerStr s = "https".data ∨
    lowerStr s = "ftp".data ∨ lowerStr s = "ftps".data

/-- Spec credentials part (possibly absent): `user[:password]@` where the
user is non-empty and neither part contains whitespace. -/
def specCreds (s : Str) : Prop :=
  s = [] ∨
    (∃ u, u ≠ [] ∧ nonWsStr u ∧ s = u ++ ['@']) ∨
    (∃ u pw, u ≠ [] ∧ nonWsStr u ∧ nonWsStr pw ∧ s = u ++ ':' :: pw ++ ['@'])

/-- Characters allowed in a DNS label (letters, digits, hyphen). -/
def labelChar (c : Char) : Bool := isAlphaC c || isDigitC c || c = '-'

/-- A non-empty DNS label. -/
def specLabel (l : Str) : Prop := l ≠ [] ∧ ∀ c ∈ l, labelChar c = true

/-- A valid top-level label: two to six letters. -/
def specTld (t : Str) : Prop :=
  2 ≤ t.length ∧ t.length ≤ 6 ∧ ∀ c ∈ t, isAlphaC c = true

/-- A dotted DNS name: one or more dot-terminated labels, a top-level
label, and an optional trailing dot. -/
def specDomain (s : Str) : Prop :=
  ∃ (ls : List Str) (t d : Str), ls ≠ [] ∧ (∀ l ∈ ls, specLabel l) ∧
    specTld t ∧ (d = [] ∨ d = ['.']) ∧
    s = (ls.map (fun l => l ++ ['.'])).flatten ++ t ++ d

/-- One group of a dotted quad: one to three digits. -/
def specQuad (g : Str) : Prop := g ≠ [] ∧ g.length ≤ 3 ∧ ∀ c ∈ g, isDigitC c = true

/-- A dotted-quad IPv4 address shape. -/
def specIPv4 (s : Str) : Prop :=
  ∃ a b c d, specQuad a ∧ specQuad b ∧ specQuad c ∧ specQuad d ∧
    s = a ++ '.' :: b ++ '.' :: c ++ '.' :: d

/-- Spec host: dotted DNS name, `localhost` (case-insensitive), or IPv4. -/
def specHost (s : Str) : Prop :=
  specDomain s ∨ lowerStr s = "localhost".data ∨ specIPv4 s

/-- Spec port part (possibly absent): `:` followed by digits. -/
def specPort (s : Str) : Prop :=
  s = [] ∨ ∃ ds, ds ≠ [] ∧ (∀ c ∈ ds, isDigitC c = true) ∧ s = ':' :: ds

/-- Spec path/query tail: empty, a bare `/`, or `/` or `?` followed by a
non-empty whitespace-free remainder (covering `/path`, `?query` and
`/path?query`). -/
def specTail (s : Str) : Prop :=
  s = [] ∨ s = ['/'] ∨
    ∃ x, x ≠ [] ∧ nonWsStr x ∧ (s = '/' :: x ∨ s = '?' :: x)

/-- The spec's absolute-URL shape. -/
def specShape (s : Str) : Prop :=
  ∃ sch cr h pt tl, specScheme sch ∧ specCreds cr ∧ specHost h ∧
    specPort pt ∧ specTail tl ∧
    s = sch ++ ':' :: '/' :: '/' :: (cr ++ h ++ pt ++ tl)

theorem lowerStr_append (a b : Str) : lowerStr (a ++ b) = lowerStr a ++ lowerStr b :=
  List.map_append lowerC a b

theorem lowerStr_split {w u v : Str} (h : lowerStr w = u ++ v) :
    ∃ a b, w = a ++ b ∧ lowerStr a = u ∧ lowerStr b = v := by
  refine ⟨w.take u.length, w.drop u.length, (List.take_append_drop u.length w).symm, ?_, ?_⟩
  · rw [lowerStr, List.map_take]
    rw [lowerStr] at h
    rw [h, List.take_left]
  · rw [lowerStr, List.map_drop]
    rw [lowerStr] at h
    rw [h, List.drop_left]

theorem accepts_schemeRE_iff {w : Str} : Accepts schemeRE w ↔ specScheme w := by
  rw [schemeRE, accepts_cat_iff]
  constructor
  · rintro ⟨a, b, rfl, ha, hb⟩
    rcases accepts_alt_iff.mp ha with h4 | h3 <;>
      rcases accepts_opt_iff.mp hb with rfl | hs
    · exact .inl (by simpa [lowerStr_append] using accepts_istr_iff.mp h4)
    · rcases accepts_ichr_iff.mp hs with ⟨d, rfl, hd⟩
      refine .inr (.inl ?_)
      rw [lowerStr_append, accepts_istr_iff.mp h4]
      simp [lowerStr, hd]
    · exact .inr (.inr (.inl (by simpa [lowerStr_append] using accepts_istr_iff.mp h3)))
    · rcases accepts_ichr_iff.mp hs with ⟨d, rfl, hd⟩
      refine .inr (.inr (.inr ?_))
      rw [lowerStr_append, accepts_istr_iff.mp h3]
      simp [lowerStr, hd]
  · rintro (h | h | h | h)
    · exact ⟨w, [], by simp, accepts_alt_iff.mpr (.inl (accepts_istr_iff.mpr h)),
        accepts_opt_iff.mpr (.inl rfl)⟩
    · rcases lowerStr_split (u := "http".data) (v := ['s']) (by simpa using h) with
        ⟨a, b, rfl, ha, hb⟩
      have hb1 : ∃ d, b = [d] ∧ lowerC d = 's' := by
        cases b with
        | nil => exact absurd hb (by simp [lowerStr])
        | cons d ds =>
            cases ds with
            | nil => exact ⟨d, rfl, by simpa [lowerStr] using hb⟩
            | cons e es => exact absurd hb (by simp [lowerStr])
      rcases hb1 with ⟨d, rfl, hd⟩
      exact ⟨a, [d], rfl, accepts_alt_iff.mpr (.inl (accepts_istr_iff.mpr ha)),
        accepts_opt_iff.mpr (.inr (accepts_ichr_iff.mpr ⟨d, rfl, hd⟩))⟩
    · exact ⟨w, [], by simp, accepts_alt_iff.mpr (.inr (accepts_istr_iff.mpr h)),
        accepts_opt_iff.mpr (.inl rfl)⟩
    · rcases lowerStr_split (u := "ftp".data) (v := ['s']) (by simpa using h) with
        ⟨a, b, rfl, ha, hb⟩
      have hb1 : ∃ d, b = [d] ∧ lowerC d = 's' := by
        cases b with
        | nil => exact absurd hb (by simp [lowerStr])
        | cons d ds =>
            cases ds with
            | nil => exact ⟨d, rfl, by simpa [lowerStr] using hb⟩
            | cons e es => exact absurd hb (by simp [lowerStr])
      rcases hb1 with ⟨d, rfl, hd⟩
      exact ⟨a, [d], rfl, accepts_alt_iff.mpr (.inr (accepts_istr_iff.mpr ha)),
        accepts_opt_iff.mpr (.inr (accepts_ichr_iff.mpr ⟨d, rfl, hd⟩))⟩

theorem nonWs_of_plusNS {u : Str} (h : Accepts (plusRE clsNS) u) :
    u ≠ [] ∧ nonWsStr u := by
  rcases accepts_plusCls_iff.mp h with ⟨hne, hall⟩
  exact ⟨hne, fun c hc => by simpa using hall c hc⟩

theorem plusNS_of_nonWs {u : Str} (h1 : u ≠ []) (h2 : nonWsStr u) :
    Accepts (plusRE clsNS) u :=
  accepts_plusCls_iff.mpr ⟨h1, fun c hc => by simpa using h2 c hc⟩

theorem accepts_credsRE_iff {w : Str} : Accepts credsRE w ↔ specCreds w := by
  rw [credsRE, accepts_opt_iff, specCreds]
  constructor
  · rintro (rfl | h)
    · exact .inl rfl
    · rcases accepts_cat_iff.mp h with ⟨u, rest, rfl, hu, hrest⟩
      rcases nonWs_of_plusNS hu with ⟨hune, hunw⟩
      rcases accepts_cat_iff.mp hrest with ⟨m, g, rfl, hm, hg⟩
      rw [accepts_chr_iff.mp hg]
      rcases accepts_opt_iff.mp hm with rfl | hm2
      · exact .inr (.inl ⟨u, hune, hunw, by simp⟩)
      · rcases accepts_cat_iff.mp hm2 with ⟨x, pw, rfl, hx, hpw⟩
        rw [accepts_chr_iff.mp hx]
        have hpwnw : nonWsStr pw := fun c hc => by
          simpa using accepts_starCls_iff.mp hpw c hc
        exact .inr (.inr ⟨u, pw, hune, hunw, hpwnw, by simp⟩)
  · rintro (rfl | ⟨u, hune, hunw, rfl⟩ | ⟨u, pw, hune, hunw, hpwnw, rfl⟩)
    · exact .inl rfl
    · refine .inr (accepts_cat_iff.mpr ⟨u, ['@'], rfl, plusNS_of_nonWs hune hunw,
        accepts_cat_iff.mpr ⟨[], ['@'], rfl, accepts_opt_iff.mpr (.inl rfl),
          accepts_chr_iff.mpr rfl⟩⟩)
    · refine .inr (accepts_cat_iff.mpr ⟨u, ':' :: pw ++ ['@'], by simp, plusNS_of_nonWs hune hunw,
        accepts_cat_iff.mpr ⟨':' :: pw, ['@'], by simp, accepts_opt_iff.mpr
          (.inr (accepts_cat_iff.mpr ⟨[':'], pw, rfl, accepts_chr_iff.mpr rfl,
            accepts_starCls_iff.mpr fun c hc => by simpa using hpwnw c hc⟩)),
          accepts_chr_iff.mpr rfl⟩⟩)

theorem accepts_block_iff {x : Str} :
    Accepts (.cat (plusRE clsHostC) (chrRE '.')) x ↔
      ∃ l, specLabel l ∧ x = l ++ ['.'] := by
  rw [accepts_cat_iff]
  constructor
  · rintro ⟨l, g, rfl, hl, hg⟩
    rw [accepts_chr_iff.mp hg]
    rcases accepts_plusCls_iff.mp hl with ⟨hne, hall⟩
    exact ⟨l, ⟨hne, hall⟩, rfl⟩
  · rintro ⟨l, ⟨hne, hall⟩, rfl⟩
    exact ⟨l, ['.'], rfl, accepts_plusCls_iff.mpr ⟨hne, hall⟩, accepts_chr_iff.mpr rfl⟩

theorem accepts_blocks_iff {w : Str} :
    Accepts (plusRE (.cat (plusRE clsHostC) (chrRE '.'))) w ↔
      ∃ ls : List Str, ls ≠ [] ∧ (∀ l ∈ ls, specLabel l) ∧
        w = (ls.map (fun l => l ++ ['.'])).flatten := by
  rw [plusRE, accepts_cat_iff]
  constructor
  · rintro ⟨x, rest, rfl, hx, hrest⟩
    rcases accepts_block_iff.mp hx with ⟨l0, hl0, rfl⟩
    rcases accepts_star_iff.mp hrest with ⟨L, rfl, hL⟩
    refine ⟨l0 :: L.map List.dropLast, by simp, ?_, ?_⟩
    · intro l hl
      rcases List.mem_cons.mp hl with rfl | hl
      · exact hl0
      · rcases List.mem_map.mp hl with ⟨x, hx, rfl⟩
        rcases accepts_block_iff.mp (hL x hx) with ⟨l2, hl2, rfl⟩
        simpa using hl2
    · simp only [List.map_cons, List.map_map, List.flatten_cons]
      have h1 : ∀ x ∈ L, ((fun l => l ++ ['.']) ∘ List.dropLast) x = id x := by
        intro x hx
        rcases accepts_block_iff.mp (hL x hx) with ⟨l2, hl2, rfl⟩
        simp
      rw [List.map_congr_left h1, List.map_id]
  · rintro ⟨ls, hne, hall, rfl⟩
    cases ls with
    | nil => exact absurd rfl hne
    | cons l0 ls2 =>
        refine ⟨l0 ++ ['.'], (ls2.map (fun l => l ++ ['.'])).flatten, by simp, ?_, ?_⟩
        · exact accepts_block_iff.mpr ⟨l0, hall l0 (by simp), rfl⟩
        · refine accepts_star_iff.mpr ⟨ls2.map (fun l => l ++ ['.']), rfl, ?_⟩
          intro x hx
          rcases List.mem_map.mp hx with ⟨l, hl, rfl⟩
          exact accepts_block_iff.mpr ⟨l, hall l (by simp [hl]), rfl⟩

theorem accepts_tld_iff {t : Str} :
    Accepts (.cat clsAlpha (.cat clsAlpha (upToRE clsAlpha 4))) t ↔ specTld t := by
  constructor
  · intro h
    rcases accepts_cat_iff.mp h with ⟨a, rest, rfl, ha, hrest⟩
    rcases accepts_cls_iff.mp ha with ⟨c1, rfl, hc1⟩
    rcases accepts_cat_iff.mp hrest with ⟨b, rest2, rfl, hb, hrest2⟩
    rcases accepts_cls_iff.mp hb with ⟨c2, rfl, hc2⟩
    rcases accepts_upToCls_iff.mp hrest2 with ⟨hlen, hall⟩
    refine ⟨by simp, by simp; omega, ?_⟩
    intro c hc
    have hc9 : c = c1 ∨ c = c2 ∨ c ∈ rest2 := by simpa using hc
    rcases hc9 with rfl | rfl | hcm
    · exact hc1
    · exact hc2
    · exact hall c hcm
  · rintro ⟨h2, h6, hall⟩
    cases t with
    | nil => simp at h2
    | cons c1 t1 =>
        cases t1 with
        | nil => simp at h2
        | cons c2 t2 =>
            refine accepts_cat_iff.mpr ⟨[c1], c2 :: t2, rfl,
              accepts_cls_iff.mpr ⟨c1, rfl, hall c1 (by simp)⟩,
              accepts_cat_iff.mpr ⟨[c2], t2, rfl,
                accepts_cls_iff.mpr ⟨c2, rfl, hall c2 (by simp)⟩,
                accepts_upToCls_iff.mpr ⟨?_, fun c hc => hall c (by simp [hc])⟩⟩⟩
            simp at h6
            omega

theorem accepts_domainRE_iff {w : Str} : Accepts domainRE w ↔ specDomain w := by
  rw [domainRE, accepts_cat_iff]
  constructor
  · rintro ⟨x, y, rfl, hx, hy⟩
    rcases accepts_blocks_iff.mp hx with ⟨ls, hne, hall, rfl⟩
    rcases accepts_cat_iff.mp hy with ⟨t, d, rfl, ht, hd⟩
    have htld := accepts_tld_iff.mp ht
    have hdot : d = [] ∨ d = ['.'] := by
      rcases accepts_opt_iff.mp hd with rfl | h
      · exact .inl rfl
      · exact .inr (accepts_chr_iff.mp h)
    exact ⟨ls, t, d, hne, hall, htld, hdot, by simp⟩
  · rintro ⟨ls, t, d, hne, hall, htld, hdot, rfl⟩
    refine ⟨(ls.map (fun l => l ++ ['.'])).flatten, t ++ d, by simp,
      accepts_blocks_iff.mpr ⟨ls, hne, hall, rfl⟩,
      accepts_cat_iff.mpr ⟨t, d, rfl, accepts_tld_iff.mpr htld, ?_⟩⟩
    rcases hdot with rfl | rfl
    · exact accepts_opt_iff.mpr (.inl rfl)
    · exact accepts_opt_iff.mpr (.inr (accepts_chr_iff.mpr rfl))

theorem accepts_dig13_iff {g : Str} : Accepts dig13 g ↔ specQuad g := by
  rw [dig13, accepts_cat_iff, specQuad]
  constructor
  · rintro ⟨a, b, rfl, ha, hb⟩
    rcases accepts_cls_iff.mp ha with ⟨c, rfl, hc⟩
    rcases accepts_upToCls_iff.mp hb with ⟨hlen, hall⟩
    refine ⟨by simp, by simp; omega, ?_⟩
    intro d hd
    rcases List.mem_cons.mp (by simpa using hd) with rfl | hd
    · exact hc
    · exact hall d hd
  · rintro ⟨hne, hlen, hall⟩
    cases g with
    | nil => exact absurd rfl hne
    | cons c cs =>
        exact ⟨[c], cs, rfl, accepts_cls_iff.mpr ⟨c, rfl, hall c (by simp)⟩,
          accepts_upToCls_iff.mpr ⟨by simp at hlen; omega, fun d hd => hall d (by simp [hd])⟩⟩

theorem accepts_dotdig_iff {x : Str} :
    Accepts (.cat (chrRE '.') dig13) x ↔ ∃ g, specQuad g ∧ x = '.' :: g := by
  rw [accepts_cat_iff]
  constructor
  · rintro ⟨a, g, rfl, ha, hg⟩
    rw [accepts_chr_iff.mp ha]
    exact ⟨g, accepts_dig13_iff.mp hg, rfl⟩
  · rintro ⟨g, hg, rfl⟩
    exact ⟨['.'], g, rfl, accepts_chr_iff.mpr rfl, accepts_dig13_iff.mpr hg⟩

theorem accepts_ipv4RE_iff {w : Str} : Accepts ipv4RE w ↔ specIPv4 w := by
  rw [ipv4RE, accepts_cat_iff, specIPv4]
  constructor
  · rintro ⟨a, x, rfl, ha, hx⟩
    rcases accepts_cat_iff.mp hx with ⟨x1, y, rfl, hx1, hy⟩
    rcases accepts_dotdig_iff.mp hx1 with ⟨b, hb, rfl⟩
    rcases accepts_cat_iff.mp hy with ⟨x2, x3, rfl, hx2, hx3⟩
    rcases accepts_dotdig_iff.mp hx2 with ⟨c, hc, rfl⟩
    rcases accepts_dotdig_iff.mp hx3 with ⟨d, hd, rfl⟩
    exact ⟨a, b, c, d, accepts_dig13_iff.mp ha, hb, hc, hd, by simp⟩
  · rintro ⟨a, b, c, d, ha, hb, hc, hd, rfl⟩
    exact ⟨a, '.' :: b ++ '.' :: c ++ '.' :: d, by simp, accepts_dig13_iff.mpr ha,
      accepts_cat_iff.mpr ⟨'.' :: b, '.' :: c ++ '.' :: d, by simp,
        accepts_dotdig_iff.mpr ⟨b, hb, rfl⟩,
        accepts_cat_iff.mpr ⟨'.' :: c, '.' :: d, by simp,
          accepts_dotdig_iff.mpr ⟨c, hc, rfl⟩, accepts_dotdig_iff.mpr ⟨d, hd, rfl⟩⟩⟩⟩

theorem accepts_hostRE_iff {w : Str} : Accepts hostRE w ↔ specHost w := by
  rw [hostRE, accepts_alt_iff, accepts_alt_iff, accepts_domainRE_iff,
    accepts_istr_iff, accepts_ipv4RE_iff, specHost]

theorem accepts_portRE_iff {w : Str} : Accepts portRE w ↔ specPort w := by
  rw [portRE, accepts_opt_iff, specPort]
  constructor
  · rintro (rfl | h)
    · exact .inl rfl
    · rcases accepts_cat_iff.mp h with ⟨a, ds, rfl, ha, hds⟩
      rw [accepts_chr_iff.mp ha]
      rcases accepts_plusCls_iff.mp hds with ⟨hne, hall⟩
      exact .inr ⟨ds, hne, hall, rfl⟩
  · rintro (rfl | ⟨ds, hne, hall, rfl⟩)
    · exact .inl rfl
    · exact .inr (accepts_cat_iff.mpr ⟨[':'], ds, rfl, accepts_chr_iff.mpr rfl,
        accepts_plusCls_iff.mpr ⟨hne, hall⟩⟩)

theorem accepts_tailRE_iff {w : Str} : Accepts tailRE w ↔ specTail w := by
  rw [tailRE, accepts_alt_iff, accepts_opt_iff, specTail]
  constructor
  · rintro ((rfl | h) | h)
    · exact .inl rfl
    · exact .inr (.inl (accepts_chr_iff.mp h))
    · rcases accepts_cat_iff.mp h with ⟨a, x, rfl, ha, hx⟩
      rcases accepts_cls_iff.mp ha with ⟨c, rfl, hc⟩
      rcases accepts_plusCls_iff.mp hx with ⟨hne, hall⟩
      refine .inr (.inr ⟨x, hne, fun d hd => by simpa using hall d hd, ?_⟩)
      rcases Bool.or_eq_true _ _ ▸ hc with h1 | h1
      · exact .inl (by simp [show c = '/' by simpa using h1])
      · exact .inr (by simp [show c = '?' by simpa using h1])
  · rintro (rfl | rfl | ⟨x, hne, hnw, (rfl | rfl)⟩)
    · exact .inl (.inl rfl)
    · exact .inl (.inr (accepts_chr_iff.mpr rfl))
    · exact .inr (accepts_cat_iff.mpr ⟨['/'], x, rfl,
        accepts_cls_iff.mpr ⟨'/', rfl, by simp⟩,
        accepts_plusCls_iff.mpr ⟨hne, fun c hc => by simpa using hnw c hc⟩⟩)
    · exact .inr (accepts_cat_iff.mpr ⟨['?'], x, rfl,
        accepts_cls_iff.mpr ⟨'?', rfl, by simp⟩,
        accepts_plusCls_iff.mpr ⟨hne, fun c hc => by simpa using hnw c hc⟩⟩)

theorem accepts_urlRegex_iff {s : Str} : Accepts urlRegex s ↔ specShape s := by
  rw [urlRegex, accepts_cat_iff, specShape]
  constructor
  · rintro ⟨sch, x, rfl, hsch, hx⟩
    rcases accepts_cat_iff.mp hx with ⟨sep, y, rfl, hsep, hy⟩
    rw [accepts_str_iff.mp hsep]
    rcases accepts_cat_iff.mp hy with ⟨cr, z, rfl, hcr, hz⟩
    rcases accepts_cat_iff.mp hz with ⟨h, v, rfl, hh, hv⟩
    rcases accepts_cat_iff.mp hv with ⟨pt, tl, rfl, hpt, htl⟩
    exact ⟨sch, cr, h, pt, tl, accepts_schemeRE_iff.mp hsch, accepts_credsRE_iff.mp hcr,
      accepts_hostRE_iff.mp hh, accepts_portRE_iff.mp hpt, accepts_tailRE_iff.mp htl,
      by simp⟩
  · rintro ⟨sch, cr, h, pt, tl, hsch, hcr, hh, hpt, htl, rfl⟩
    exact ⟨sch, ':' :: '/' :: '/' :: (cr ++ h ++ pt ++ tl), rfl,
      accepts_schemeRE_iff.mpr hsch,
      accepts_cat_iff.mpr ⟨[':', '/', '/'], cr ++ h ++ pt ++ tl, by simp,
        accepts_str_iff.mpr rfl,
        accepts_cat_iff.mpr ⟨cr, h ++ pt ++ tl, by simp, accepts_credsRE_iff.mpr hcr,
          accepts_cat_iff.mpr ⟨h, pt ++ tl, by simp, accepts_hostRE_iff.mpr hh,
            accepts_cat_iff.mpr ⟨pt, tl, rfl, accepts_portRE_iff.mpr hpt,
              accepts_tailRE_iff.mpr htl⟩⟩⟩⟩⟩

theorem validate_url_iff {s : Str} :
    validate_url s = true ↔
      specShape s ∨ (s.getLast? = some '\n' ∧ specShape s.dropLast) := by
  unfold validate_url
  cases hlast : s.getLast? with
  | none =>
      simp only [Bool.or_eq_true, matchRE_iff, accepts_urlRegex_iff]
      constructor
      · rintro (h | h)
        · exact .inl h
        · simp at h
      · rintro (h | ⟨h1, _⟩)
        · exact .inl h
        · exact Option.noConfusion h1
  | some c =>
      simp only [Bool.or_eq_true, Bool.and_eq_true, matchRE_iff, accepts_urlRegex_iff,
        decide_eq_true_eq]
      constructor
      · rintro (h | ⟨rfl, h2⟩)
        · exact .inl h
        · exact .inr ⟨rfl, h2⟩
      · rintro (h | ⟨h1, h2⟩)
        · exact .inl h
        · have hc : c = '\n' := by simpa using h1
          subst hc
          exact .inr ⟨rfl, h2⟩

/-! ## The `urllib.parse` fragment used by the program

`sanitize_input` is `urlparse(url).geturl()` and the extractor resolves
hrefs with `urljoin(base_url, href)`.  The functions below embed the
corresponding CPython 3.11.6 code: `urlsplit`, `urlparse`, `urlunsplit`,
`urlunparse`, `urljoin`, `_splitparams`, `_splitnetloc`, the bracket
checks of `urlsplit` (including `_check_bracketed_host`, which defers to
`ipaddress`), and the scheme tables `uses_relative`, `uses_netloc`,
`uses_params`.  A raised `ValueError` is modelled as `Except.error ()`. -/

/-- Characters stripped from the front of the URL by `urlsplit`
(`_WHATWG_C0_CONTROL_OR_SPACE`: code points 0x00 to 0x20). -/
def c0OrSpace (c : Char) : Bool := c.toNat ≤ 32

/-- Characters removed everywhere by `urlsplit`
(`_UNSAFE_URL_BYTES_TO_REMOVE`: tab, CR, LF). -/
def badChar (c : Char) : Bool := c = '\t' || c = '\r' || c = '\n'

/-- The cleaning `urlsplit` applies to its `url` argument: `lstrip` of
C0-control-or-space, then removal of tab, CR and LF. -/
def cleanUrl (u : Str) : Str := (u.dropWhile c0OrSpace).filter (fun c => !badChar c)

/-- The cleaning `urlsplit` applies to its `scheme` argument (`strip` on
both sides, then removal of tab, CR, LF). -/
def cleanScheme (s : Str) : Str :=
  ((s.dropWhile c0OrSpace).reverse.dropWhile c0OrSpace).reverse.filter (fun c => !badChar c)

/-- Characters permitted in a scheme (`scheme_chars`). -/
def schemeChar (c : Char) : Bool :=
  isAlphaC c || isDigitC c || c = '+' || c = '-' || c = '.'

/-- The scheme-recognition step of `urlsplit`: there must be a `:` whose
prefix is non-empty, starts with an ASCII letter and consists of scheme
characters; the scheme is lower-cased.  `none` when no scheme is found. -/
def splitScheme (u : Str) : Option (Str × Str) :=
  let b := u.dropWhile (· ≠ ':')
  if b.head? = some ':' then
    match u.takeWhile (· ≠ ':') with
    | [] => none
    | c :: a =>
        if isAlphaC c ∧ (c :: a).all schemeChar then
          some ((c :: a).map lowerC, b.drop 1)
        else none
  else none

/-- Python's `sep.join(xs)`. -/
def pyJoin (sep : Str) : List Str → Str
  | [] => []
  | [x] => x
  | x :: xs => x ++ sep ++ pyJoin sep xs

/-- A character that does not end the netloc (`_splitnetloc` stops at the
first of `/`, `?`, `#`). -/
def netChar (c : Char) : Bool := c ≠ '/' && c ≠ '?' && c ≠ '#'

/-- Split at the first occurrence of `d` (as Python's `str.split(d, 1)`
when `d` occurs, and `(u, "")` otherwise). -/
def splitFirst (d : Char) (u : Str) : Str × Str :=
  (u.takeWhile (· ≠ d), (u.dropWhile (· ≠ d)).drop 1)

/-- Python's `str.split(d)` for a one-character separator. -/
def splitAll (d : Char) : Str → List Str
  | [] => [[]]
  | c :: cs =>
      if c = d then [] :: splitAll d cs
      else
        match splitAll d cs with
        | [] => [[c]]
        | t :: ts => (c :: t) :: ts

/-- ASCII hexadecimal digit. -/
def isHexC (c : Char) : Bool :=
  isDigitC c || ('a' ≤ c && c ≤ 'f') || ('A' ≤ c && c ≤ 'F')

/-- Decimal value of a digit string. -/
def digitsVal (s : Str) : Nat := s.foldl (fun n c => n * 10 + (c.toNat - 48)) 0

/-- One IPv4 octet as accepted by `ipaddress._parse_octet` (CPython 3.11):
one to three ASCII digits, no leading zero unless the octet is `0`, value
at most 255. -/
def octetOK (s : Str) : Bool :=
  s ≠ [] && s.length ≤ 3 && s.all isDigitC &&
    (s.length = 1 || s.head? ≠ some '0') && digitsVal s ≤ 255

/-- A dotted-quad IPv4 address as accepted by `ipaddress.IPv4Address`. -/
def ipv4OK (s : Str) : Bool :=
  match splitAll '.' s with
  | [a, b, c, d] => octetOK a && octetOK b && octetOK c && octetOK d
  | _ => false

/-- One IPv6 hextet as accepted by `ipaddress._parse_hextet`: one to four
hexadecimal digits. -/
def hextetOK (s : Str) : Bool := s ≠ [] && s.length ≤ 4 && s.all isHexC

/-- An IPv6 address as accepted by `ipaddress.IPv6Address._ip_int_from_string`
(CPython 3.11): colon-separated hextets, a possible trailing embedded IPv4
address (replaced by two hextet slots), at most one `::`, with the
bookkeeping of `parts_hi`/`parts_lo`/`parts_skipped`. -/
def ipv6OK (s : Str) : Bool :=
  if s = [] then false
  else
    let parts0 := splitAll ':' s
    if parts0.length < 3 then false
    else
      let lst := parts0.getLast?.getD []
      if lst.contains '.' && !ipv4OK lst then false
      else
        let parts := if lst.contains '.' then parts0.dropLast ++ [['0'], ['0']] else parts0
        let n := parts.length
        if n > 9 then false
        else
          match (List.range n).filter
              (fun i => decide (0 < i) && decide (i < n - 1) && decide (parts.getD i [] = [])) with
          | [] =>
              decide (n = 8) && decide (parts.getD 0 [] ≠ []) &&
                decide (parts.getD (n - 1) [] ≠ []) && parts.all hextetOK
          | [i] =>
              let firstEmpty := parts.getD 0 [] = []
              let lastEmpty := parts.getD (n - 1) [] = []
              let hi := if firstEmpty then i - 1 else i
              let lo := if lastEmpty then n - i - 2 else n - i - 1
              (!firstEmpty || decide (hi = 0)) && (!lastEmpty || decide (lo = 0)) &&
                decide (hi + lo ≤ 7) &&
                (parts.take hi).all hextetOK && (parts.drop (n - lo)).all hextetOK
          | _ => false

/-- An IPv6 address with an optional `%scope` suffix, as accepted by the
`ipaddress.IPv6Address` constructor. -/
def ipv6WithScopeOK (s : Str) : Bool :=
  if s.contains '%' then
    let p := splitFirst '%' s
    p.2 ≠ [] && !p.2.contains '%' && ipv6OK p.1
  else ipv6OK s

/-- The IPvFuture pattern `\Av[a-fA-F0-9]+\..+\Z` of
`_check_bracketed_host` (the netloc contains no LF, so `.` is unrestricted
here). -/
def ipvFutureOK (h : Str) : Bool :=
  match h with
  | 'v' :: t =>
      match t.dropWhile isHexC with
      | '.' :: b => t.takeWhile isHexC ≠ [] && b ≠ []
      | _ => false
  | _ => false

/-- `_check_bracketed_host` (CPython 3.11): a host starting with `v` must
be an IPvFuture; otherwise `ipaddress.ip_address` must parse it, and an
IPv4 address in brackets is an error, so it must be an IPv6 address. -/
def bracketedHostOK (h : Str) : Bool :=
  if h.head? = some 'v' then ipvFutureOK h
  else if ipv4OK h then false
  else ipv6WithScopeOK h

/-- The result of `urlsplit`. -/
structure SplitRes where
  scheme : Str
  netloc : Str
  path : Str
  query : Str
  frag : Str
deriving DecidableEq, Repr

/-- The scheme component `urlsplit` computes: the recognised scheme of
the cleaned URL, or the cleaned default. -/
def schemeOfSplit (u dscheme : Str) : Str :=
  match splitScheme (cleanUrl u) with
  | some q => q.1
  | none => cleanScheme dscheme

/-- The cleaned URL with a recognised scheme removed. -/
def restAfterScheme (u : Str) : Str :=
  match splitScheme (cleanUrl u) with
  | some q => q.2
  | none => cleanUrl u

/-- The netloc `urlsplit` computes: after a leading `//`, up to the first
`/`, `?` or `#` (`_splitnetloc`); empty otherwise. -/
def netlocOf (u : Str) : Str :=
  if (restAfterScheme u).take 2 = ['/', '/'] then
    ((restAfterScheme u).drop 2).takeWhile netChar
  else []

/-- What remains of the URL after removing `//` and the netloc. -/
def restAfterNetloc (u : Str) : Str :=
  if (restAfterScheme u).take 2 = ['/', '/'] then
    ((restAfterScheme u).drop 2).dropWhile netChar
  else restAfterScheme u

/-- The bracketed host inside a netloc
(`netloc.partition('[')[2].partition(']')[0]`). -/
def bracketedOf (netloc : Str) : Str :=
  ((netloc.dropWhile (· ≠ '[')).drop 1).takeWhile (· ≠ ']')

/-- The characters on which `_checknetloc` raises: a codepoint whose NFKC
normalization contains one of the URL separators `/`, `?`, `#`, `@`, `:`
(CPython 3.11.6 Unicode tables; exactly these nineteen codepoints have a
compatibility decomposition containing a separator).  `_checknetloc`
strips the literal separators `@:#?` from the netloc, NFKC-normalizes the
rest, and raises `ValueError` iff the normal form still contains a
separator after changing - which happens iff the netloc contains one of
these characters: the separators themselves are NFKC-fixed and appear in
no canonical composition, so a separator is present in the normal form of
a string exactly when some single character of it normalizes to a
sequence containing one. -/
def nfkcSeparator (c : Char) : Bool :=
  c.toNat = 0x2047 || c.toNat = 0x2048 || c.toNat = 0x2049 ||
  c.toNat = 0x2100 || c.toNat = 0x2101 || c.toNat = 0x2105 ||
  c.toNat = 0x2106 || c.toNat = 0x2A74 || c.toNat = 0xFE13 ||
  c.toNat = 0xFE16 || c.toNat = 0xFE55 || c.toNat = 0xFE56 ||
  c.toNat = 0xFE5F || c.toNat = 0xFE6B || c.toNat = 0xFF03 ||
  c.toNat = 0xFF0F || c.toNat = 0xFF1A || c.toNat = 0xFF1F ||
  c.toNat = 0xFF20

/-- CPython 3.11.6 `urllib.parse.urlsplit` with `allow_fragments=True`:
clean the inputs, recognise the scheme (falling back to the cleaned
default), take the netloc after a leading `//` up to the first `/`, `?`
or `#` (raising `ValueError` on mismatched brackets or an invalid
bracketed host), split off the fragment at the first `#` and the query at
the first `?`, and raise `ValueError` (`_checknetloc`) when the netloc
has a character whose NFKC normalization introduces a URL separator.
(`_checknetloc` runs after the fragment/query split in the source; with
errors modelled as `Except Unit` the order of the raises is
unobservable.) -/
def urlsplitE (u0 : Str) (dscheme : Str) : Except Unit SplitRes :=
  let netloc := netlocOf u0
  if netloc.contains '[' != netloc.contains ']' then .error ()
  else if netloc.contains '[' && !bracketedHostOK (bracketedOf netloc) then .error ()
  else if netloc.any nfkcSeparator then .error ()
  else
    let pf := splitFirst '#' (restAfterNetloc u0)
    let pq := splitFirst '?' pf.1
    .ok ⟨schemeOfSplit u0 dscheme, netloc, pq.1, pq.2, pf.2⟩

/-- Scheme table `uses_relative` (CPython 3.11.6). -/
def uses_relative : List Str :=
  ["", "ftp", "http", "gopher", "nntp", "imap", "wais", "file", "https", "shttp",
    "mms", "prospero", "rtsp", "rtsps", "rtspu", "sftp", "svn", "svn+ssh", "ws",
    "wss"].map String.data

/-- Scheme table `uses_netloc` (CPython 3.11.6). -/
def uses_netloc : List Str :=
  ["", "ftp", "http", "gopher", "nntp", "telnet", "imap", "wais", "file", "mms",
    "https", "shttp", "snews", "prospero", "rtsp", "rtsps", "rtspu", "rsync",
    "svn", "svn+ssh", "sftp", "nfs", "git", "git+ssh", "ws", "wss"].map String.data

/-- Scheme table `uses_params` (CPython 3.11.6). -/
def uses_params : List Str :=
  ["", "ftp", "hdl", "prospero", "http", "imap", "https", "shttp", "rtsp",
    "rtsps", "rtspu", "sip", "sips", "mms", "sftp", "tel"].map String.data

/-- `_splitparams`: when the path contains `/`, split at the first `;`
at or after the last `/` (no split if there is none); otherwise split at
the first `;`.  Only invoked when the path contains `;`. -/
def splitparams (p : Str) : Str × Str :=
  if p.contains '/' then
    let tl := (p.reverse.takeWhile (· ≠ '/')).reverse
    let stem := p.take (p.length - tl.length)
    if tl.contains ';' then
      (stem ++ tl.takeWhile (· ≠ ';'), (tl.dropWhile (· ≠ ';')).drop 1)
    else (p, [])
  else (p.takeWhile (· ≠ ';'), (p.dropWhile (· ≠ ';')).drop 1)

/-- The result of `urlparse`. -/
structure ParseRes where
  scheme : Str
  netloc : Str
  path : Str
  params : Str
  query : Str
  frag : Str
deriving DecidableEq, Repr

/-- CPython 3.11.6 `urllib.parse.urlparse`: `urlsplit`, then split the
params from the path when the scheme uses params and the path contains
`;`. -/
def urlparseE (u : Str) (dscheme : Str) : Except Unit ParseRes :=
  (urlsplitE u dscheme).map fun r =>
    if uses_params.contains r.scheme ∧ r.path.contains ';' then
      let pr := splitparams r.path
      ⟨r.scheme, r.netloc, pr.1, pr.2, r.query, r.frag⟩
    else ⟨r.scheme, r.netloc, r.path, [], r.query, r.frag⟩

/-- CPython 3.11.6 `urllib.parse.urlunsplit`. -/
def urlunsplit (r : SplitRes) : Str :=
  let url := r.path
  let url :=
    if r.netloc ≠ [] ∨ (r.scheme ≠ [] ∧ uses_netloc.contains r.scheme ∧
        url.take 2 ≠ ['/', '/']) then
      '/' :: '/' :: (r.netloc ++ (if url ≠ [] ∧ url.head? ≠ some '/' then '/' :: url else url))
    else url
  let url := if r.scheme ≠ [] then r.scheme ++ ':' :: url else url
  let url := if r.query ≠ [] then url ++ '?' :: r.query else url
  if r.frag ≠ [] then url ++ '#' :: r.frag else url

/-- The path-with-params of a parse result (`urlunparse` re-joins them
with `;` when params are present). -/
def mergePP (path params : Str) : Str :=
  if params ≠ [] then path ++ ';' :: params else path

/-- CPython 3.11.6 `urllib.parse.urlunparse` (this is `geturl` on a
`ParseResult`). -/
def urlunparse (r : ParseRes) : Str :=
  urlunsplit ⟨r.scheme, r.netloc, mergePP r.path r.params, r.query, r.frag⟩

/-- The URL sanitizer of src/main.py (lines 125-136):
`urlparse(url).geturl()`.  `urlparse` can raise `ValueError`, which
escapes `sanitize_input` (there is no handler around it). -/
def sanitize_input (u : Str) : Except Unit Str := (urlparseE u []).map urlunparse

/-- Keep the first and last elements, drop empty strings in between
(`segments[1:-1] = filter(None, segments[1:-1])` in `urljoin`). -/
def midFilter : List Str → List Str
  | [] => []
  | x :: xs => x :: midFilterAux xs
where
  midFilterAux : List Str → List Str
    | [] => []
    | [x] => [x]
    | x :: xs => if x = [] then midFilterAux xs else x :: midFilterAux xs

/-- The segment-resolution loop of `urljoin` (`..` pops, `.` is skipped),
with the accumulator kept reversed. -/
def resolveSegs (acc : List Str) : List Str → List Str
  | [] => acc.reverse
  | seg :: rest =>
      if seg = "..".data then resolveSegs (acc.drop 1) rest
      else if seg = ".".data then resolveSegs acc rest
      else resolveSegs (seg :: acc) rest

/-- CPython 3.11.6 `urllib.parse.urljoin`. -/
def urljoinE (base url : Str) : Except Unit Str :=
  if base = [] then .ok url
  else if url = [] then .ok base
  else
    match urlparseE base [] with
    | .error e => .error e
    | .ok b =>
      match urlparseE url b.scheme with
      | .error e => .error e
      | .ok r =>
        if r.scheme ≠ b.scheme ∨ ¬ uses_relative.contains r.scheme then .ok url
        else if uses_netloc.contains r.scheme ∧ r.netloc ≠ [] then
          .ok (urlunparse ⟨r.scheme, r.netloc, r.path, r.params, r.query, r.frag⟩)
        else
          let netloc := if uses_netloc.contains r.scheme then b.netloc else r.netloc
          if r.path = [] ∧ r.params = [] then
            .ok (urlunparse ⟨r.scheme, netloc, b.path, b.params,
              (if r.query = [] then b.query else r.query), r.frag⟩)
          else
            let baseParts0 := splitAll '/' b.path
            let baseParts :=
              if baseParts0.getLast? ≠ some [] then baseParts0.dropLast else baseParts0
            let segments :=
              if r.path.take 1 = ['/'] then splitAll '/' r.path
              else midFilter (baseParts ++ splitAll '/' r.path)
            let rp0 := resolveSegs [] segments
            let rp :=
              if segments.getLast? = some ".".data ∨ segments.getLast? = some "..".data then
                rp0 ++ [[]]
              else rp0
            let newPath := if pyJoin ['/'] rp = [] then ['/'] else pyJoin ['/'] rp
            .ok (urlunparse ⟨r.scheme, netloc, newPath, r.params, r.query, r.frag⟩)

/-! ## The parsed HTML document and the extraction loop

BeautifulSoup's document tree is modelled as a tree of element and text
nodes.  `find_all(name)` iterates the document's descendants in preorder
(document order) and filters by tag name; `tag.find('a', href=True)`
iterates the tag's descendants and returns the first anchor carrying an
`href` attribute; `get_text(separator=' ', strip=True)` strips each
descendant text node, drops the ones that become empty, and joins the
rest with single spaces.  That is exactly how the functions below are
defined. -/

/-- A node of the parsed document: a text node or an element with a tag
name, attributes and children. -/
inductive Node where
  | txt : Str → Node
  | elem : Str → List (Str × Str) → List Node → Node

mutual

/-- A node together with all its descendants, in preorder. -/
def descendants : Node → List Node
  | .txt s => [.txt s]
  | .elem t a cs => .elem t a cs :: descendantsL cs

/-- All nodes of a forest, in document order. -/
def descendantsL : List Node → List Node
  | [] => []
  | n :: ns => descendants n ++ descendantsL ns

end

/-- The descendants of a node, excluding the node itself (what
BeautifulSoup's `.descendants` iterates). -/
def subnodes : Node → List Node
  | .txt _ => []
  | .elem _ _ cs => descendantsL cs

/-- The string of a text node. -/
def txtOf : Node → Option Str
  | .txt s => some s
  | .elem _ _ _ => none

/-- Python's `str.strip()` (ASCII whitespace fragment). -/
def pyStrip (s : Str) : Str :=
  ((s.dropWhile isSpacePy).reverse.dropWhile isSpacePy).reverse

/-- BeautifulSoup's `get_text(separator=' ', strip=True)`: each descendant
text node is stripped, empty results are dropped, and the remainder is
joined with single spaces. -/
def get_text (n : Node) : Str :=
  pyJoin [' '] (((subnodes n).filterMap txtOf).map pyStrip |>.filter (· ≠ []))

/-- First value bound to `key` in an attribute list (HTML parsers keep the
first occurrence of a duplicated attribute). -/
def lookupAttr : List (Str × Str) → Str → Option Str
  | [], _ => none
  | (k, v) :: rest, key => if k = key then some v else lookupAttr rest key

/-- The `href` of a node, when it is an anchor element carrying one. -/
def hrefOf : Node → Option Str
  | .txt _ => none
  | .elem t attrs _ => if t = "a".data then lookupAttr attrs "href".data else none

/-- `li.find('a', href=True)`: the first descendant anchor with an `href`
attribute, in document order. -/
def findHref (li : Node) : Option Str := ((subnodes li).filterMap hrefOf).head?

/-- Is the node an `li` element? -/
def isLi : Node → Bool
  | .txt _ => false
  | .elem t _ _ => t = "li".data

/-- `soup.find_all('li')`: every `li` element of the document, in document
order (nested `li` elements are listed as well). -/
def find_all_li (soup : List Node) : List Node := (descendantsL soup).filter isLi

/-- Substring check on the head of a string. -/
def startsW : Str → Str → Bool
  | _, [] => true
  | [], _ :: _ => false
  | c :: cs, d :: ds => c = d && startsW cs ds

/-- Python's `pat in s` substring test. -/
def hasSub (s pat : Str) : Bool :=
  startsW s pat ||
    (match s with
     | [] => false
     | _ :: t => hasSub t pat)

/-- The matching word of the extraction loop. -/
def scholarshipWord : Str := "scholarship".data

/-- Does a list item's flattened text mention "scholarship"
(case-insensitively)?  This is `'scholarship' in text.lower()`. -/
def matchesLi (li : Node) : Bool := hasSub (lowerStr (get_text li)) scholarshipWord

/-- One extracted entry, `{'text': ..., 'url': ...}`. -/
structure Entry where
  text : Str
  url : Option Str
deriving DecidableEq, Repr

/-- The loop body of `extract_scholarship_data`: for each list item whose
flattened text mentions "scholarship", emit its text together with the
first anchor href resolved against the base URL (or no URL when the item
has no anchor with an href).  `urljoin` can raise `ValueError`, which
propagates out of the loop. -/
def extractFrom (base : Str) : List Node → Except Unit (List Entry)
  | [] => .ok []
  | li :: rest =>
      if matchesLi li then
        match findHref li with
        | some h =>
            match urljoinE base h with
            | .error e => .error e
            | .ok u => (extractFrom base rest).map (⟨get_text li, some u⟩ :: ·)
        | none => (extractFrom base rest).map (⟨get_text li, none⟩ :: ·)
      else extractFrom base rest

/-- The extractor of src/main.py (lines 82-109). -/
def extract_scholarship_data (soup : List Node) (base : Str) : Except Unit (List Entry) :=
  extractFrom base (find_all_li soup)

/-! ## Fetch, persistence and the `/scrape` endpoint

The network and the disk are modelled as explicit outcomes supplied to the
pipeline.  `fetch_page_content` performs exactly one GET with a 10-second
timeout (`requests.get(url, timeout=10)`) and calls `raise_for_status`,
which raises exactly for status codes in 400..599; `save_to_json` catches
its own IO errors; `scrape` wires everything together as in
src/main.py lines 152-191 (note that `sanitize_input` runs outside the
`try` block, so a `ValueError` from it escapes the handler). -/

/-- Outcome of the single HTTP GET. -/
inductive FetchOutcome where
  | timeout : FetchOutcome
  | netError : FetchOutcome
  | response : Nat → List Node → FetchOutcome

/-- An issued HTTP request (URL and timeout in seconds). -/
structure HttpReq where
  url : Str
  timeoutSecs : Nat
deriving DecidableEq, Repr

/-- The failure of a fetch, a `requests.exceptions.RequestException`. -/
inductive FetchErr where
  | timeout : FetchErr
  | netError : FetchErr
  | httpStatus : Nat → FetchErr
deriving DecidableEq, Repr

/-- The fetcher of src/main.py (lines 62-80): one GET with `timeout=10`,
then `raise_for_status` (which raises for 400..499 "Client Error" and
500..599 "Server Error"); on success the parsed document is returned.
The first component lists the requests issued. -/
def fetch_page_content (oracle : FetchOutcome) (url : Str) :
    List HttpReq × Except FetchErr (List Node) :=
  ([⟨url, 10⟩],
    match oracle with
    | .timeout => .error .timeout
    | .netError => .error .netError
    | .response st body =>
        if (400 ≤ st ∧ st < 500) ∨ (500 ≤ st ∧ st < 600) then .error (.httpStatus st)
        else .ok body)

/-- Observable outcome of `save_to_json`. -/
inductive SaveOutcome where
  | written : List Entry → SaveOutcome
  | ioErrorLogged : SaveOutcome
deriving DecidableEq, Repr

/-- The writer of src/main.py (lines 111-123): writes the data, and
catches (only logs) an `IOError`; it never propagates the failure. -/
def save_to_json (diskOk : Bool) (data : List Entry) : SaveOutcome :=
  if diskOk then .written data else .ioErrorLogged

/-- The JSON body and status of a `/scrape` response. -/
inductive ScrapeResp where
  | badRequest : ScrapeResp
  | missingUrl : ScrapeResp
  | invalidFormat : ScrapeResp
  | scrapeError : ScrapeResp
  | unhandled : ScrapeResp
  | okEmpty : ScrapeResp
  | okPoints : List Entry → ScrapeResp
deriving DecidableEq, Repr

/-- The request payload: no JSON body, or a body with an optional url
field. -/
inductive Payload where
  | noJson : Payload
  | withUrl : Option Str → Payload
deriving DecidableEq, Repr

/-- The part of `scrape` after a successful fetch: extract, and when the
entry list is non-empty save it (best effort) and return it; an empty
list returns the "No scholarships found." response without touching the
output file; an extraction error lands in the endpoint's exception
handler. -/
def scrapeCore (soup : List Node) (su : Str) (diskOk : Bool) :
    ScrapeResp × Option SaveOutcome :=
  match extract_scholarship_data soup su with
  | .error _ => (.scrapeError, none)
  | .ok pts =>
      if pts = [] then (.okEmpty, none)
      else (.okPoints pts, some (save_to_json diskOk pts))

/-- The `/scrape` endpoint of src/main.py (lines 152-191). -/
def scrape (payload : Payload) (oracle : FetchOutcome) (diskOk : Bool) :
    ScrapeResp × Option SaveOutcome :=
  match payload with
  | .noJson => (.badRequest, none)
  | .withUrl none => (.missingUrl, none)
  | .withUrl (some u) =>
      if u = [] then (.missingUrl, none)
      else
        match sanitize_input u with
        | .error _ => (.unhandled, none)
        | .ok su =>
            if validate_url su then
              match (fetch_page_content oracle su).2 with
              | .error _ => (.scrapeError, none)
              | .ok body => scrapeCore body su diskOk
            else (.invalidFormat, none)

/-! ## Characterising the extraction loop -/

/-- Did the computation succeed? -/
def isOkE {ε α : Type} : Except ε α → Bool
  | .ok _ => true
  | .error _ => false

/-- The entry the loop builds for a matching list item. -/
def entryOf (base : Str) (li : Node) : Entry :=
  ⟨get_text li, (findHref li).bind fun h => (urljoinE base h).toOption⟩

/-- Every matching item of the list resolves its href (if any) against the
base without an error. -/
def joinsOK (base : Str) (ls : List Node) : Prop :=
  ∀ li ∈ ls, matchesLi li = true →
    ∀ h, findHref li = some h → isOkE (urljoinE base h) = true

theorem extractFrom_eq {base : Str} {ls : List Node} (hj : joinsOK base ls) :
    extractFrom base ls = .ok ((ls.filter matchesLi).map (entryOf base)) := by
  induction ls with
  | nil => rfl
  | cons li rest ih =>
      have hj2 : joinsOK base rest := fun x hx => hj x (List.mem_cons_of_mem _ hx)
      by_cases hm : matchesLi li = true
      · cases hh : findHref li with
        | some h =>
            cases hu : urljoinE base h with
            | error e =>
                have hok := hj li (List.mem_cons_self _ _) hm h hh
                rw [hu] at hok
                exact absurd hok (by simp [isOkE])
            | ok u =>
                simp [extractFrom, hm, hh, hu, ih hj2, List.filter_cons, entryOf,
                  Except.map, Except.toOption]
        | none =>
            simp [extractFrom, hm, hh, ih hj2, List.filter_cons, entryOf, Except.map]
      · simp [extractFrom, hm, ih hj2, List.filter_cons]

theorem extractFrom_mem {base : Str} {ls : List Node} {pts : List Entry}
    (h : extractFrom base ls = .ok pts) :
    ∀ e ∈ pts, ∃ li ∈ ls, matchesLi li = true ∧ e.text = get_text li ∧
      ((findHref li = none ∧ e.url = none) ∨
        ∃ hr u, findHref li = some hr ∧ urljoinE base hr = .ok u ∧ e.url = some u) := by
  induction ls generalizing pts with
  | nil =>
      simp only [extractFrom, Except.ok.injEq] at h
      subst h
      intro e he
      exact absurd he (by simp)
  | cons li rest ih =>
      by_cases hm : matchesLi li = true
      · cases hh : findHref li with
        | some hr =>
            cases hu : urljoinE base hr with
            | error e0 => simp [extractFrom, hm, hh, hu] at h
            | ok u =>
                rw [extractFrom] at h
                rw [if_pos hm, hh] at h
                dsimp only at h
                rw [hu] at h
                cases hrest : extractFrom base rest with
                | error e0 => rw [hrest] at h; exact absurd h (by simp [Except.map])
                | ok pts2 =>
                    rw [hrest] at h
                    simp only [Except.map, Except.ok.injEq] at h
                    subst h
                    intro e he
                    rcases List.mem_cons.mp he with rfl | he2
                    · exact ⟨li, by simp, hm, rfl, .inr ⟨hr, u, hh, hu, rfl⟩⟩
                    · rcases ih hrest e he2 with ⟨li2, hli2, hm2, ht2, hu2⟩
                      exact ⟨li2, by simp [hli2], hm2, ht2, hu2⟩
        | none =>
            rw [extractFrom] at h
            rw [if_pos hm, hh] at h
            dsimp only at h
            cases hrest : extractFrom base rest with
            | error e0 => rw [hrest] at h; exact absurd h (by simp [Except.map])
            | ok pts2 =>
                rw [hrest] at h
                simp only [Except.map, Except.ok.injEq] at h
                subst h
                intro e he
                rcases List.mem_cons.mp he with rfl | he2
                · exact ⟨li, by simp, hm, rfl, .inl ⟨hh, rfl⟩⟩
                · rcases ih hrest e he2 with ⟨li2, hli2, hm2, ht2, hu2⟩
                  exact ⟨li2, by simp [hli2], hm2, ht2, hu2⟩
      · rw [extractFrom, if_neg hm] at h
        intro e he
        rcases ih h e he with ⟨li2, hli2, hm2, ht2, hu2⟩
        exact ⟨li2, by simp [hli2], hm2, ht2, hu2⟩

/-! ## Trimmedness of the flattened text -/

/-- A string with no leading and no trailing whitespace. -/
def trimmedStr (s : Str) : Bool :=
  s.head?.all (fun c => !isSpacePy c) && s.getLast?.all (fun c => !isSpacePy c)

theorem head?_dropWhile_not (p : Char → Bool) (l : Str) :
    (l.dropWhile p).head?.all (fun c => !p c) = true := by
  induction l with
  | nil => rfl
  | cons c cs ih =>
      by_cases hc : p c = true
      · simpa [List.dropWhile_cons, hc] using ih
      · simp [List.dropWhile_cons, hc]

theorem getLast?_append_right {a b : Str} (h : b ≠ []) :
    (a ++ b).getLast? = b.getLast? := by
  rw [← List.head?_reverse, List.reverse_append, List.head?_append_of_ne_nil _ (by simpa using h),
    List.head?_reverse]

theorem getLast?_dropWhile_of_ne {p : Char → Bool} {l : Str}
    (h : l.dropWhile p ≠ []) : (l.dropWhile p).getLast? = l.getLast? := by
  conv_rhs => rw [← List.takeWhile_append_dropWhile (p := p) (l := l)]
  rw [getLast?_append_right h]

theorem pyStrip_getLast (s : Str) :
    (pyStrip s).getLast?.all (fun c => !isSpacePy c) = true := by
  rw [pyStrip, List.getLast?_reverse]
  exact head?_dropWhile_not _ _

theorem pyStrip_head (s : Str) :
    (pyStrip s).head?.all (fun c => !isSpacePy c) = true := by
  rw [pyStrip, List.head?_reverse]
  cases hX : (s.dropWhile isSpacePy).reverse.dropWhile isSpacePy with
  | nil => simp
  | cons x xs =>
      rw [← hX, getLast?_dropWhile_of_ne (by rw [hX]; simp), List.getLast?_reverse]
      exact head?_dropWhile_not _ _

theorem pyJoin_ne_nil {r : Str} {rs : List Str} (h : r ≠ []) :
    pyJoin [' '] (r :: rs) ≠ [] := by
  cases rs with
  | nil => simpa [pyJoin] using h
  | cons r2 rs2 =>
      simp only [pyJoin]
      intro hc
      rcases List.append_eq_nil.mp hc with ⟨h1, _⟩
      rcases List.append_eq_nil.mp h1 with ⟨h2, _⟩
      exact h h2

theorem pyJoin_trimmed {L : List Str}
    (h : ∀ r ∈ L, r ≠ [] ∧ r.head?.all (fun c => !isSpacePy c) = true ∧
      r.getLast?.all (fun c => !isSpacePy c) = true) :
    trimmedStr (pyJoin [' '] L) = true := by
  induction L with
  | nil => rfl
  | cons r rs ih =>
      rcases h r (by simp) with ⟨h1, h2, h3⟩
      cases rs with
      | nil => simp [pyJoin, trimmedStr, h2, h3]
      | cons r2 rs2 =>
          have ih2 := ih (fun x hx => h x (by simp [hx]))
          have hr2 : r2 ≠ [] := (h r2 (by simp)).1
          have hjoin : pyJoin [' '] (r2 :: rs2) ≠ [] := pyJoin_ne_nil hr2
          rw [trimmedStr] at ih2 ⊢
          rcases Bool.and_eq_true _ _ ▸ ih2 with ⟨_, ihLast⟩
          have hshape : pyJoin [' '] (r :: r2 :: rs2) = r ++ [' '] ++ pyJoin [' '] (r2 :: rs2) := rfl
          rw [hshape, List.append_assoc, List.head?_append_of_ne_nil _ h1]
          rw [getLast?_append_right (by simp)]
          rw [getLast?_append_right hjoin]
          simp only [Bool.and_eq_true]
          exact ⟨by simpa using h2, ihLast⟩

theorem get_text_trimmed (n : Node) : trimmedStr (get_text n) = true := by
  rw [get_text]
  apply pyJoin_trimmed
  intro r hr
  rcases List.mem_filter.mp hr with ⟨hr1, hr2⟩
  rcases List.mem_map.mp hr1 with ⟨s0, _, rfl⟩
  exact ⟨by simpa using hr2, pyStrip_head s0, pyStrip_getLast s0⟩

theorem startsW_nil_false {pat : Str} (hp : pat ≠ []) : startsW [] pat = false := by
  cases pat with
  | nil => exact absurd rfl hp
  | cons c cs => rfl

theorem hasSub_ne_nil {s pat : Str} (h : hasSub s pat = true) (hp : pat ≠ []) :
    s ≠ [] := by
  intro hs
  subst hs
  rw [hasSub, startsW_nil_false hp] at h
  exact absurd h (by simp)

theorem matchesLi_text_ne_nil {li : Node} (h : matchesLi li = true) :
    get_text li ≠ [] := by
  rw [matchesLi] at h
  have := hasSub_ne_nil h (by simp [scholarshipWord])
  intro hc
  rw [hc] at this
  exact this rfl

/-! ## Concrete documents and URLs used in witnesses and counterexamples -/

/-- A base URL used in several concrete checks. -/
def baseExample : Str := "http://example.com/".data

/-- A matching list item without an anchor. -/
def liPlain : Node := .elem "li".data [] [.txt "Merit Scholarship".data]

/-- A matching list item whose single text node contains a double space. -/
def liDouble : Node := .elem "li".data [] [.txt "has  scholarship".data]

/-- A matching list item whose href has a stray `[` in its authority. -/
def liBadHref : Node :=
  .elem "li".data [] [.txt "scholarship".data,
    .elem "a".data [("href".data, "//[".data)] []]

/-- A matching list item with a relative href. -/
def liRel : Node :=
  .elem "li".data [] [.txt "scholarship".data,
    .elem "a".data [("href".data, "apply".data)] []]

/-- A matching list item with an absolute href in upper case. -/
def liUpper : Node :=
  .elem "li".data [] [.txt "scholarship ".data,
    .elem "a".data [("href".data, "HTTP://OTHER.ORG/x".data)] [.txt "link".data]]

/-- Two adjacent whitespace characters somewhere in the string (a
whitespace-collapsed string has none). -/
def hasDoubleSpace : Str → Bool
  | [] => false
  | [_] => false
  | a :: b :: t => (isSpacePy a && isSpacePy b) || hasDoubleSpace (b :: t)

/-! ## Claim C1 -/

/-- C1 (amended): for every parsed document and base URL, provided each
matching list item's first href (when present) resolves against the base
without the URL parser raising, `extract_scholarship_data` returns
exactly the matching `li` elements in document order, mapped to their
entries, with no entry derived from a non-matching item; and on an empty
or scholarship-free document it returns the empty (non-null) list and
does not fail.  (The unamended claim fails when a matching item's href
makes `urljoin` raise; see the counterexample.) -/
theorem C1_extract_exactly_matching (soup : List Node) (base : Str) :
    (joinsOK base (find_all_li soup) →
      extract_scholarship_data soup base =
        .ok (((find_all_li soup).filter matchesLi).map (entryOf base))) ∧
    ((∀ li ∈ find_all_li soup, matchesLi li = false) →
      extract_scholarship_data soup base = .ok []) := by
  constructor
  · intro hj
    exact extractFrom_eq hj
  · intro hall
    have hj : joinsOK base (find_all_li soup) := by
      intro li hli hm
      rw [hall li hli] at hm
      exact absurd hm (by simp)
    have := extractFrom_eq hj
    rw [extract_scholarship_data, this]
    have hfilter : (find_all_li soup).filter matchesLi = [] := by
      rw [List.filter_eq_nil_iff]
      intro a ha
      simp [hall a ha]
    rw [hfilter]
    rfl

/-- Witness for C1 at concrete inputs: a one-item matching document with
no anchor (the hypothesis holds vacuously), and the empty document. -/
theorem C1_extract_exactly_matching_witness :
    extract_scholarship_data [liPlain] baseExample =
      .ok (((find_all_li [liPlain]).filter matchesLi).map (entryOf baseExample)) ∧
    extract_scholarship_data [] baseExample = .ok [] := by
  constructor
  · apply (C1_extract_exactly_matching [liPlain] baseExample).1
    intro li hli hm h hh
    have he : li = liPlain := by
      have hfl : find_all_li [liPlain] = [liPlain] := rfl
      rw [hfl] at hli
      simpa using hli
    subst he
    rw [show findHref liPlain = none from rfl] at hh
    exact Option.noConfusion hh
  · apply (C1_extract_exactly_matching [] baseExample).2
    intro li hli
    exact absurd hli (by simp [find_all_li, descendantsL])

/-- Counterexample to C1 as stated: this document contains exactly one
list item whose flattened text contains "scholarship" (N = 1), yet
extraction does not return one entry - it fails, because `urljoin`
raises ValueError ("Invalid IPv6 URL") on the item's href `//[`. -/
theorem C1_counterexample :
    ((find_all_li [liBadHref]).filter matchesLi).length = 1 ∧
      extract_scholarship_data [liBadHref] baseExample = .error () :=
  ⟨rfl, rfl⟩

/-! ## Claim C2 -/

/-- C2 (amended): every returned entry's text is the flattened text of its
list item - the per-text-node stripped, non-empty runs joined by single
spaces - and is therefore non-empty and trimmed.  (Internal whitespace
runs inside a single text node are preserved, not collapsed; see the
counterexample.) -/
theorem C2_text_trimmed_nonempty (soup : List Node) (base : Str) (pts : List Entry)
    (h : extract_scholarship_data soup base = .ok pts) :
    ∀ e ∈ pts, ∃ li ∈ find_all_li soup,
      matchesLi li = true ∧ e.text = get_text li ∧ e.text ≠ [] ∧
        trimmedStr e.text = true := by
  intro e he
  rcases extractFrom_mem h e he with ⟨li, hli, hm, ht, _⟩
  refine ⟨li, hli, hm, ht, ?_, ?_⟩
  · rw [ht]
    exact matchesLi_text_ne_nil hm
  · rw [ht]
    exact get_text_trimmed li

/-- Witness for C2 at a concrete input. -/
theorem C2_text_trimmed_nonempty_witness :
    ∃ li ∈ find_all_li [liDouble],
      matchesLi li = true ∧ ("has  scholarship".data : Str) = get_text li ∧
        ("has  scholarship".data : Str) ≠ [] ∧
        trimmedStr "has  scholarship".data = true :=
  C2_text_trimmed_nonempty [liDouble] baseExample
    [⟨"has  scholarship".data, none⟩] rfl
    ⟨"has  scholarship".data, none⟩ (by simp)

/-- Counterexample to C2 as stated: the extracted entry's text keeps the
double space of its single text node, so it is not whitespace-collapsed
(a collapsed string has no two adjacent whitespace characters). -/
theorem C2_counterexample :
    extract_scholarship_data [liDouble] baseExample =
      .ok [⟨"has  scholarship".data, none⟩] ∧
    hasDoubleSpace "has  scholarship".data = true :=
  ⟨rfl, rfl⟩

/-! ## Claim C3 -/

/-- C3 (amended): `validate_url` is a total Boolean predicate; it returns
`false` on the empty string, and it returns `true` exactly on the strings
of the spec's absolute-URL shape
`scheme://[credentials@]host[:port][/path][?query]` - with the provisos
that a single trailing newline is tolerated (Python's `$` matches before
it), the IPv4 alternative is a dotted quad of 1-3 digit groups without a
range check, the top-level label is 2-6 letters, and path/query are
non-empty whitespace-free tails introduced by `/` or `?`. -/
theorem C3_validate_iff_shape :
    (∀ s : Str, validate_url s = true ↔
      specShape s ∨ (s.getLast? = some '\n' ∧ specShape s.dropLast)) ∧
    validate_url [] = false :=
  ⟨fun _ => validate_url_iff, rfl⟩

/-- Counterexample to C3 as stated: `"http://localhost\n"` is not of the
absolute-URL shape (it ends in a control character), yet `validate_url`
accepts it. -/
theorem C3_counterexample :
    validate_url "http://localhost\n".data = true ∧
      ¬ specShape "http://localhost\n".data := by
  constructor
  · rfl
  · intro h
    have hm : matchRE urlRegex "http://localhost\n".data = true :=
      matchRE_iff.mpr (accepts_urlRegex_iff.mpr h)
    exact absurd hm (by decide)

/-! ## Claim C5 -/

/-- Counterexample to C5 as stated: `sanitize_input` is not total - on
`"http://["` the underlying `urlparse` raises ValueError ("Invalid IPv6
URL"), and on `"http://a℀.com"` (U+2100 normalizes to `a/c` under NFKC)
`_checknetloc` raises ValueError, instead of returning the input
unchanged. -/
theorem C5_counterexample :
    sanitize_input "http://[".data = .error () ∧
    sanitize_input "http://a℀.com".data = .error () :=
  ⟨rfl, rfl⟩

theorem isOkE_map {ε α β : Type} (f : α → β) (x : Except ε α) :
    isOkE (Except.map f x) = isOkE x := by
  cases x <;> rfl

/-- C5 (amended): `sanitize_input` is a pure function of its input (no
side effects) and it returns normally on every input whose authority
(netloc) region contains no square bracket and no character whose NFKC
normalization introduces a URL separator; on such inputs that are
otherwise unparseable it still returns a reserialized string, not
necessarily the input unchanged.  (With a stray bracket in the netloc,
`urlparse` raises "Invalid IPv6 URL" - see the counterexample - and with
a character such as U+2100, whose NFKC form is `a/c`, `_checknetloc`
raises ValueError, so `sanitize_input` is not total.) -/
theorem C5_sanitize_total_unless_brackets (u : Str)
    (h1 : (netlocOf u).contains '[' = false)
    (h2 : (netlocOf u).contains ']' = false)
    (h3 : (netlocOf u).any nfkcSeparator = false) :
    isOkE (sanitize_input u) = true := by
  rw [sanitize_input, isOkE_map, urlparseE, isOkE_map, urlsplitE]
  rw [h1, h2, h3]
  rfl

/-- Witness for C5 at a concrete input. -/
theorem C5_sanitize_total_unless_brackets_witness :
    (netlocOf "http://example.com".data).contains '[' = false ∧
    (netlocOf "http://example.com".data).contains ']' = false ∧
    (netlocOf "http://example.com".data).any nfkcSeparator = false ∧
    isOkE (sanitize_input "http://example.com".data) = true :=
  ⟨rfl, rfl, rfl, C5_sanitize_total_unless_brackets _ rfl rfl rfl⟩

/-! ## Character and splitting facts used for C4 and C8 -/

theorem isAlphaC_of_lowerC {c : Char} (h : isAlphaC (lowerC c) = true) :
    isAlphaC c = true := by
  rw [lowerC] at h
  by_cases hc : 'A' ≤ c ∧ c ≤ 'Z'
  · simp [isAlphaC, hc.1, hc.2]
  · rwa [if_neg hc] at h

theorem isSpacePy_of_badChar {c : Char} (h : badChar c = true) :
    isSpacePy c = true := by
  rw [badChar] at h
  rcases Bool.or_eq_true _ _ ▸ h with h1 | h1
  · rcases Bool.or_eq_true _ _ ▸ h1 with h2 | h2
    · rw [show c = '\t' by simpa using h2]; rfl
    · rw [show c = '\r' by simpa using h2]; rfl
  · rw [show c = '\n' by simpa using h1]; rfl

theorem badChar_false_of_alpha {c : Char} (h : isAlphaC c = true) :
    badChar c = false := by
  by_cases hb : badChar c = true
  · have hs := isSpacePy_of_badChar hb
    rw [isSpacePy] at hs
    rcases Bool.or_eq_true _ _ ▸ hs with h1 | h1
    · rcases Bool.or_eq_true _ _ ▸ h1 with h2 | h2
      · rcases Bool.or_eq_true _ _ ▸ h2 with h3 | h3
        · rcases Bool.or_eq_true _ _ ▸ h3 with h4 | h4
          · rcases Bool.or_eq_true _ _ ▸ h4 with h5 | h5
            · rw [show c = ' ' by simpa using h5] at h; exact absurd h (by decide)
            · rw [show c = '\t' by simpa using h5] at h; exact absurd h (by decide)
          · rw [show c = '\n' by simpa using h4] at h; exact absurd h (by decide)
        · rw [show c = '\r' by simpa using h3] at h; exact absurd h (by decide)
      · rw [show c = '\x0b' by simpa using h2] at h; exact absurd h (by decide)
    · rw [show c = '\x0c' by simpa using h1] at h; exact absurd h (by decide)
  · exact Bool.not_eq_true _ ▸ hb

theorem toNat_ge_of_le {c d : Char} (h : c ≤ d) : c.toNat ≤ d.toNat := h

theorem c0OrSpace_false_of_alpha {c : Char} (h : isAlphaC c = true) :
    c0OrSpace c = false := by
  rw [isAlphaC] at h
  rw [c0OrSpace]
  rcases Bool.or_eq_true _ _ ▸ h with h1 | h1 <;>
    rcases Bool.and_eq_true _ _ ▸ h1 with ⟨h2, _⟩
  · have h3 : ('a' : Char).toNat ≤ c.toNat := toNat_ge_of_le (by simpa using h2)
    have h4 : ('a' : Char).toNat = 97 := rfl
    simp only [decide_eq_false_iff_not]
    omega
  · have h3 : ('A' : Char).toNat ≤ c.toNat := toNat_ge_of_le (by simpa using h2)
    have h4 : ('A' : Char).toNat = 65 := rfl
    simp only [decide_eq_false_iff_not]
    omega

theorem schemeChar_of_alpha {c : Char} (h : isAlphaC c = true) :
    schemeChar c = true := by
  simp [schemeChar, h]

theorem ne_colon_of_alpha {c : Char} (h : isAlphaC c = true) : c ≠ ':' := by
  intro hc
  rw [hc] at h
  exact absurd h (by decide)

theorem takeWhile_append_all {p : Char → Bool} {a : Str} (b : Str)
    (ha : ∀ c ∈ a, p c = true) : (a ++ b).takeWhile p = a ++ b.takeWhile p := by
  induction a with
  | nil => rfl
  | cons c cs ih =>
      rw [List.cons_append, List.takeWhile_cons, if_pos (ha c (by simp)),
        ih (fun d hd => ha d (by simp [hd])), List.cons_append]

theorem dropWhile_append_all {p : Char → Bool} {a : Str} (b : Str)
    (ha : ∀ c ∈ a, p c = true) : (a ++ b).dropWhile p = b.dropWhile p := by
  induction a with
  | nil => rfl
  | cons c cs ih =>
      rw [List.cons_append, List.dropWhile_cons, if_pos (ha c (by simp)),
        ih (fun d hd => ha d (by simp [hd]))]

theorem specScheme_alpha {sch : Str} (h : specScheme sch) :
    sch ≠ [] ∧ ∀ c ∈ sch, isAlphaC c = true := by
  have hW : ∃ W : Str, lowerStr sch = W ∧ W ≠ [] ∧ ∀ x ∈ W, isAlphaC x = true := by
    rcases h with h | h | h | h
    · exact ⟨_, h, by simp, by decide⟩
    · exact ⟨_, h, by simp, by decide⟩
    · exact ⟨_, h, by simp, by decide⟩
    · exact ⟨_, h, by simp, by decide⟩
  rcases hW with ⟨W, hWeq, hWne, hWa⟩
  constructor
  · intro h0
    rw [h0] at hWeq
    exact hWne hWeq.symm
  · intro c hc
    have hmem : lowerC c ∈ W := hWeq ▸ List.mem_map_of_mem lowerC hc
    exact isAlphaC_of_lowerC (hWa _ hmem)

theorem cleanUrl_alpha_pfx {sch : Str} (R : Str) (h1 : sch ≠ [])
    (h2 : ∀ c ∈ sch, isAlphaC c = true) :
    cleanUrl (sch ++ ':' :: R) = sch ++ ':' :: (R.filter (fun c => !badChar c)) := by
  rw [cleanUrl]
  cases sch with
  | nil => exact absurd rfl h1
  | cons c cs =>
      rw [List.cons_append, List.dropWhile_cons,
        if_neg (by rw [c0OrSpace_false_of_alpha (h2 c (by simp))]; simp)]
      rw [← List.cons_append, List.filter_append]
      rw [List.filter_eq_self.mpr
        (fun d hd => by rw [badChar_false_of_alpha (h2 d hd)]; rfl)]
      rw [List.filter_cons, if_pos (by decide)]

theorem splitScheme_alpha_pfx {sch : Str} (R : Str) (h1 : sch ≠ [])
    (h2 : ∀ c ∈ sch, isAlphaC c = true) :
    splitScheme (sch ++ ':' :: R) = some (sch.map lowerC, R) := by
  have hne : ∀ c ∈ sch, (fun x => decide (x ≠ ':')) c = true := by
    intro c hc
    simpa using ne_colon_of_alpha (h2 c hc)
  have hdrop : (sch ++ ':' :: R).dropWhile (fun x => decide (x ≠ ':')) = ':' :: R := by
    rw [dropWhile_append_all _ hne, List.dropWhile_cons, if_neg (by simp)]
  have htake : (sch ++ ':' :: R).takeWhile (fun x => decide (x ≠ ':')) = sch := by
    rw [takeWhile_append_all _ hne, List.takeWhile_cons, if_neg (by simp), List.append_nil]
  rw [splitScheme]
  simp only [hdrop, htake]
  rw [if_pos (by simp)]
  cases sch with
  | nil => exact absurd rfl h1
  | cons c cs =>
      dsimp only
      rw [if_pos ⟨h2 c (by simp), by
        rw [List.all_eq_true]
        intro d hd
        exact schemeChar_of_alpha (h2 d hd)⟩]
      rfl

/-- The scheme `urlsplit` would recognise, after cleaning, for a string of
the spec shape. -/
theorem splitScheme_of_specShape {s : Str} (h : specShape s) :
    ∃ sch R, specScheme sch ∧
      splitScheme (cleanUrl s) = some (lowerStr sch, '/' :: '/' :: R) := by
  rcases h with ⟨sch, cr, host, pt, tl, hsch, _, _, _, _, rfl⟩
  rcases specScheme_alpha hsch with ⟨h1, h2⟩
  refine ⟨sch, (cr ++ host ++ pt ++ tl).filter (fun c => !badChar c), hsch, ?_⟩
  rw [cleanUrl_alpha_pfx _ h1 h2]
  have hfil : ('/' :: '/' :: (cr ++ host ++ pt ++ tl)).filter (fun c => !badChar c) =
      '/' :: '/' :: ((cr ++ host ++ pt ++ tl).filter (fun c => !badChar c)) := by
    rw [List.filter_cons, if_pos (by decide), List.filter_cons, if_pos (by decide)]
  rw [hfil, splitScheme_alpha_pfx _ h1 h2]
  rfl

theorem urlsplitE_ok_elim {u ds : Str} {sr : SplitRes} (h : urlsplitE u ds = .ok sr) :
    sr = ⟨schemeOfSplit u ds, netlocOf u,
      (splitFirst '?' (splitFirst '#' (restAfterNetloc u)).1).1,
      (splitFirst '?' (splitFirst '#' (restAfterNetloc u)).1).2,
      (splitFirst '#' (restAfterNetloc u)).2⟩ := by
  rw [urlsplitE] at h
  by_cases h1 : ((netlocOf u).contains '[' != (netlocOf u).contains ']') = true
  · rw [if_pos h1] at h
    exact absurd h (by simp)
  · rw [if_neg h1] at h
    by_cases h2 : ((netlocOf u).contains '[' && !bracketedHostOK (bracketedOf (netlocOf u))) = true
    · rw [if_pos h2] at h
      exact absurd h (by simp)
    · rw [if_neg h2] at h
      by_cases h3 : ((netlocOf u).any nfkcSeparator) = true
      · rw [if_pos h3] at h
        exact absurd h (by simp)
      · rw [if_neg h3] at h
        exact (Except.ok.injEq _ _ ▸ h).symm

theorem urlparseE_ok_elim {u ds : Str} {r : ParseRes} (h : urlparseE u ds = .ok r) :
    r.scheme = schemeOfSplit u ds ∧ r.netloc = netlocOf u := by
  rw [urlparseE] at h
  cases hs : urlsplitE u ds with
  | error e =>
      rw [hs] at h
      exact absurd h (by simp [Except.map])
  | ok sr =>
      rw [hs] at h
      simp only [Except.map, Except.ok.injEq] at h
      have hsr := urlsplitE_ok_elim hs
      subst h
      by_cases hc : uses_params.contains sr.scheme ∧ sr.path.contains ';'
      · rw [if_pos hc]
        rw [hsr]
        exact ⟨rfl, rfl⟩
      · rw [if_neg hc]
        rw [hsr]
        exact ⟨rfl, rfl⟩

/-! ## Claim C4 -/

/-- Is the string, after the parser's cleaning, carrying a scheme (as
opposed to being a bare relative reference)? -/
def hasSchemeB (u : Str) : Bool := (splitScheme (cleanUrl u)).isSome

theorem badChar_false_of_schemeChar {c : Char} (h : schemeChar c = true) :
    badChar c = false := by
  by_cases hb : badChar c = true
  · rw [badChar] at hb
    rcases Bool.or_eq_true _ _ ▸ hb with h1 | h1
    · rcases Bool.or_eq_true _ _ ▸ h1 with h2 | h2
      · rw [show c = '\t' by simpa using h2] at h; exact absurd h (by decide)
      · rw [show c = '\r' by simpa using h2] at h; exact absurd h (by decide)
    · rw [show c = '\n' by simpa using h1] at h; exact absurd h (by decide)
  · exact Bool.not_eq_true _ ▸ hb

theorem ne_colon_of_schemeChar {c : Char} (h : schemeChar c = true) : c ≠ ':' := by
  intro hc
  rw [hc] at h
  exact absurd h (by decide)

theorem splitScheme_schemeChars_pfx {c : Char} {cs R : Str}
    (hc : isAlphaC c = true) (hall : ∀ d ∈ c :: cs, schemeChar d = true) :
    splitScheme ((c :: cs) ++ ':' :: R) = some ((c :: cs).map lowerC, R) := by
  have hne : ∀ d ∈ c :: cs, (fun x => decide (x ≠ ':')) d = true := by
    intro d hd
    simpa using ne_colon_of_schemeChar (hall d hd)
  have hdrop : ((c :: cs) ++ ':' :: R).dropWhile (fun x => decide (x ≠ ':')) = ':' :: R := by
    rw [dropWhile_append_all _ hne, List.dropWhile_cons, if_neg (by simp)]
  have htake : ((c :: cs) ++ ':' :: R).takeWhile (fun x => decide (x ≠ ':')) = c :: cs := by
    rw [takeWhile_append_all _ hne, List.takeWhile_cons, if_neg (by simp), List.append_nil]
  rw [splitScheme]
  simp only [hdrop, htake]
  rw [if_pos (by simp)]
  rw [if_pos ⟨hc, by
    rw [List.all_eq_true]
    exact hall⟩]
  rfl

theorem cleanUrl_scheme_pfx {c : Char} {cs : Str} (R : Str)
    (hc : isAlphaC c = true) (hall : ∀ d ∈ c :: cs, schemeChar d = true) :
    cleanUrl ((c :: cs) ++ ':' :: R) =
      (c :: cs) ++ ':' :: (R.filter (fun x => !badChar x)) := by
  rw [cleanUrl]
  rw [List.cons_append, List.dropWhile_cons,
    if_neg (by rw [c0OrSpace_false_of_alpha hc]; simp)]
  rw [← List.cons_append, List.filter_append]
  rw [List.filter_eq_self.mpr
    (fun d hd => by rw [badChar_false_of_schemeChar (hall d hd)]; rfl)]
  rw [List.filter_cons, if_pos (by decide)]

theorem hasSchemeB_of_scheme_pfx {c : Char} {cs rest : Str}
    (hc : isAlphaC c = true) (hall : ∀ d ∈ c :: cs, schemeChar d = true) :
    hasSchemeB ((c :: cs) ++ ':' :: rest) = true := by
  rw [hasSchemeB, cleanUrl_scheme_pfx rest hc hall,
    splitScheme_schemeChars_pfx hc hall]
  rfl

theorem unsplit_tail_shape (s u q f : Str) :
    ∃ rest,
      (if f ≠ [] then
        (if q ≠ [] then (s ++ ':' :: u) ++ '?' :: q else s ++ ':' :: u) ++ '#' :: f
      else if q ≠ [] then (s ++ ':' :: u) ++ '?' :: q else s ++ ':' :: u) =
        s ++ ':' :: rest := by
  by_cases hq : q ≠ [] <;> by_cases hf : f ≠ []
  · rw [if_pos hf, if_pos hq]
    exact ⟨u ++ '?' :: q ++ '#' :: f, by simp⟩
  · rw [if_neg hf, if_pos hq]
    exact ⟨u ++ '?' :: q, by simp⟩
  · rw [if_pos hf, if_neg hq]
    exact ⟨u ++ '#' :: f, by simp⟩
  · rw [if_neg hf, if_neg hq]
    exact ⟨u, rfl⟩

theorem urlunsplit_scheme_shape {r : SplitRes} (h : r.scheme ≠ []) :
    ∃ rest, urlunsplit r = r.scheme ++ ':' :: rest := by
  rw [urlunsplit]
  rw [if_pos h]
  exact unsplit_tail_shape r.scheme _ r.query r.frag

theorem urlunparse_scheme_shape {X : ParseRes} (h : X.scheme ≠ []) :
    ∃ rest, urlunparse X = X.scheme ++ ':' :: rest := by
  rw [urlunparse]
  exact urlunsplit_scheme_shape h

theorem hasSchemeB_urlunparse {X : ParseRes} {c : Char} {cs : Str}
    (hcc : X.scheme = c :: cs) (hca : isAlphaC c = true)
    (hall : ∀ d ∈ X.scheme, schemeChar d = true) :
    hasSchemeB (urlunparse X) = true := by
  have hne : X.scheme ≠ [] := by simp [hcc]
  rcases urlunparse_scheme_shape hne with ⟨rest, hshape⟩
  rw [hshape, hcc]
  exact hasSchemeB_of_scheme_pfx hca (by rw [← hcc]; exact hall)

theorem mem_of_getLast?_eq {l : Str} {c : Char} (h : l.getLast? = some c) : c ∈ l := by
  induction l with
  | nil => exact Option.noConfusion h
  | cons a t ih =>
      cases t with
      | nil =>
          have : a = c := by simpa using h
          simp [this]
      | cons b t2 =>
          rw [List.getLast?_cons_cons] at h
          exact List.mem_cons_of_mem _ (ih h)

theorem urljoinE_ok_hasScheme {base hrf res bsch R0 : Str}
    (hsch : splitScheme (cleanUrl base) = some (bsch, R0))
    (hgood : ∃ c cs, bsch = c :: cs ∧ isAlphaC c = true)
    (hallsch : ∀ d ∈ bsch, schemeChar d = true)
    (hrel : uses_relative.contains bsch = true)
    (hnet : uses_netloc.contains bsch = true)
    (hclean : cleanScheme bsch = bsch)
    (hj : urljoinE base hrf = .ok res) :
    hasSchemeB res = true := by
  have hbase : base ≠ [] := by
    intro h0
    subst h0
    have hnone : splitScheme (cleanUrl ([] : Str)) = none := rfl
    rw [hnone] at hsch
    exact Option.noConfusion hsch
  rw [urljoinE, if_neg hbase] at hj
  by_cases hu : hrf = []
  · rw [if_pos hu] at hj
    have hres : base = res := by simpa using hj
    rw [← hres, hasSchemeB, hsch]
    rfl
  · rw [if_neg hu] at hj
    cases hpb : urlparseE base [] with
    | error e => rw [hpb] at hj; exact absurd hj (by simp)
    | ok b =>
        rw [hpb] at hj
        dsimp only at hj
        cases hpr : urlparseE hrf b.scheme with
        | error e => rw [hpr] at hj; exact absurd hj (by simp)
        | ok r =>
            rw [hpr] at hj
            dsimp only at hj
            have hbsch : b.scheme = bsch := by
              have h1 := (urlparseE_ok_elim hpb).1
              rw [h1, schemeOfSplit, hsch]
            rcases hgood with ⟨c, cs, hcc, hca⟩
            by_cases hbr : r.scheme ≠ b.scheme ∨ ¬ uses_relative.contains r.scheme
            · rw [if_pos hbr] at hj
              have hres : hrf = res := by simpa using hj
              rw [← hres]
              cases hsr : splitScheme (cleanUrl hrf) with
              | some q => rw [hasSchemeB, hsr]; rfl
              | none =>
                  exfalso
                  have hr2 := (urlparseE_ok_elim hpr).1
                  rw [schemeOfSplit, hsr] at hr2
                  dsimp only at hr2
                  rw [hbsch, hclean] at hr2
                  rcases hbr with hbr | hbr
                  · exact hbr (by rw [hr2, hbsch])
                  · exact hbr (by rw [hr2]; exact hrel)
            · rw [if_neg hbr] at hj
              push_neg at hbr
              obtain ⟨hreq, _⟩ := hbr
              have hrsch : r.scheme = c :: cs := by rw [hreq, hbsch, hcc]
              have hallr : ∀ d ∈ r.scheme, schemeChar d = true := by
                rw [hreq, hbsch]; exact hallsch
              by_cases hn2 : uses_netloc.contains r.scheme ∧ r.netloc ≠ []
              · rw [if_pos hn2] at hj
                rw [Except.ok.injEq] at hj
                rw [← hj]
                exact hasSchemeB_urlunparse hrsch hca hallr
              · rw [if_neg hn2] at hj
                by_cases hpp : r.path = [] ∧ r.params = []
                · rw [if_pos hpp] at hj
                  rw [Except.ok.injEq] at hj
                  rw [← hj]
                  exact hasSchemeB_urlunparse hrsch hca hallr
                · rw [if_neg hpp] at hj
                  rw [Except.ok.injEq] at hj
                  rw [← hj]
                  exact hasSchemeB_urlunparse hrsch hca hallr

/-- C4 (amended): for every document extracted against a base URL that
passes `validate_url`, contains no newline, and whose recognised scheme
is not `ftps`, every present entry url carries a scheme after the
parser's cleaning - it is the href resolved against the base and never a
bare relative path.  (With scheme `ftps` - accepted by the validator but
absent from urllib's `uses_relative` table - a relative href passes
through unresolved; see the counterexample.) -/
theorem C4_entry_urls_not_relative (soup : List Node) (base : Str) (pts : List Entry)
    (hv : validate_url base = true) (hnl : ('\n' : Char) ∉ base)
    (hnf : ∀ R, splitScheme (cleanUrl base) ≠ some ("ftps".data, R))
    (hex : extract_scholarship_data soup base = .ok pts) :
    ∀ e ∈ pts, ∀ u, e.url = some u → hasSchemeB u = true := by
  have hshape : specShape base := by
    rcases (validate_url_iff).mp hv with h | ⟨hlast, _⟩
    · exact h
    · exact absurd (mem_of_getLast?_eq hlast) hnl
  intro e he u hu
  have hex2 : extractFrom base (find_all_li soup) = .ok pts := hex
  rcases extractFrom_mem hex2 e he with ⟨li, hli, hm, ht, hd⟩
  rcases hd with ⟨h1, h2⟩ | ⟨hr, u2, h1, h2, h3⟩
  · rw [h2] at hu
    exact Option.noConfusion hu
  · rw [h3] at hu
    have hu2 : u2 = u := by simpa using hu
    subst hu2
    rcases splitScheme_of_specShape hshape with ⟨sch, R, hsch4, heq⟩
    rcases hsch4 with hcase | hcase | hcase | hcase
    · rw [hcase] at heq
      exact urljoinE_ok_hasScheme heq ⟨'h', "ttp".data, rfl, by decide⟩
        (by decide) (by decide) (by decide) (by decide) h2
    · rw [hcase] at heq
      exact urljoinE_ok_hasScheme heq ⟨'h', "ttps".data, rfl, by decide⟩
        (by decide) (by decide) (by decide) (by decide) h2
    · rw [hcase] at heq
      exact urljoinE_ok_hasScheme heq ⟨'f', "tp".data, rfl, by decide⟩
        (by decide) (by decide) (by decide) (by decide) h2
    · rw [hcase] at heq
      exact absurd heq (hnf ('/' :: '/' :: R))

/-- Witness for C4 at a concrete input. -/
theorem C4_entry_urls_not_relative_witness :
    hasSchemeB "http://example.com/apply".data = true := by
  refine C4_entry_urls_not_relative [liRel] baseExample
    [⟨"scholarship".data, some "http://example.com/apply".data⟩]
    rfl (by decide) ?_ rfl
    ⟨"scholarship".data, some "http://example.com/apply".data⟩ (by simp)
    "http://example.com/apply".data rfl
  intro R hc
  have hbase : splitScheme (cleanUrl baseExample) =
      some ("http".data, "//example.com/".data) := rfl
  rw [hbase] at hc
  have h1 : ("http".data, "//example.com/".data) = ("ftps".data, R) :=
    Option.some.injEq _ _ ▸ hc
  have h2 : "http".data = "ftps".data := congrArg Prod.fst h1
  exact absurd h2 (by decide)

/-- Counterexample to C4 as stated: with the validated base
`ftps://example.com/`, a matching item's relative href `apply` is passed
through unresolved - the entry url is the bare relative path `apply`. -/
theorem C4_counterexample :
    validate_url "ftps://example.com/".data = true ∧
    extract_scholarship_data [liRel] "ftps://example.com/".data =
      .ok [⟨"scholarship".data, some "apply".data⟩] ∧
    hasSchemeB "apply".data = false :=
  ⟨rfl, rfl, rfl⟩

/-! ## Claim C8

`sanitize_input` is `urlparse(url).geturl()`.  The claim states that this
is idempotent.  The development below refutes the unconditional statement
(CPython collapses a run of slashes opening a netloc-less path,
`'//////v' -> '////v' -> '//v'`) and proves the amended, conditional
statement: re-serialising is a fixpoint of the parser whenever the parsed
result has a non-empty netloc or a path-with-params that does not begin
with `//`. -/

theorem toNat_ofNat_valid (n : Nat) (h : n.isValidChar) : (Char.ofNat n).toNat = n := by
  rw [Char.ofNat, dif_pos h]
  rw [Char.ofNatAux]
  simp only [Char.toNat, UInt32.toNat, BitVec.toNat_ofNatLt]

theorem le_iff_toNat {c d : Char} : c ≤ d ↔ c.toNat ≤ d.toNat :=
  ⟨fun h => h, fun h => h⟩

theorem toNat_lowerC_upper {c : Char} (h : 'A' ≤ c ∧ c ≤ 'Z') :
    (lowerC c).toNat = c.toNat + 32 := by
  rw [lowerC, if_pos h]
  have h1 : (65 : Nat) ≤ c.toNat := toNat_ge_of_le h.1
  have h2 : c.toNat ≤ 90 := toNat_ge_of_le h.2
  have hv : (c.toNat + 32).isValidChar := Or.inl (by omega)
  exact toNat_ofNat_valid _ hv

theorem lowerC_alpha {c : Char} (h : isAlphaC c = true) : isAlphaC (lowerC c) = true := by
  rw [isAlphaC] at h ⊢
  rcases Bool.or_eq_true _ _ ▸ h with h1 | h1
  · rcases Bool.and_eq_true _ _ ▸ h1 with ⟨h2, h3⟩
    have hu : ¬ ('A' ≤ c ∧ c ≤ 'Z') := by
      intro hc
      have := toNat_ge_of_le hc.2
      have := toNat_ge_of_le (show ('a' : Char) ≤ c by simpa using h2)
      have ha : ('a' : Char).toNat = 97 := rfl
      have hz : ('Z' : Char).toNat = 90 := rfl
      omega
    rw [lowerC, if_neg hu]
    rw [h1]
    simp
  · rcases Bool.and_eq_true _ _ ▸ h1 with ⟨h2, h3⟩
    have hc : 'A' ≤ c ∧ c ≤ 'Z' := ⟨by simpa using h2, by simpa using h3⟩
    have ht := toNat_lowerC_upper hc
    have h65 : (65 : Nat) ≤ c.toNat := toNat_ge_of_le hc.1
    have h90 : c.toNat ≤ 90 := toNat_ge_of_le hc.2
    have hle : 'a' ≤ lowerC c := by
      rw [le_iff_toNat, ht]
      have : ('a' : Char).toNat = 97 := rfl
      omega
    have hge : lowerC c ≤ 'z' := by
      rw [le_iff_toNat, ht]
      have : ('z' : Char).toNat = 122 := rfl
      omega
    simp [hle, hge]

theorem lowerC_not_upper {c : Char} (h : ¬ ('A' ≤ c ∧ c ≤ 'Z')) : lowerC c = c := by
  rw [lowerC, if_neg h]

theorem lowerC_idem (c : Char) : lowerC (lowerC c) = lowerC c := by
  by_cases hc : 'A' ≤ c ∧ c ≤ 'Z'
  · have ht := toNat_lowerC_upper hc
    have h65 : (65 : Nat) ≤ c.toNat := toNat_ge_of_le hc.1
    have h90 : c.toNat ≤ 90 := toNat_ge_of_le hc.2
    apply lowerC_not_upper
    intro hcc
    have := toNat_ge_of_le hcc.2
    have hZ : ('Z' : Char).toNat = 90 := rfl
    omega
  · rw [lowerC_not_upper hc]
    exact lowerC_not_upper hc

theorem schemeChar_lowerC {c : Char} (h : schemeChar c = true) :
    schemeChar (lowerC c) = true := by
  rw [schemeChar] at h ⊢
  rcases Bool.or_eq_true _ _ ▸ h with h1 | h1
  · rcases Bool.or_eq_true _ _ ▸ h1 with h2 | h2
    · rcases Bool.or_eq_true _ _ ▸ h2 with h3 | h3
      · rcases Bool.or_eq_true _ _ ▸ h3 with h4 | h4
        · rw [lowerC_alpha h4]
          simp
        · have hd : ¬ ('A' ≤ c ∧ c ≤ 'Z') := by
            rw [isDigitC] at h4
            rcases Bool.and_eq_true _ _ ▸ h4 with ⟨h5, h6⟩
            intro hc
            have := toNat_ge_of_le hc.1
            have := toNat_ge_of_le (show c ≤ '9' by simpa using h6)
            have h9 : ('9' : Char).toNat = 57 := rfl
            have hA : ('A' : Char).toNat = 65 := rfl
            omega
          rw [lowerC_not_upper hd, h4]
          simp
      · rw [show c = '+' by simpa using h3]
        decide
    · rw [show c = '-' by simpa using h2]
      decide
  · rw [show c = '.' by simpa using h1]
    decide

theorem map_lowerC_idem (l : Str) : (l.map lowerC).map lowerC = l.map lowerC := by
  rw [List.map_map]
  exact List.map_congr_left (fun a _ => lowerC_idem a)

theorem head?_takeWhile_eq {p : Char → Bool} {X l : Str} {c : Char}
    (h : X.takeWhile p = c :: l) : X.head? = some c := by
  cases X with
  | nil => exact absurd h (by simp)
  | cons a t =>
      rw [List.takeWhile_cons] at h
      by_cases ha : p a = true
      · rw [if_pos ha] at h
        rcases List.cons_eq_cons.mp h with ⟨rfl, _⟩
        rfl
      · rw [if_neg ha] at h
        exact absurd h (by simp)

theorem takeWhile_head_fail {p : Char → Bool} {X : Str}
    (h : X = [] ∨ ∃ h0 t, X = h0 :: t ∧ p h0 = false) : X.takeWhile p = [] := by
  rcases h with rfl | ⟨h0, t, rfl, hf⟩
  · rfl
  · rw [List.takeWhile_cons, if_neg (by simp [hf])]

theorem dropWhile_head_fail {p : Char → Bool} {X : Str}
    (h : X = [] ∨ ∃ h0 t, X = h0 :: t ∧ p h0 = false) : X.dropWhile p = X := by
  rcases h with rfl | ⟨h0, t, rfl, hf⟩
  · rfl
  · rw [List.dropWhile_cons, if_neg (by simp [hf])]

theorem takeWhile_append_stop {p : Char → Bool} {A : Str} (B : Str)
    (h : A.dropWhile p ≠ []) : (A ++ B).takeWhile p = A.takeWhile p := by
  induction A with
  | nil => exact absurd rfl h
  | cons a t ih =>
      rw [List.cons_append, List.takeWhile_cons, List.takeWhile_cons]
      by_cases ha : p a = true
      · rw [if_pos ha, if_pos ha, ih]
        rw [List.dropWhile_cons, if_pos ha] at h
        exact h
      · rw [if_neg ha, if_neg ha]

theorem contains_dropWhile_cons {d : Char} {X : Str} (h : d ∈ X) :
    ∃ w, X.dropWhile (fun c => decide (c ≠ d)) = d :: w := by
  induction X with
  | nil => exact absurd h (by simp)
  | cons a t ih =>
      rw [List.dropWhile_cons]
      by_cases ha : a = d
      · subst ha
        rw [if_neg (by simp)]
        exact ⟨t, rfl⟩
      · rw [if_pos (by simpa using ha)]
        exact ih (by rcases List.mem_cons.mp h with h2 | h2
                     · exact absurd h2.symm ha
                     · exact h2)

theorem take2_append_ne {P T : Str} (hP : P.take 2 ≠ ['/', '/'])
    (hT : ∀ h0, T.head? = some h0 → h0 ≠ '/') : (P ++ T).take 2 ≠ ['/', '/'] := by
  match P with
  | [] =>
      rw [List.nil_append]
      match T with
      | [] => simp
      | h0 :: t =>
          intro hc
          have : h0 = '/' := by
            have := congrArg (fun l => List.head? l) hc
            simpa using this
          exact hT h0 rfl this
  | [x] =>
      rw [List.cons_append, List.nil_append]
      intro hc
      rw [List.take_succ_cons] at hc
      rcases List.cons_eq_cons.mp hc with ⟨rfl, h2⟩
      match T with
      | [] => exact absurd h2 (by simp)
      | h0 :: t =>
          rw [List.take_succ_cons] at h2
          rcases List.cons_eq_cons.mp h2 with ⟨rfl, _⟩
          exact hT '/' rfl rfl
  | x :: y :: t =>
      rw [List.cons_append, List.cons_append]
      rw [List.take_succ_cons, List.take_succ_cons] at hP ⊢
      simpa using hP

/-! ### Cleaning is the identity on reassembled output -/

theorem c0OrSpace_of_badChar {c : Char} (h : badChar c = true) :
    c0OrSpace c = true := by
  rw [badChar] at h
  rcases Bool.or_eq_true _ _ ▸ h with h1 | h1
  · rcases Bool.or_eq_true _ _ ▸ h1 with h2 | h2
    · rw [show c = '\t' by simpa using h2]; rfl
    · rw [show c = '\r' by simpa using h2]; rfl
  · rw [show c = '\n' by simpa using h1]; rfl

theorem cleanUrl_bad_free {X : Str} : ∀ c ∈ cleanUrl X, badChar c = false := by
  intro c hc
  rw [cleanUrl] at hc
  have := List.of_mem_filter hc
  simpa using this

theorem cleanUrl_head_not_space {X : Str} {h0 : Char} {t : Str}
    (h : cleanUrl X = h0 :: t) : c0OrSpace h0 = false := by
  rw [cleanUrl] at h
  cases hd : X.dropWhile c0OrSpace with
  | nil => rw [hd] at h; exact absurd h (by simp)
  | cons d l =>
      have hdns : c0OrSpace d = false := by
        have := head?_dropWhile_not c0OrSpace X
        rw [hd] at this
        simpa using this
      have hdnb : badChar d = false := by
        by_cases hb : badChar d = true
        · rw [c0OrSpace_of_badChar hb] at hdns
          exact absurd hdns (by simp)
        · exact Bool.not_eq_true _ ▸ hb
      rw [hd, List.filter_cons, if_pos (by simp [hdnb])] at h
      rcases List.cons_eq_cons.mp h with ⟨rfl, _⟩
      exact hdns

theorem cleanUrl_eq_self {X : Str} (hbad : ∀ c ∈ X, badChar c = false)
    (hhead : X = [] ∨ ∃ h0 t, X = h0 :: t ∧ c0OrSpace h0 = false) :
    cleanUrl X = X := by
  rw [cleanUrl]
  rw [dropWhile_head_fail hhead]
  exact List.filter_eq_self.mpr (fun c hc => by simp [hbad c hc])

theorem head?_filterMap_iff {α β : Type} {f : α → Option β} {l : List α} {b : β} :
    (l.filterMap f).head? = some b ↔
      ∃ pre n post, l = pre ++ n :: post ∧ f n = some b ∧ ∀ m ∈ pre, f m = none := by
  induction l with
  | nil => simp
  | cons a t ih =>
      cases hf : f a with
      | none =>
          rw [List.filterMap_cons, hf, ih]
          constructor
          · rintro ⟨pre, n, post, rfl, hn, hpre⟩
            refine ⟨a :: pre, n, post, rfl, hn, ?_⟩
            intro m hm
            rcases List.mem_cons.mp hm with rfl | hm2
            · exact hf
            · exact hpre m hm2
          · rintro ⟨pre, n, post, heq, hn, hpre⟩
            cases pre with
            | nil =>
                rw [List.nil_append] at heq
                rcases List.cons_eq_cons.mp heq with ⟨rfl, rfl⟩
                rw [hf] at hn
                exact Option.noConfusion hn
            | cons p ps =>
                rw [List.cons_append] at heq
                rcases List.cons_eq_cons.mp heq with ⟨rfl, rfl⟩
                exact ⟨ps, n, post, rfl, hn, fun m hm => hpre m (by simp [hm])⟩
      | some b2 =>
          rw [List.filterMap_cons, hf]
          constructor
          · intro hb
            have hb2 : b2 = b := by simpa using hb
            subst hb2
            exact ⟨[], a, t, rfl, hf, by simp⟩
          · rintro ⟨pre, n, post, heq, hn, hpre⟩
            cases pre with
            | nil =>
                rw [List.nil_append] at heq
                rcases List.cons_eq_cons.mp heq with ⟨rfl, rfl⟩
                rw [hf] at hn
                have hb2 : b2 = b := by simpa using hn
                simp [hb2]
            | cons p ps =>
                rw [List.cons_append] at heq
                rcases List.cons_eq_cons.mp heq with ⟨rfl, rfl⟩
                have hnone := hpre a (by simp)
                rw [hf] at hnone
                exact Option.noConfusion hnone

theorem takeWhile_all {p : Char → Bool} {X : Str} (h : ∀ c ∈ X, p c = true) :
    X.takeWhile p = X := by
  have h2 := takeWhile_append_all [] h
  simpa using h2

theorem dropWhile_all {p : Char → Bool} {X : Str} (h : ∀ c ∈ X, p c = true) :
    X.dropWhile p = [] := by
  have h2 := dropWhile_append_all [] h
  simpa using h2

theorem splitFirst_no_occur {d : Char} {X : Str} (h : ∀ c ∈ X, c ≠ d) :
    splitFirst d X = (X, []) := by
  have h' : ∀ c ∈ X, (fun x => decide (x ≠ d)) c = true := fun c hc => by
    simpa using h c hc
  rw [splitFirst, takeWhile_all h', dropWhile_all h']
  rfl

theorem splitFirst_first_occur {d : Char} {X : Str} (Y : Str) (h : ∀ c ∈ X, c ≠ d) :
    splitFirst d (X ++ d :: Y) = (X, Y) := by
  have h' : ∀ c ∈ X, (fun x => decide (x ≠ d)) c = true := fun c hc => by
    simpa using h c hc
  rw [splitFirst, takeWhile_append_all _ h', dropWhile_append_all _ h']
  rw [List.takeWhile_cons, if_neg (by simp), List.dropWhile_cons, if_neg (by simp)]
  simp

theorem splitScheme_some_elim {X : Str} {q : Str × Str} (h : splitScheme X = some q) :
    ∃ c cs rest, X = (c :: cs) ++ ':' :: rest ∧ isAlphaC c = true ∧
      (∀ d ∈ c :: cs, schemeChar d = true) ∧ q = ((c :: cs).map lowerC, rest) := by
  rw [splitScheme] at h
  by_cases hb : (X.dropWhile (· ≠ ':')).head? = some ':'
  · rw [if_pos hb] at h
    cases htw : X.takeWhile (· ≠ ':') with
    | nil => rw [htw] at h; exact absurd h (by simp)
    | cons c cs =>
        rw [htw] at h
        dsimp only at h
        by_cases hcond : isAlphaC c = true ∧ (c :: cs).all schemeChar = true
        · rw [if_pos hcond] at h
          obtain ⟨bt, hbt⟩ : ∃ bt, X.dropWhile (· ≠ ':') = ':' :: bt := by
            cases hdd : X.dropWhile (· ≠ ':') with
            | nil => rw [hdd] at hb; exact absurd hb (by simp)
            | cons e l =>
                rw [hdd] at hb
                exact ⟨l, by rw [show e = ':' by simpa using hb]⟩
          refine ⟨c, cs, bt, ?_, hcond.1, ?_, ?_⟩
          · have hX := List.takeWhile_append_dropWhile (fun x => decide (x ≠ ':')) X
            rw [htw, hbt] at hX
            exact hX.symm
          · intro d hd
            have h2 := hcond.2
            rw [List.all_eq_true] at h2
            exact h2 d hd
          · rw [hbt] at h
            have h2 : some ((c :: cs).map lowerC, bt) = some q := by simpa using h
            simpa using h2.symm
        · rw [if_neg hcond] at h
          exact absurd h (by simp)
  · rw [if_neg hb] at h
    exact absurd h (by simp)

theorem splitScheme_none_head {c : Char} (t : Str) (h : isAlphaC c = false) :
    splitScheme (c :: t) = none := by
  rw [splitScheme]
  by_cases hb : ((c :: t).dropWhile (· ≠ ':')).head? = some ':'
  · rw [if_pos hb]
    by_cases hc : c = ':'
    · subst hc
      have htw : (':' :: t).takeWhile (fun x => decide (x ≠ ':')) = [] := by
        rw [List.takeWhile_cons, if_neg (by simp)]
      rw [htw]
    · have htw : (c :: t).takeWhile (fun x => decide (x ≠ ':')) =
          c :: t.takeWhile (fun x => decide (x ≠ ':')) := by
        rw [List.takeWhile_cons, if_pos (by simpa using hc)]
      rw [htw]
      dsimp only
      rw [if_neg (fun hcon => by rw [h] at hcon; exact Bool.noConfusion hcon.1)]
  · rw [if_neg hb]

/-- If a concatenation has a scheme-shaped head, and the second part
cannot begin one, then the first part already has it. -/
theorem scheme_prefix_transfer {p : Str} {A B tail : Str}
    (hc : A ++ B = p ++ ':' :: tail)
    (hp : ∀ d ∈ p, schemeChar d = true)
    (hB : B = [] ∨ ∃ b0 bs, B = b0 :: bs ∧ schemeChar b0 = false ∧ b0 ≠ ':') :
    ∃ tail2, A = p ++ ':' :: tail2 := by
  induction p generalizing A with
  | nil =>
      cases A with
      | nil =>
          rw [List.nil_append, List.nil_append] at hc
          rcases hB with hB | ⟨b0, bs, hB, hb1, hb2⟩
          · rw [hB] at hc
            exact absurd hc (by simp)
          · rw [hB] at hc
            rcases List.cons_eq_cons.mp hc with ⟨rfl, _⟩
            exact absurd rfl hb2
      | cons a A2 =>
          rw [List.cons_append, List.nil_append] at hc
          rcases List.cons_eq_cons.mp hc with ⟨rfl, h2⟩
          exact ⟨A2, by rw [List.nil_append]⟩
  | cons d p2 ih =>
      cases A with
      | nil =>
          rw [List.nil_append, List.cons_append] at hc
          rcases hB with hB | ⟨b0, bs, hB, hb1, hb2⟩
          · rw [hB] at hc
            exact absurd hc (by simp)
          · rw [hB] at hc
            rcases List.cons_eq_cons.mp hc with ⟨rfl, _⟩
            have h3 := hp b0 (by simp)
            rw [h3] at hb1
            exact Bool.noConfusion hb1
      | cons a A2 =>
          rw [List.cons_append, List.cons_append] at hc
          rcases List.cons_eq_cons.mp hc with ⟨rfl, h2⟩
          rcases ih h2 (fun x hx => hp x (by simp [hx])) with ⟨t2, ht2⟩
          exact ⟨t2, by rw [ht2, List.cons_append]⟩

/-! ### `_splitparams` under re-serialisation -/

theorem stem_tl_decomp_aux {X T D : Str}
    (hTD : T ++ D = X.reverse) :
    X = D.reverse ++ T.reverse ∧ X.take (X.length - T.reverse.length) = D.reverse := by
  have h2 := congrArg List.reverse hTD
  rw [List.reverse_append, List.reverse_reverse] at h2
  refine ⟨h2.symm, ?_⟩
  have hlen := congrArg List.length h2
  rw [List.length_append] at hlen
  rw [show X.length - T.reverse.length = D.reverse.length from by omega]
  rw [← h2]
  exact List.take_left _ _

theorem stem_tl_decomp (X : Str) :
    ∃ stem tl, X = stem ++ tl ∧
      tl = (X.reverse.takeWhile (fun c => decide (c ≠ '/'))).reverse ∧
      X.take (X.length - tl.length) = stem ∧
      (∀ c ∈ tl, c ≠ '/') ∧
      (stem = [] ∨ ∃ st, stem = st ++ ['/']) := by
  obtain ⟨hX, htake⟩ := stem_tl_decomp_aux
    (List.takeWhile_append_dropWhile (fun c => decide (c ≠ '/')) X.reverse)
  refine ⟨(X.reverse.dropWhile (fun c => decide (c ≠ '/'))).reverse,
          (X.reverse.takeWhile (fun c => decide (c ≠ '/'))).reverse,
          hX, rfl, htake, ?_, ?_⟩
  · intro c hc
    have hc2 : c ∈ X.reverse.takeWhile (fun x => decide (x ≠ '/')) := by
      simpa using hc
    have h3 := List.mem_takeWhile_imp hc2
    simpa using h3
  · cases hD : X.reverse.dropWhile (fun c => decide (c ≠ '/')) with
    | nil =>
        left
        rfl
    | cons e l =>
        right
        have he : e = '/' := by
          have h3 := head?_dropWhile_not (fun c => decide (c ≠ '/')) X.reverse
          rw [hD] at h3
          simpa using h3
        refine ⟨l.reverse, ?_⟩
        rw [he]
        simp

theorem splitparams_reassemble {X p q : Str} (h : splitparams X = (p, q)) (hq : q ≠ []) :
    p ++ ';' :: q = X := by
  obtain ⟨stem, tl, hX, htl, hstem, htlns, hsend⟩ := stem_tl_decomp X
  rw [splitparams] at h
  dsimp only at h
  rw [← htl, hstem] at h
  by_cases hslash : X.contains '/' = true
  · rw [if_pos hslash] at h
    by_cases hsemi : tl.contains ';' = true
    · rw [if_pos hsemi] at h
      obtain ⟨h1, h2⟩ := Prod.mk.injEq _ _ _ _ ▸ h
      rcases contains_dropWhile_cons (List.elem_iff.mp hsemi) with ⟨w, hw⟩
      rw [hw] at h2
      have hwq : w = q := by simpa using h2
      rw [← h1, ← hwq]
      rw [List.append_assoc]
      rw [show tl.takeWhile (fun c => decide (c ≠ ';')) ++ ';' :: w =
        tl.takeWhile (fun c => decide (c ≠ ';')) ++
          tl.dropWhile (fun c => decide (c ≠ ';')) from by rw [hw]]
      rw [List.takeWhile_append_dropWhile]
      exact hX.symm
    · rw [if_neg hsemi] at h
      obtain ⟨h1, h2⟩ := Prod.mk.injEq _ _ _ _ ▸ h
      exact absurd h2.symm hq
  · rw [if_neg hslash] at h
    obtain ⟨h1, h2⟩ := Prod.mk.injEq _ _ _ _ ▸ h
    cases hd : X.dropWhile (fun c => decide (c ≠ ';')) with
    | nil =>
        rw [hd] at h2
        exact absurd h2.symm hq
    | cons e w =>
        have he : e = ';' := by
          have h3 := head?_dropWhile_not (fun c => decide (c ≠ ';')) X
          rw [hd] at h3
          simpa using h3
        rw [hd] at h2
        have hwq : w = q := by simpa using h2
        rw [← h1, ← hwq]
        rw [show (';' : Char) :: w = e :: w from by rw [he]]
        rw [← hd, List.takeWhile_append_dropWhile]

theorem splitparams_stable {X p : Str} (h : splitparams X = (p, [])) :
    splitparams p = (p, []) := by
  obtain ⟨stem, tl, hX, htl, hstem, htlns, hsend⟩ := stem_tl_decomp X
  rw [splitparams] at h
  dsimp only at h
  rw [← htl, hstem] at h
  by_cases hslash : X.contains '/' = true
  · rw [if_pos hslash] at h
    by_cases hsemi : tl.contains ';' = true
    · rw [if_pos hsemi] at h
      obtain ⟨h1, h2⟩ := Prod.mk.injEq _ _ _ _ ▸ h
      have hstem2 : ∃ st, stem = st ++ ['/'] := by
        rcases hsend with hsend | hsend
        · exfalso
          have hmem : '/' ∈ X := List.elem_iff.mp hslash
          rw [hX, hsend, List.nil_append] at hmem
          exact htlns '/' hmem rfl
        · exact hsend
      rcases hstem2 with ⟨st, rfl⟩
      have htwns : ∀ c ∈ tl.takeWhile (fun x => decide (x ≠ ';')), c ≠ ';' := by
        intro c hc
        have h3 := List.mem_takeWhile_imp hc
        simpa using h3
      have htwnsl : ∀ c ∈ tl.takeWhile (fun x => decide (x ≠ ';')), c ≠ '/' := by
        intro c hc
        exact htlns c ((List.takeWhile_sublist _).mem hc)
      rw [← h1]
      rw [splitparams]
      dsimp only
      have hcontains : ((st ++ ['/']) ++ tl.takeWhile (fun x => decide (x ≠ ';'))).contains
          '/' = true := by
        rw [List.elem_iff]
        simp
      have hrev : ((st ++ ['/']) ++ tl.takeWhile (fun x => decide (x ≠ ';'))).reverse =
          (tl.takeWhile (fun x => decide (x ≠ ';'))).reverse ++ ('/' :: st.reverse) := by
        simp
      have htlp : (((st ++ ['/']) ++
          tl.takeWhile (fun x => decide (x ≠ ';'))).reverse.takeWhile
            (fun c => decide (c ≠ '/'))).reverse =
          tl.takeWhile (fun x => decide (x ≠ ';')) := by
        rw [hrev]
        rw [takeWhile_append_all _ (fun c hc => by
          simpa using htwnsl c (by simpa using hc))]
        rw [List.takeWhile_cons, if_neg (by simp)]
        simp
      rw [htlp]
      rw [if_pos hcontains]
      rw [if_neg (fun hc => htwns ';' (List.elem_iff.mp hc) rfl)]
    · rw [if_neg hsemi] at h
      obtain ⟨h1, h2⟩ := Prod.mk.injEq _ _ _ _ ▸ h
      rw [← h1]
      rw [splitparams]
      dsimp only
      rw [← htl, hstem]
      rw [if_pos hslash, if_neg hsemi]
  · rw [if_neg hslash] at h
    obtain ⟨h1, h2⟩ := Prod.mk.injEq _ _ _ _ ▸ h
    have hpns : ∀ c ∈ p, c ≠ ';' := by
      intro c hc
      rw [← h1] at hc
      have h3 := List.mem_takeWhile_imp hc
      simpa using h3
    have hpnsl : ∀ c ∈ p, c ≠ '/' := by
      intro c hc
      rw [← h1] at hc
      have hcX : c ∈ X := (List.takeWhile_sublist _).mem hc
      intro hcc
      rw [hcc] at hcX
      exact absurd (List.elem_iff.mpr hcX) hslash
    rw [splitparams]
    dsimp only
    rw [if_neg (fun hc => hpnsl '/' (List.elem_iff.mp hc) rfl)]
    rw [takeWhile_all (fun c hc => by simpa using hpns c hc)]
    rw [dropWhile_all (fun c hc => by simpa using hpns c hc)]
    rfl

theorem splitparams_cons_slash (P : Str) :
    splitparams ('/' :: P) = ('/' :: (splitparams P).1, (splitparams P).2) := by
  have hconQ : ('/' :: P).contains '/' = true := by
    rw [List.elem_iff]
    simp
  by_cases hslash : P.contains '/' = true
  · obtain ⟨stem, tl, hX, htl, hstem, htlns, hsend⟩ := stem_tl_decomp P
    have hstop : P.reverse.dropWhile (fun c => decide (c ≠ '/')) ≠ [] := by
      rcases contains_dropWhile_cons
        (show '/' ∈ P.reverse by simpa using List.elem_iff.mp hslash) with ⟨w, hw⟩
      rw [hw]
      simp
    have htlQ : (('/' :: P).reverse.takeWhile (fun c => decide (c ≠ '/'))).reverse = tl := by
      rw [show ('/' :: P).reverse = P.reverse ++ ['/'] from by simp]
      rw [takeWhile_append_stop _ hstop]
      exact htl.symm
    have htllen : tl.length ≤ P.length := by
      rw [hX, List.length_append]
      omega
    have hstemQ : ('/' :: P).take (('/' :: P).length - tl.length) = '/' :: stem := by
      rw [List.length_cons]
      rw [show P.length + 1 - tl.length = (P.length - tl.length) + 1 from by omega]
      rw [List.take_succ_cons, hstem]
    rw [splitparams, splitparams]
    dsimp only
    rw [htlQ, hstemQ]
    rw [← htl, hstem]
    rw [if_pos hconQ, if_pos hslash]
    by_cases hsemi : tl.contains ';' = true
    · rw [if_pos hsemi, if_pos hsemi]
      simp
    · rw [if_neg hsemi, if_neg hsemi]
  · have hPns : ∀ c ∈ P, c ≠ '/' := by
      intro c hc hcc
      rw [hcc] at hc
      exact absurd (List.elem_iff.mpr hc) hslash
    have htlQ : (('/' :: P).reverse.takeWhile (fun c => decide (c ≠ '/'))).reverse = P := by
      rw [show ('/' :: P).reverse = P.reverse ++ ['/'] from by simp]
      rw [takeWhile_append_all _ (fun c hc => by simpa using hPns c (by simpa using hc))]
      rw [show (['/'] : Str).takeWhile (fun c => decide (c ≠ '/')) = [] from rfl]
      simp
    have hstemQ : ('/' :: P).take (('/' :: P).length - P.length) = ['/'] := by
      rw [List.length_cons]
      rw [show P.length + 1 - P.length = 1 from by omega]
      rfl
    rw [splitparams, splitparams]
    dsimp only
    rw [htlQ, hstemQ]
    rw [if_pos hconQ, if_neg hslash]
    by_cases hsemi : P.contains ';' = true
    · rw [if_pos hsemi]
      simp
    · rw [if_neg hsemi]
      have hPnsemi : ∀ c ∈ P, c ≠ ';' := by
        intro c hc hcc
        rw [hcc] at hc
        exact absurd (List.elem_iff.mpr hc) hsemi
      rw [takeWhile_all (fun c hc => by simpa using hPnsemi c hc)]
      rw [dropWhile_all (fun c hc => by simpa using hPnsemi c hc)]
      rfl

/-! ### The shape of `urlunsplit` output -/

/-- The path-and-netloc portion of `urlunsplit`: everything between the
optional `scheme:` head and the optional `?query`/`#fragment` tails. -/
def coreOf (sr : SplitRes) : Str :=
  if sr.netloc ≠ [] ∨ (sr.scheme ≠ [] ∧ uses_netloc.contains sr.scheme ∧
      sr.path.take 2 ≠ ['/', '/']) then
    '/' :: '/' :: (sr.netloc ++
      (if sr.path ≠ [] ∧ sr.path.head? ≠ some '/' then '/' :: sr.path else sr.path))
  else sr.path

theorem urlunsplit_shape (sr : SplitRes) :
    urlunsplit sr =
      (if sr.scheme ≠ [] then sr.scheme ++ ':' :: coreOf sr else coreOf sr) ++
        ((if sr.query ≠ [] then '?' :: sr.query else []) ++
         (if sr.frag ≠ [] then '#' :: sr.frag else [])) := by
  rw [urlunsplit, coreOf]
  by_cases hs : sr.scheme ≠ [] <;> by_cases hq : sr.query ≠ [] <;>
    by_cases hf : sr.frag ≠ [] <;>
    simp [hs, hq, hf, List.append_assoc]

theorem mergePP_nil (p : Str) : mergePP p [] = p := by
  rw [mergePP]
  simp

theorem mergePP_cons (c : Char) (p q : Str) : mergePP (c :: p) q = c :: mergePP p q := by
  rw [mergePP, mergePP]
  by_cases hq : q ≠ []
  · rw [if_pos hq, if_pos hq]
    rfl
  · rw [if_neg hq, if_neg hq]

theorem tail_splits (D q f : Str) (hD1 : ∀ c ∈ D, c ≠ '#') (hD2 : ∀ c ∈ D, c ≠ '?')
    (hq : ∀ c ∈ q, c ≠ '#') :
    splitFirst '#' (D ++ ((if q ≠ [] then '?' :: q else []) ++
        (if f ≠ [] then '#' :: f else []))) =
      (D ++ (if q ≠ [] then '?' :: q else []), f) ∧
    splitFirst '?' (D ++ (if q ≠ [] then '?' :: q else [])) = (D, q) := by
  have hDT1 : ∀ c ∈ D ++ (if q ≠ [] then '?' :: q else []), c ≠ '#' := by
    intro c hc
    rcases List.mem_append.mp hc with hc | hc
    · exact hD1 c hc
    · by_cases hqe : q ≠ []
      · rw [if_pos hqe] at hc
        rcases List.mem_cons.mp hc with rfl | hc
        · decide
        · exact hq c hc
      · rw [if_neg hqe] at hc
        exact absurd hc (by simp)
  constructor
  · by_cases hfe : f ≠ []
    · rw [if_pos hfe]
      rw [show D ++ ((if q ≠ [] then '?' :: q else []) ++ '#' :: f) =
        (D ++ (if q ≠ [] then '?' :: q else [])) ++ '#' :: f from by
          rw [List.append_assoc]]
      exact splitFirst_first_occur f hDT1
    · rw [if_neg hfe]
      rw [List.append_nil]
      rw [show f = [] from by simpa using hfe]
      exact splitFirst_no_occur hDT1
  · by_cases hqe : q ≠ []
    · rw [if_pos hqe]
      exact splitFirst_first_occur q hD2
    · rw [if_neg hqe, List.append_nil]
      rw [show q = [] from by simpa using hqe]
      exact splitFirst_no_occur hD2

/-! ### Re-parsing the re-serialised URL -/

theorem cleanUrl_eq_self_parts {sch CORE q f : Str}
    (hsch : sch = [] ∨ ∃ c0 cs0, sch = c0 :: cs0 ∧ isAlphaC c0 = true ∧
      (∀ d ∈ sch, schemeChar d = true))
    (hCb : ∀ c ∈ CORE, badChar c = false)
    (hChead : sch = [] → CORE = [] ∨ ∃ h0 t, CORE = h0 :: t ∧ c0OrSpace h0 = false)
    (hqb : ∀ c ∈ q, badChar c = false) (hfb : ∀ c ∈ f, badChar c = false) :
    cleanUrl ((if sch ≠ [] then sch ++ ':' :: CORE else CORE) ++
      ((if q ≠ [] then '?' :: q else []) ++ (if f ≠ [] then '#' :: f else []))) =
      (if sch ≠ [] then sch ++ ':' :: CORE else CORE) ++
      ((if q ≠ [] then '?' :: q else []) ++ (if f ≠ [] then '#' :: f else [])) := by
  apply cleanUrl_eq_self
  · intro c hc
    rcases List.mem_append.mp hc with hc | hc
    · by_cases hse : sch ≠ []
      · rw [if_pos hse] at hc
        rcases List.mem_append.mp hc with hc | hc
        · rcases hsch with hs0 | ⟨c0, cs0, hsc, hca, hall⟩
          · exact absurd hs0 hse
          · exact badChar_false_of_schemeChar (hall c hc)
        · rcases List.mem_cons.mp hc with rfl | hc
          · decide
          · exact hCb c hc
      · rw [if_neg hse] at hc
        exact hCb c hc
    · rcases List.mem_append.mp hc with hc | hc
      · by_cases hqe : q ≠ []
        · rw [if_pos hqe] at hc
          rcases List.mem_cons.mp hc with rfl | hc
          · decide
          · exact hqb c hc
        · rw [if_neg hqe] at hc
          exact absurd hc (by simp)
      · by_cases hfe : f ≠ []
        · rw [if_pos hfe] at hc
          rcases List.mem_cons.mp hc with rfl | hc
          · decide
          · exact hfb c hc
        · rw [if_neg hfe] at hc
          exact absurd hc (by simp)
  · rcases hsch with hs0 | ⟨c0, cs0, hsc, hca, hall⟩
    · rw [if_neg (by simp [hs0])]
      rcases hChead hs0 with hC0 | ⟨h0, t, hCc, hh⟩
      · rw [hC0, List.nil_append]
        by_cases hqe : q ≠ []
        · right
          refine ⟨'?', q ++ (if f ≠ [] then '#' :: f else []), ?_, by decide⟩
          rw [if_pos hqe, List.cons_append]
        · rw [if_neg hqe, List.nil_append]
          by_cases hfe : f ≠ []
          · right
            exact ⟨'#', f, by rw [if_pos hfe], by decide⟩
          · left
            rw [if_neg hfe]
      · right
        refine ⟨h0, t ++ ((if q ≠ [] then '?' :: q else []) ++
          (if f ≠ [] then '#' :: f else [])), ?_, hh⟩
        rw [hCc, List.cons_append]
    · rw [if_pos (by rw [hsc]; simp)]
      right
      refine ⟨c0, (cs0 ++ ':' :: CORE) ++ ((if q ≠ [] then '?' :: q else []) ++
        (if f ≠ [] then '#' :: f else [])), ?_, c0OrSpace_false_of_alpha hca⟩
      rw [hsc, List.cons_append, List.cons_append]

theorem splitScheme_shape_some {sch : Str} {c0 : Char} {cs0 : Str} (CORE T12 : Str)
    (hsc : sch = c0 :: cs0) (hca : isAlphaC c0 = true)
    (hall : ∀ d ∈ sch, schemeChar d = true)
    (hlow : sch.map lowerC = sch) :
    splitScheme ((sch ++ ':' :: CORE) ++ T12) = some (sch, CORE ++ T12) := by
  rw [List.append_assoc, List.cons_append]
  subst hsc
  rw [splitScheme_schemeChars_pfx hca hall]
  rw [show ((c0 :: cs0).map lowerC) = c0 :: cs0 from hlow]

theorem ras_of_split_some {s sch REST : Str} (hcl : cleanUrl s = s)
    (hss : splitScheme s = some (sch, REST)) :
    restAfterScheme s = REST ∧ schemeOfSplit s [] = sch := by
  constructor
  · rw [restAfterScheme, hcl, hss]
  · rw [schemeOfSplit, hcl, hss]

theorem ras_of_split_none {s : Str} (hcl : cleanUrl s = s) (hss : splitScheme s = none) :
    restAfterScheme s = s ∧ schemeOfSplit s [] = [] := by
  constructor
  · rw [restAfterScheme, hcl, hss]
  · rw [schemeOfSplit, hcl, hss]
    rfl

theorem netloc_of_ras {s nl W : Str} (hras : restAfterScheme s = '/' :: '/' :: (nl ++ W))
    (hnlc : ∀ c ∈ nl, netChar c = true)
    (hW : W = [] ∨ ∃ h0 t, W = h0 :: t ∧ netChar h0 = false) :
    netlocOf s = nl ∧ restAfterNetloc s = W := by
  have htake : ('/' :: '/' :: (nl ++ W)).take 2 = ['/', '/'] := rfl
  constructor
  · rw [netlocOf, hras, if_pos htake]
    rw [show ('/' :: '/' :: (nl ++ W)).drop 2 = nl ++ W from rfl]
    rw [takeWhile_append_all _ hnlc]
    rw [takeWhile_head_fail hW]
    simp
  · rw [restAfterNetloc, hras, if_pos htake]
    rw [show ('/' :: '/' :: (nl ++ W)).drop 2 = nl ++ W from rfl]
    rw [dropWhile_append_all _ hnlc]
    exact dropWhile_head_fail hW

theorem netloc_of_ras_plain {s R : Str} (hras : restAfterScheme s = R)
    (hR2 : R.take 2 ≠ ['/', '/']) :
    netlocOf s = [] ∧ restAfterNetloc s = R := by
  constructor
  · rw [netlocOf, hras, if_neg hR2]
  · rw [restAfterNetloc, hras, if_neg hR2]

theorem reparse_core (s sch nl D q f : Str)
    (hsos : schemeOfSplit s [] = sch)
    (hnet : netlocOf s = nl)
    (hran : restAfterNetloc s = D ++ ((if q ≠ [] then '?' :: q else []) ++
      (if f ≠ [] then '#' :: f else [])))
    (hbrk : (nl.contains '[' != nl.contains ']') = false)
    (hbrk2 : (nl.contains '[' && !bracketedHostOK (bracketedOf nl)) = false)
    (hnfkc : nl.any nfkcSeparator = false)
    (hD1 : ∀ c ∈ D, c ≠ '#') (hD2 : ∀ c ∈ D, c ≠ '?') (hq1 : ∀ c ∈ q, c ≠ '#')
    (hsplitD : uses_params.contains sch = true → D.contains ';' = true →
      mergePP (splitparams D).1 (splitparams D).2 = D)
    (hfin : urlunsplit ⟨sch, nl, D, q, f⟩ = s) :
    sanitize_input s = .ok s := by
  obtain ⟨hts1, hts2⟩ := tail_splits D q f hD1 hD2 hq1
  have hsp : urlsplitE s [] = .ok ⟨sch, nl, D, q, f⟩ := by
    rw [urlsplitE]
    dsimp only
    rw [hnet]
    rw [if_neg (by rw [hbrk]; simp)]
    rw [if_neg (by rw [hbrk2]; simp)]
    rw [if_neg (by rw [hnfkc]; simp)]
    rw [hran, hts1]
    dsimp only
    rw [hts2]
    dsimp only
    rw [hsos]
  rw [sanitize_input, urlparseE, hsp]
  simp only [Except.map, Except.ok.injEq]
  by_cases hcnd : uses_params.contains sch = true ∧ D.contains ';' = true
  · rw [if_pos hcnd]
    rw [urlunparse]
    dsimp only
    rw [hsplitD hcnd.1 hcnd.2]
    rw [hfin]
  · rw [if_neg hcnd]
    rw [urlunparse]
    dsimp only
    rw [mergePP_nil]
    exact hfin

theorem reserialize_taken_aux (sch nl P Q q f : Str)
    (hsch : sch = [] ∨ ∃ c0 cs0, sch = c0 :: cs0 ∧ isAlphaC c0 = true ∧
      (∀ d ∈ sch, schemeChar d = true) ∧ sch.map lowerC = sch)
    (hnlc : ∀ c ∈ nl, netChar c = true)
    (hnlb : ∀ c ∈ nl, badChar c = false)
    (hbrk : (nl.contains '[' != nl.contains ']') = false)
    (hbrk2 : (nl.contains '[' && !bracketedHostOK (bracketedOf nl)) = false)
    (hnfkc : nl.any nfkcSeparator = false)
    (hq1 : ∀ c ∈ q, c ≠ '#') (hqb : ∀ c ∈ q, badChar c = false)
    (hfb : ∀ c ∈ f, badChar c = false)
    (hQh : ∀ c ∈ Q, c ≠ '#') (hQq : ∀ c ∈ Q, c ≠ '?') (hQb : ∀ c ∈ Q, badChar c = false)
    (hQW : Q ++ ((if q ≠ [] then '?' :: q else []) ++
        (if f ≠ [] then '#' :: f else [])) = [] ∨
      ∃ h0 t, Q ++ ((if q ≠ [] then '?' :: q else []) ++
        (if f ≠ [] then '#' :: f else [])) = h0 :: t ∧ netChar h0 = false)
    (hsplitQ : uses_params.contains sch = true → Q.contains ';' = true →
      mergePP (splitparams Q).1 (splitparams Q).2 = Q)
    (hcore : coreOf ⟨sch, nl, P, q, f⟩ = '/' :: '/' :: (nl ++ Q))
    (hcoreQ : coreOf ⟨sch, nl, Q, q, f⟩ = '/' :: '/' :: (nl ++ Q)) :
    sanitize_input (urlunsplit ⟨sch, nl, P, q, f⟩) =
      .ok (urlunsplit ⟨sch, nl, P, q, f⟩) := by
  have hshape := urlunsplit_shape ⟨sch, nl, P, q, f⟩
  dsimp only at hshape
  rw [hcore] at hshape
  have hclean : cleanUrl (urlunsplit ⟨sch, nl, P, q, f⟩) =
      urlunsplit ⟨sch, nl, P, q, f⟩ := by
    rw [hshape]
    apply cleanUrl_eq_self_parts
    · rcases hsch with h | ⟨c0, cs0, h1, h2, h3, _⟩
      · exact Or.inl h
      · exact Or.inr ⟨c0, cs0, h1, h2, h3⟩
    · intro c hc
      rcases List.mem_cons.mp hc with rfl | hc
      · decide
      · rcases List.mem_cons.mp hc with rfl | hc
        · decide
        · rcases List.mem_append.mp hc with hc | hc
          · exact hnlb c hc
          · exact hQb c hc
    · intro _
      exact Or.inr ⟨'/', '/' :: (nl ++ Q), rfl, by decide⟩
    · exact hqb
    · exact hfb
  have hkey : schemeOfSplit (urlunsplit ⟨sch, nl, P, q, f⟩) [] = sch ∧
      restAfterScheme (urlunsplit ⟨sch, nl, P, q, f⟩) =
        ('/' :: '/' :: (nl ++ Q)) ++ ((if q ≠ [] then '?' :: q else []) ++
          (if f ≠ [] then '#' :: f else [])) := by
    rcases hsch with h | ⟨c0, cs0, h1, h2, h3, h4⟩
    · have hss : splitScheme (urlunsplit ⟨sch, nl, P, q, f⟩) = none := by
        rw [hshape, if_neg (by simp [h])]
        rw [List.cons_append]
        exact splitScheme_none_head _ (by decide)
      obtain ⟨hr1, hr2⟩ := ras_of_split_none hclean hss
      refine ⟨by rw [hr2, h], ?_⟩
      rw [hr1, hshape, if_neg (by simp [h])]
    · have hss : splitScheme (urlunsplit ⟨sch, nl, P, q, f⟩) =
          some (sch, ('/' :: '/' :: (nl ++ Q)) ++ ((if q ≠ [] then '?' :: q else []) ++
            (if f ≠ [] then '#' :: f else []))) := by
        rw [hshape, if_pos (by rw [h1]; simp)]
        exact splitScheme_shape_some _ _ h1 h2 h3 h4
      obtain ⟨hr1, hr2⟩ := ras_of_split_some hclean hss
      exact ⟨hr2, hr1⟩
  have hras2 : restAfterScheme (urlunsplit ⟨sch, nl, P, q, f⟩) =
      '/' :: '/' :: (nl ++ (Q ++ ((if q ≠ [] then '?' :: q else []) ++
        (if f ≠ [] then '#' :: f else [])))) := by
    rw [hkey.2]
    simp [List.append_assoc]
  obtain ⟨hnet, hran⟩ := netloc_of_ras hras2 hnlc hQW
  have hfinQ : urlunsplit ⟨sch, nl, Q, q, f⟩ = urlunsplit ⟨sch, nl, P, q, f⟩ := by
    have h2 := urlunsplit_shape ⟨sch, nl, Q, q, f⟩
    dsimp only at h2
    rw [hcoreQ] at h2
    rw [h2, hshape]
  exact reparse_core _ sch nl Q q f hkey.1 hnet hran hbrk hbrk2 hnfkc hQh hQq hq1 hsplitQ
    hfinQ

/-- Re-serialising a parse result is a fixpoint of parse-then-serialise,
given the structural invariants that `urlparse` guarantees for its
components, unless the result has an empty netloc and a path-with-params
opening with `//`. -/
theorem reserialize_fixpoint (sch nl P q f : Str)
    (hsch : sch = [] ∨ ∃ c0 cs0, sch = c0 :: cs0 ∧ isAlphaC c0 = true ∧
      (∀ d ∈ sch, schemeChar d = true) ∧ sch.map lowerC = sch)
    (hnlc : ∀ c ∈ nl, netChar c = true)
    (hnlb : ∀ c ∈ nl, badChar c = false)
    (hbrk : (nl.contains '[' != nl.contains ']') = false)
    (hbrk2 : (nl.contains '[' && !bracketedHostOK (bracketedOf nl)) = false)
    (hnfkc : nl.any nfkcSeparator = false)
    (hPq : ∀ c ∈ P, c ≠ '?') (hPh : ∀ c ∈ P, c ≠ '#') (hPb : ∀ c ∈ P, badChar c = false)
    (hPhead : sch = [] → nl = [] → P = [] ∨ ∃ h0 t, P = h0 :: t ∧ c0OrSpace h0 = false)
    (hq1 : ∀ c ∈ q, c ≠ '#') (hqb : ∀ c ∈ q, badChar c = false)
    (hfb : ∀ c ∈ f, badChar c = false)
    (hsplitP : uses_params.contains sch = true → P.contains ';' = true →
      mergePP (splitparams P).1 (splitparams P).2 = P)
    (hnos : sch = [] → nl = [] → ∀ c cs rest, P = (c :: cs) ++ ':' :: rest →
      isAlphaC c = true → (∀ d ∈ c :: cs, schemeChar d = true) → False)
    (hcav : nl ≠ [] ∨ P.take 2 ≠ ['/', '/']) :
    sanitize_input (urlunsplit ⟨sch, nl, P, q, f⟩) =
      .ok (urlunsplit ⟨sch, nl, P, q, f⟩) := by
  by_cases hB : nl ≠ [] ∨ (sch ≠ [] ∧ uses_netloc.contains sch = true ∧
      P.take 2 ≠ ['/', '/'])
  · by_cases hins : P ≠ [] ∧ P.head? ≠ some '/'
    · -- a slash is inserted in front of the path
      have hBQ : nl ≠ [] ∨ (sch ≠ [] ∧ uses_netloc.contains sch = true ∧
          ('/' :: P).take 2 ≠ ['/', '/']) := by
        rcases hB with h | ⟨h1, h2, h3⟩
        · exact Or.inl h
        · refine Or.inr ⟨h1, h2, ?_⟩
          obtain ⟨hPne, hPhd⟩ := hins
          cases P with
          | nil => exact absurd rfl hPne
          | cons p0 pt =>
              intro hx
              have hp0 : p0 = '/' := by simpa using hx
              exact hPhd (by rw [List.head?_cons, hp0])
      apply reserialize_taken_aux sch nl P ('/' :: P) q f hsch hnlc hnlb hbrk hbrk2
        hnfkc hq1 hqb hfb
      · intro c hc
        rcases List.mem_cons.mp hc with rfl | hc
        · decide
        · exact hPh c hc
      · intro c hc
        rcases List.mem_cons.mp hc with rfl | hc
        · decide
        · exact hPq c hc
      · intro c hc
        rcases List.mem_cons.mp hc with rfl | hc
        · decide
        · exact hPb c hc
      · right
        exact ⟨'/', P ++ ((if q ≠ [] then '?' :: q else []) ++
          (if f ≠ [] then '#' :: f else [])), by rw [List.cons_append], by decide⟩
      · intro hu hsemi
        have hsemi2 : P.contains ';' = true := by
          rcases List.mem_cons.mp (List.elem_iff.mp hsemi) with h | h
          · exact absurd h (by decide)
          · exact List.elem_iff.mpr h
        rw [splitparams_cons_slash]
        dsimp only
        rw [mergePP_cons]
        rw [hsplitP hu hsemi2]
      · rw [coreOf]
        dsimp only
        rw [if_pos hB, if_pos hins]
      · rw [coreOf]
        dsimp only
        rw [if_pos hBQ]
        rw [if_neg (fun hx => hx.2 rfl)]
    · -- no slash inserted: the path is empty or already starts with a slash
      have hQW : P ++ ((if q ≠ [] then '?' :: q else []) ++
          (if f ≠ [] then '#' :: f else [])) = [] ∨
          ∃ h0 t, P ++ ((if q ≠ [] then '?' :: q else []) ++
            (if f ≠ [] then '#' :: f else [])) = h0 :: t ∧ netChar h0 = false := by
        by_cases hPe : P = []
        · rw [hPe, List.nil_append]
          by_cases hqe : q ≠ []
          · right
            exact ⟨'?', q ++ (if f ≠ [] then '#' :: f else []),
              by rw [if_pos hqe, List.cons_append], by decide⟩
          · rw [if_neg hqe, List.nil_append]
            by_cases hfe : f ≠ []
            · right
              exact ⟨'#', f, by rw [if_pos hfe], by decide⟩
            · left
              rw [if_neg hfe]
        · have hhd : P.head? = some '/' := by
            by_contra hx
            exact hins ⟨hPe, hx⟩
          cases P with
          | nil => exact absurd rfl hPe
          | cons p0 pt =>
              have hp0 : p0 = '/' := by simpa using hhd
              right
              refine ⟨p0, pt ++ ((if q ≠ [] then '?' :: q else []) ++
                (if f ≠ [] then '#' :: f else [])), by rw [List.cons_append], ?_⟩
              rw [hp0]
              decide
      apply reserialize_taken_aux sch nl P P q f hsch hnlc hnlb hbrk hbrk2
        hnfkc hq1 hqb hfb hPh hPq hPb hQW hsplitP
      · rw [coreOf]
        dsimp only
        rw [if_pos hB, if_neg hins]
      · rw [coreOf]
        dsimp only
        rw [if_pos hB, if_neg hins]
  · -- the serialiser emits the bare path
    have hnl0 : nl = [] := by
      by_contra hne
      exact hB (Or.inl hne)
    subst hnl0
    have hP2 : P.take 2 ≠ ['/', '/'] := by
      rcases hcav with h | h
      · exact absurd rfl h
      · exact h
    have hcore : coreOf ⟨sch, [], P, q, f⟩ = P := by
      rw [coreOf]
      dsimp only
      rw [if_neg hB]
    have hshape := urlunsplit_shape ⟨sch, [], P, q, f⟩
    dsimp only at hshape
    rw [hcore] at hshape
    have hclean : cleanUrl (urlunsplit ⟨sch, [], P, q, f⟩) =
        urlunsplit ⟨sch, [], P, q, f⟩ := by
      rw [hshape]
      apply cleanUrl_eq_self_parts
      · rcases hsch with h | ⟨c0, cs0, h1, h2, h3, _⟩
        · exact Or.inl h
        · exact Or.inr ⟨c0, cs0, h1, h2, h3⟩
      · exact hPb
      · intro hs0
        exact hPhead hs0 rfl
      · exact hqb
      · exact hfb
    have hT2fact : (if f ≠ [] then '#' :: f else []) = [] ∨
        ∃ b0 bs, (if f ≠ [] then '#' :: f else []) = b0 :: bs ∧
          schemeChar b0 = false ∧ b0 ≠ ':' := by
      by_cases hfe : f ≠ []
      · right
        exact ⟨'#', f, by rw [if_pos hfe], by decide, by decide⟩
      · left
        rw [if_neg hfe]
    have hT1fact : (if q ≠ [] then '?' :: q else []) = [] ∨
        ∃ b0 bs, (if q ≠ [] then '?' :: q else []) = b0 :: bs ∧
          schemeChar b0 = false ∧ b0 ≠ ':' := by
      by_cases hqe : q ≠ []
      · right
        exact ⟨'?', q, by rw [if_pos hqe], by decide, by decide⟩
      · left
        rw [if_neg hqe]
    have hkey : schemeOfSplit (urlunsplit ⟨sch, [], P, q, f⟩) [] = sch ∧
        restAfterScheme (urlunsplit ⟨sch, [], P, q, f⟩) =
          P ++ ((if q ≠ [] then '?' :: q else []) ++
            (if f ≠ [] then '#' :: f else [])) := by
      rcases hsch with h | ⟨c0, cs0, h1, h2, h3, h4⟩
      · have hss : splitScheme (urlunsplit ⟨sch, [], P, q, f⟩) = none := by
          rw [hshape, if_neg (by simp [h])]
          cases hsplit : splitScheme (P ++ ((if q ≠ [] then '?' :: q else []) ++
              (if f ≠ [] then '#' :: f else []))) with
          | none => rfl
          | some v =>
              exfalso
              obtain ⟨c, cs, rest, hdec, hca, hallc, _⟩ := splitScheme_some_elim hsplit
              have hdec2 : (P ++ (if q ≠ [] then '?' :: q else [])) ++
                  (if f ≠ [] then '#' :: f else []) = (c :: cs) ++ ':' :: rest := by
                rw [List.append_assoc]
                exact hdec
              obtain ⟨t2, ht2⟩ := scheme_prefix_transfer hdec2 (fun d hd => hallc d hd) hT2fact
              obtain ⟨t3, ht3⟩ := scheme_prefix_transfer ht2 (fun d hd => hallc d hd) hT1fact
              exact hnos h rfl c cs t3 ht3 hca hallc
        obtain ⟨hr1, hr2⟩ := ras_of_split_none hclean hss
        refine ⟨by rw [hr2, h], ?_⟩
        rw [hr1, hshape, if_neg (by simp [h])]
      · have hss : splitScheme (urlunsplit ⟨sch, [], P, q, f⟩) =
            some (sch, P ++ ((if q ≠ [] then '?' :: q else []) ++
              (if f ≠ [] then '#' :: f else []))) := by
          rw [hshape, if_pos (by rw [h1]; simp)]
          exact splitScheme_shape_some _ _ h1 h2 h3 h4
        obtain ⟨hr1, hr2⟩ := ras_of_split_some hclean hss
        exact ⟨hr2, hr1⟩
    have hT12ne : ∀ h0, (((if q ≠ [] then '?' :: q else []) ++
        (if f ≠ [] then '#' :: f else [])).head? = some h0) → h0 ≠ '/' := by
      intro h0 hh
      by_cases hqe : q ≠ []
      · rw [if_pos hqe, List.cons_append, List.head?_cons] at hh
        have h2 : '?' = h0 := Option.some.injEq _ _ ▸ hh
        rw [← h2]
        decide
      · rw [if_neg hqe, List.nil_append] at hh
        by_cases hfe : f ≠ []
        · rw [if_pos hfe, List.head?_cons] at hh
          have h2 : '#' = h0 := Option.some.injEq _ _ ▸ hh
          rw [← h2]
          decide
        · rw [if_neg hfe] at hh
          exact absurd hh (by simp)
    obtain ⟨hnet, hran⟩ := netloc_of_ras_plain hkey.2 (take2_append_ne hP2 hT12ne)
    exact reparse_core _ sch [] P q f hkey.1 hnet hran hbrk hbrk2 hnfkc hPh hPq hq1
      hsplitP rfl

/-! ### Invariants of freshly parsed components -/

theorem urlsplitE_ok_conds {u ds : Str} {sr : SplitRes} (h : urlsplitE u ds = .ok sr) :
    ((netlocOf u).contains '[' != (netlocOf u).contains ']') = false ∧
    ((netlocOf u).contains '[' && !bracketedHostOK (bracketedOf (netlocOf u))) = false ∧
    ((netlocOf u).any nfkcSeparator) = false := by
  rw [urlsplitE] at h
  by_cases h1 : ((netlocOf u).contains '[' != (netlocOf u).contains ']') = true
  · rw [if_pos h1] at h
    exact absurd h (by simp)
  · rw [if_neg h1] at h
    by_cases h2 : ((netlocOf u).contains '[' &&
        !bracketedHostOK (bracketedOf (netlocOf u))) = true
    · rw [if_pos h2] at h
      exact absurd h (by simp)
    · rw [if_neg h2] at h
      by_cases h3 : ((netlocOf u).any nfkcSeparator) = true
      · rw [if_pos h3] at h
        exact absurd h (by simp)
      · exact ⟨Bool.not_eq_true _ ▸ h1, Bool.not_eq_true _ ▸ h2, Bool.not_eq_true _ ▸ h3⟩

theorem urlparseE_ok_full {u ds : Str} {r : ParseRes} (h : urlparseE u ds = .ok r) :
    r.scheme = schemeOfSplit u ds ∧ r.netloc = netlocOf u ∧
    r.query = (splitFirst '?' (splitFirst '#' (restAfterNetloc u)).1).2 ∧
    r.frag = (splitFirst '#' (restAfterNetloc u)).2 ∧
    ((uses_params.contains (schemeOfSplit u ds) = true ∧
        (splitFirst '?' (splitFirst '#' (restAfterNetloc u)).1).1.contains ';' = true ∧
        r.path = (splitparams (splitFirst '?'
          (splitFirst '#' (restAfterNetloc u)).1).1).1 ∧
        r.params = (splitparams (splitFirst '?'
          (splitFirst '#' (restAfterNetloc u)).1).1).2) ∨
      (¬(uses_params.contains (schemeOfSplit u ds) = true ∧
          (splitFirst '?' (splitFirst '#' (restAfterNetloc u)).1).1.contains ';' = true) ∧
        r.path = (splitFirst '?' (splitFirst '#' (restAfterNetloc u)).1).1 ∧
        r.params = [])) := by
  rw [urlparseE] at h
  cases hs : urlsplitE u ds with
  | error e =>
      rw [hs] at h
      exact absurd h (by simp [Except.map])
  | ok sr =>
      rw [hs] at h
      simp only [Except.map, Except.ok.injEq] at h
      have hsr := urlsplitE_ok_elim hs
      subst h
      subst hsr
      by_cases hc : uses_params.contains (schemeOfSplit u ds) = true ∧
          (splitFirst '?' (splitFirst '#' (restAfterNetloc u)).1).1.contains ';' = true
      · rw [if_pos hc]
        exact ⟨rfl, rfl, rfl, rfl, Or.inl ⟨hc.1, hc.2, rfl, rfl⟩⟩
      · rw [if_neg hc]
        exact ⟨rfl, rfl, rfl, rfl, Or.inr ⟨hc, rfl, rfl⟩⟩

theorem schemeOfSplit_nil_none {u : Str} (h : schemeOfSplit u [] = []) :
    splitScheme (cleanUrl u) = none := by
  rw [schemeOfSplit] at h
  cases hsp : splitScheme (cleanUrl u) with
  | none => rfl
  | some v =>
      rw [hsp] at h
      obtain ⟨c, cs, rest, _, _, _, hv⟩ := splitScheme_some_elim hsp
      rw [hv] at h
      exact absurd h (by simp)

theorem schemeOfSplit_shape (u : Str) :
    schemeOfSplit u [] = [] ∨
      ∃ c0 cs0, schemeOfSplit u [] = c0 :: cs0 ∧ isAlphaC c0 = true ∧
        (∀ d ∈ schemeOfSplit u [], schemeChar d = true) ∧
        (schemeOfSplit u []).map lowerC = schemeOfSplit u [] := by
  cases hsp : splitScheme (cleanUrl u) with
  | none =>
      left
      rw [schemeOfSplit, hsp]
      rfl
  | some v =>
      right
      obtain ⟨c, cs, rest, hdec, hca, hall, hv⟩ := splitScheme_some_elim hsp
      have hval : schemeOfSplit u [] = (c :: cs).map lowerC := by
        rw [schemeOfSplit, hsp, hv]
      refine ⟨lowerC c, cs.map lowerC, by rw [hval]; rfl, lowerC_alpha hca, ?_, ?_⟩
      · intro d hd
        rw [hval] at hd
        rcases List.mem_map.mp hd with ⟨x, hx, rfl⟩
        exact schemeChar_lowerC (hall x hx)
      · rw [hval]
        exact map_lowerC_idem _

theorem restAfterScheme_sub (u : Str) : ∀ c ∈ restAfterScheme u, c ∈ cleanUrl u := by
  intro c hc
  rw [restAfterScheme] at hc
  cases hsp : splitScheme (cleanUrl u) with
  | none =>
      rw [hsp] at hc
      exact hc
  | some v =>
      rw [hsp] at hc
      obtain ⟨c0, cs0, rest, hdec, _, _, hv⟩ := splitScheme_some_elim hsp
      rw [hv] at hc
      rw [hdec]
      simp only [List.mem_append, List.mem_cons]
      right
      right
      simpa using hc

theorem netlocOf_sub (u : Str) : ∀ c ∈ netlocOf u, c ∈ cleanUrl u := by
  intro c hc
  rw [netlocOf] at hc
  by_cases h2 : (restAfterScheme u).take 2 = ['/', '/']
  · rw [if_pos h2] at hc
    have h3 : c ∈ (restAfterScheme u).drop 2 :=
      (List.takeWhile_sublist _).mem hc
    exact restAfterScheme_sub u c (List.drop_subset 2 (restAfterScheme u) h3)
  · rw [if_neg h2] at hc
    exact absurd hc (by simp)

theorem netlocOf_netChar (u : Str) : ∀ c ∈ netlocOf u, netChar c = true := by
  intro c hc
  rw [netlocOf] at hc
  by_cases h2 : (restAfterScheme u).take 2 = ['/', '/']
  · rw [if_pos h2] at hc
    exact List.mem_takeWhile_imp hc
  · rw [if_neg h2] at hc
    exact absurd hc (by simp)

theorem restAfterNetloc_sub (u : Str) : ∀ c ∈ restAfterNetloc u, c ∈ cleanUrl u := by
  intro c hc
  rw [restAfterNetloc] at hc
  by_cases h2 : (restAfterScheme u).take 2 = ['/', '/']
  · rw [if_pos h2] at hc
    have h3 : c ∈ (restAfterScheme u).drop 2 :=
      (List.dropWhile_sublist _).mem hc
    exact restAfterScheme_sub u c (List.drop_subset 2 (restAfterScheme u) h3)
  · rw [if_neg h2] at hc
    exact restAfterScheme_sub u c hc

theorem restAfterNetloc_head (u : Str) :
    (restAfterNetloc u = restAfterScheme u ∧ (restAfterScheme u).take 2 ≠ ['/', '/']) ∨
    (restAfterNetloc u).head?.all (fun c => !netChar c) = true := by
  by_cases h2 : (restAfterScheme u).take 2 = ['/', '/']
  · right
    rw [restAfterNetloc, if_pos h2]
    exact head?_dropWhile_not netChar _
  · left
    exact ⟨by rw [restAfterNetloc, if_neg h2], h2⟩

theorem netChar_false_facts {c : Char} (h : netChar c = false) :
    c0OrSpace c = false ∧ schemeChar c = false := by
  by_cases h1 : c = '/'
  · rw [h1]
    exact ⟨by decide, by decide⟩
  · by_cases h2 : c = '?'
    · rw [h2]
      exact ⟨by decide, by decide⟩
    · by_cases h3 : c = '#'
      · rw [h3]
        exact ⟨by decide, by decide⟩
      · exfalso
        have h4 : netChar c = true := by
          rw [netChar]
          simp [h1, h2, h3]
        rw [h4] at h
        exact Bool.noConfusion h

theorem splitparams_prefix_decomp (X : Str) : ∃ D, X = (splitparams X).1 ++ D := by
  obtain ⟨stem, tl, hX, htl, hstem, htlns, hsend⟩ := stem_tl_decomp X
  rw [splitparams]
  dsimp only
  rw [← htl, hstem]
  by_cases hslash : X.contains '/' = true
  · rw [if_pos hslash]
    by_cases hsemi : tl.contains ';' = true
    · rw [if_pos hsemi]
      refine ⟨tl.dropWhile (fun x => decide (x ≠ ';')), ?_⟩
      dsimp only
      rw [List.append_assoc, List.takeWhile_append_dropWhile]
      exact hX
    · rw [if_neg hsemi]
      exact ⟨[], by simp⟩
  · rw [if_neg hslash]
    refine ⟨X.dropWhile (fun x => decide (x ≠ ';')), ?_⟩
    dsimp only
    rw [List.takeWhile_append_dropWhile]

theorem splitparams_snd_sub {X : Str} {c : Char} (hc : c ∈ (splitparams X).2) : c ∈ X := by
  have heq : splitparams X = ((splitparams X).1, (splitparams X).2) := Prod.mk.eta.symm
  have hne : (splitparams X).2 ≠ [] := by
    intro h0
    rw [h0] at hc
    exact absurd hc (by simp)
  have hre := splitparams_reassemble heq hne
  rw [← hre]
  simp [hc]

theorem splitparams_fst_sub {X : Str} {c : Char} (hc : c ∈ (splitparams X).1) : c ∈ X := by
  obtain ⟨D, hD⟩ := splitparams_prefix_decomp X
  rw [hD]
  simp [hc]

theorem mergePP_mem {p q : Str} {c : Char} (hc : c ∈ mergePP p q) :
    c ∈ p ∨ c = ';' ∨ c ∈ q := by
  rw [mergePP] at hc
  by_cases hq : q ≠ []
  · rw [if_pos hq] at hc
    rcases List.mem_append.mp hc with hc | hc
    · exact Or.inl hc
    · rcases List.mem_cons.mp hc with rfl | hc
      · exact Or.inr (Or.inl rfl)
      · exact Or.inr (Or.inr hc)
  · rw [if_neg hq] at hc
    exact Or.inl hc

/-- Re-serialising any successful parse is a fixpoint of `sanitize_input`,
unless the parse has an empty netloc and a path-with-params opening with
`//`. -/
theorem sanitize_fix {u : Str} {r : ParseRes} (hp : urlparseE u [] = .ok r)
    (hcav : r.netloc ≠ [] ∨ (mergePP r.path r.params).take 2 ≠ ['/', '/']) :
    sanitize_input (urlunparse r) = .ok (urlunparse r) := by
  obtain ⟨hsc, hnl, hqe, hfe, hdisj⟩ := urlparseE_ok_full hp
  have hpath0 : (splitFirst '?' (splitFirst '#' (restAfterNetloc u)).1).1 =
      ((restAfterNetloc u).takeWhile (fun x => decide (x ≠ '#'))).takeWhile
        (fun x => decide (x ≠ '?')) := rfl
  have hq0 : (splitFirst '?' (splitFirst '#' (restAfterNetloc u)).1).2 =
      (((restAfterNetloc u).takeWhile (fun x => decide (x ≠ '#'))).dropWhile
        (fun x => decide (x ≠ '?'))).drop 1 := rfl
  have hf0 : (splitFirst '#' (restAfterNetloc u)).2 =
      ((restAfterNetloc u).dropWhile (fun x => decide (x ≠ '#'))).drop 1 := rfl
  have hp0q : ∀ c ∈ (splitFirst '?' (splitFirst '#' (restAfterNetloc u)).1).1,
      c ≠ '?' := by
    intro c hc
    rw [hpath0] at hc
    simpa using List.mem_takeWhile_imp hc
  have hp0h : ∀ c ∈ (splitFirst '?' (splitFirst '#' (restAfterNetloc u)).1).1,
      c ≠ '#' := by
    intro c hc
    rw [hpath0] at hc
    have h2 : c ∈ (restAfterNetloc u).takeWhile (fun x => decide (x ≠ '#')) :=
      (List.takeWhile_sublist _).mem hc
    simpa using List.mem_takeWhile_imp h2
  have hp0sub : ∀ c ∈ (splitFirst '?' (splitFirst '#' (restAfterNetloc u)).1).1,
      c ∈ restAfterNetloc u := by
    intro c hc
    rw [hpath0] at hc
    exact (List.takeWhile_sublist _).mem ((List.takeWhile_sublist _).mem hc)
  have hq0h : ∀ c ∈ (splitFirst '?' (splitFirst '#' (restAfterNetloc u)).1).2,
      c ≠ '#' := by
    intro c hc
    rw [hq0] at hc
    have h2 : c ∈ (restAfterNetloc u).takeWhile (fun x => decide (x ≠ '#')) :=
      (List.dropWhile_sublist _).mem (List.drop_subset 1 _ hc)
    simpa using List.mem_takeWhile_imp h2
  have hq0sub : ∀ c ∈ (splitFirst '?' (splitFirst '#' (restAfterNetloc u)).1).2,
      c ∈ restAfterNetloc u := by
    intro c hc
    rw [hq0] at hc
    exact (List.takeWhile_sublist _).mem
      ((List.dropWhile_sublist _).mem (List.drop_subset 1 _ hc))
  have hf0sub : ∀ c ∈ (splitFirst '#' (restAfterNetloc u)).2,
      c ∈ restAfterNetloc u := by
    intro c hc
    rw [hf0] at hc
    exact (List.dropWhile_sublist _).mem (List.drop_subset 1 _ hc)
  have hpmem : ∀ c ∈ r.path,
      c ∈ (splitFirst '?' (splitFirst '#' (restAfterNetloc u)).1).1 := by
    rcases hdisj with ⟨_, _, hpe2, _⟩ | ⟨_, hpe2, _⟩
    · rw [hpe2]
      intro c hc
      exact splitparams_fst_sub hc
    · rw [hpe2]
      intro c hc
      exact hc
  have hprmem : ∀ c ∈ r.params,
      c ∈ (splitFirst '?' (splitFirst '#' (restAfterNetloc u)).1).1 := by
    rcases hdisj with ⟨_, _, _, hpr2⟩ | ⟨_, _, hpr2⟩
    · rw [hpr2]
      intro c hc
      exact splitparams_snd_sub hc
    · rw [hpr2]
      intro c hc
      exact absurd hc (by simp)
  have hspl2 : ∃ sr, urlsplitE u [] = .ok sr := by
    rw [urlparseE] at hp
    cases hs2 : urlsplitE u [] with
    | error e =>
        rw [hs2] at hp
        exact absurd hp (by simp [Except.map])
    | ok sr => exact ⟨sr, rfl⟩
  obtain ⟨sr, hsr⟩ := hspl2
  obtain ⟨hbrka, hbrkb, hbrkc⟩ := urlsplitE_ok_conds hsr
  have hDex : ∃ D, (splitFirst '?' (splitFirst '#' (restAfterNetloc u)).1).1 =
      r.path ++ D := by
    rcases hdisj with ⟨_, _, hpe2, _⟩ | ⟨_, hpe2, _⟩
    · rw [hpe2]
      exact splitparams_prefix_decomp _
    · exact ⟨[], by rw [hpe2, List.append_nil]⟩
  rw [urlunparse]
  apply reserialize_fixpoint r.scheme r.netloc (mergePP r.path r.params) r.query r.frag
  · rw [hsc]
    exact schemeOfSplit_shape u
  · rw [hnl]
    exact netlocOf_netChar u
  · rw [hnl]
    intro c hc
    exact cleanUrl_bad_free c (netlocOf_sub u c hc)
  · rw [hnl]
    exact hbrka
  · rw [hnl]
    exact hbrkb
  · rw [hnl]
    exact hbrkc
  · intro c hc
    rcases mergePP_mem hc with hc | rfl | hc
    · exact hp0q c (hpmem c hc)
    · decide
    · exact hp0q c (hprmem c hc)
  · intro c hc
    rcases mergePP_mem hc with hc | rfl | hc
    · exact hp0h c (hpmem c hc)
    · decide
    · exact hp0h c (hprmem c hc)
  · intro c hc
    rcases mergePP_mem hc with hc | rfl | hc
    · exact cleanUrl_bad_free c (restAfterNetloc_sub u c (hp0sub c (hpmem c hc)))
    · decide
    · exact cleanUrl_bad_free c (restAfterNetloc_sub u c (hp0sub c (hprmem c hc)))
  · -- head of the path-with-params is not stripped by the cleaner
    intro hs0 hn0
    have hssn : splitScheme (cleanUrl u) = none :=
      schemeOfSplit_nil_none (by rw [← hsc]; exact hs0)
    by_cases hpe : r.path = []
    · by_cases hpre : r.params = []
      · left
        rw [hpe, hpre, mergePP_nil]
      · right
        refine ⟨';', r.params, ?_, by decide⟩
        rw [hpe, mergePP, if_pos hpre, List.nil_append]
    · cases hpc : r.path with
      | nil => exact absurd hpc hpe
      | cons p0 pt =>
          right
          refine ⟨p0, mergePP pt r.params, by rw [mergePP_cons], ?_⟩
          obtain ⟨D, hD⟩ := hDex
          have h1 : ((restAfterNetloc u).takeWhile (fun x => decide (x ≠ '#'))).takeWhile
              (fun x => decide (x ≠ '?')) = p0 :: (pt ++ D) := by
            rw [← hpath0, hD, hpc, List.cons_append]
          have h2 := head?_takeWhile_eq h1
          have hRhead : (restAfterNetloc u).head? = some p0 := by
            cases h3 : (restAfterNetloc u).takeWhile (fun x => decide (x ≠ '#')) with
            | nil =>
                rw [h3] at h2
                exact absurd h2 (by simp)
            | cons a l =>
                rw [h3] at h2
                have ha : a = p0 := by simpa using h2
                exact head?_takeWhile_eq (show (restAfterNetloc u).takeWhile
                  (fun x => decide (x ≠ '#')) = p0 :: l from by rw [h3, ha])
          rcases restAfterNetloc_head u with ⟨hRe, _⟩ | hhd
          · have hcl : restAfterScheme u = cleanUrl u := by
              rw [restAfterScheme, hssn]
            have hcu : (cleanUrl u).head? = some p0 := by
              rw [← hcl, ← hRe]
              exact hRhead
            cases hcc : cleanUrl u with
            | nil =>
                rw [hcc] at hcu
                exact absurd hcu (by simp)
            | cons h0 t =>
                rw [hcc] at hcu
                have hh0 : h0 = p0 := by simpa using hcu
                rw [← hh0]
                exact cleanUrl_head_not_space hcc
          · rw [hRhead] at hhd
            have hnc : netChar p0 = false := by simpa using hhd
            exact (netChar_false_facts hnc).1
  · intro c hc
    rw [hqe] at hc
    exact hq0h c hc
  · intro c hc
    rw [hqe] at hc
    exact cleanUrl_bad_free c (restAfterNetloc_sub u c (hq0sub c hc))
  · intro c hc
    rw [hfe] at hc
    exact cleanUrl_bad_free c (restAfterNetloc_sub u c (hf0sub c hc))
  · -- the params split of the assembled path reproduces (path, params)
    intro hu hsem
    rcases hdisj with ⟨hu0, hsem0, hpe2, hpre2⟩ | ⟨hneg, hpe2, hpre2⟩
    · have hsp0 : splitparams (splitFirst '?'
          (splitFirst '#' (restAfterNetloc u)).1).1 = (r.path, r.params) := by
        rw [hpe2, hpre2]
      by_cases hpre : r.params = []
      · rw [hpre] at hsp0
        have hst := splitparams_stable hsp0
        rw [hpre, mergePP_nil]
        rw [hst]
        exact mergePP_nil _
      · have hPeq : mergePP r.path r.params =
            (splitFirst '?' (splitFirst '#' (restAfterNetloc u)).1).1 := by
          rw [mergePP, if_pos hpre]
          exact splitparams_reassemble hsp0 hpre
        rw [hPeq, hsp0]
        exact hPeq
    · exfalso
      apply hneg
      constructor
      · rw [← hsc]
        exact hu
      · rw [← hpe2]
        rw [hpre2, mergePP_nil] at hsem
        exact hsem
  · -- the assembled path cannot begin with a scheme when none was parsed
    intro hs0 hn0 c cs rest hPdec hca hall
    have hssn : splitScheme (cleanUrl u) = none :=
      schemeOfSplit_nil_none (by rw [← hsc]; exact hs0)
    have hstep1 : ∃ t1, r.path = (c :: cs) ++ ':' :: t1 := by
      by_cases hpre : r.params = []
      · rw [mergePP, if_neg (by simp [hpre])] at hPdec
        exact ⟨rest, hPdec⟩
      · have hP2 : r.path ++ ';' :: r.params = (c :: cs) ++ ':' :: rest := by
          rw [← hPdec, mergePP, if_pos hpre]
        exact scheme_prefix_transfer hP2 hall
          (Or.inr ⟨';', r.params, rfl, by decide, by decide⟩)
    obtain ⟨t1, ht1⟩ := hstep1
    obtain ⟨D, hD⟩ := hDex
    have hstep2 : (splitFirst '?' (splitFirst '#' (restAfterNetloc u)).1).1 =
        (c :: cs) ++ ':' :: (t1 ++ D) := by
      rw [hD, ht1]
      simp [List.append_assoc]
    have hR : restAfterNetloc u =
        (splitFirst '?' (splitFirst '#' (restAfterNetloc u)).1).1 ++
          ((((restAfterNetloc u).takeWhile (fun x => decide (x ≠ '#'))).dropWhile
            (fun x => decide (x ≠ '?'))) ++
          ((restAfterNetloc u).dropWhile (fun x => decide (x ≠ '#')))) := by
      have e1 := List.takeWhile_append_dropWhile
        (fun x => decide (x ≠ '#')) (restAfterNetloc u)
      have e2 := List.takeWhile_append_dropWhile
        (fun x => decide (x ≠ '?'))
        ((restAfterNetloc u).takeWhile (fun x => decide (x ≠ '#')))
      rw [hpath0, ← List.append_assoc, e2, e1]
    have hstep3 : ∃ W, restAfterNetloc u = (c :: cs) ++ ':' :: W := by
      obtain ⟨E, hE⟩ : ∃ E, restAfterNetloc u =
          (splitFirst '?' (splitFirst '#' (restAfterNetloc u)).1).1 ++ E := ⟨_, hR⟩
      refine ⟨(t1 ++ D) ++ E, ?_⟩
      rw [hE, hstep2]
      simp [List.append_assoc]
    obtain ⟨W, hW⟩ := hstep3
    rcases restAfterNetloc_head u with ⟨hRe, _⟩ | hhd
    · have hcl : restAfterScheme u = cleanUrl u := by
        rw [restAfterScheme, hssn]
      have hcu : cleanUrl u = (c :: cs) ++ ':' :: W := by
        rw [← hcl, ← hRe]
        exact hW
      have hsome := @splitScheme_schemeChars_pfx c cs W hca hall
      rw [← hcu, hssn] at hsome
      exact Option.noConfusion hsome
    · rw [hW] at hhd
      have hhc : netChar c = false := by
        rw [List.cons_append] at hhd
        simpa using hhd
      have hsc3 := (netChar_false_facts hhc).2
      have hsc2 := hall c (by simp)
      rw [hsc2] at hsc3
      exact Bool.noConfusion hsc3
  · exact hcav

/-- C8 (amended): sanitization is not idempotent in general (see the
counterexample), but it is idempotent on every input whose parse yields
a non-empty netloc or a path-with-params that does not begin with `//`:
for such inputs re-serialising is a fixpoint of `sanitize_input`, so a
second application returns the first result unchanged. -/
theorem C8_sanitize_idempotent (u s : Str) (r : ParseRes)
    (hp : urlparseE u [] = .ok r)
    (hcav : r.netloc ≠ [] ∨ (mergePP r.path r.params).take 2 ≠ ['/', '/'])
    (hs : sanitize_input u = .ok s) :
    sanitize_input s = .ok s := by
  rw [sanitize_input, hp] at hs
  have hs2 : urlunparse r = s := by simpa [Except.map] using hs
  rw [← hs2]
  exact sanitize_fix hp hcav

/-- Witness for C8 at a concrete input. -/
theorem C8_sanitize_idempotent_witness :
    sanitize_input "http://example.com/a".data = .ok "http://example.com/a".data := by
  refine C8_sanitize_idempotent "http://example.com/a".data "http://example.com/a".data
    ⟨"http".data, "example.com".data, "/a".data, [], [], []⟩ rfl ?_ rfl
  left
  decide

/-- Counterexample to C8 as stated: a run of slashes opening a
netloc-less path collapses on each pass through the parser
(`'//////v' -> '////v' -> '//v'`), so `sanitize_input` is not
idempotent. -/
theorem C8_counterexample :
    sanitize_input "//////v".data = .ok "////v".data ∧
    sanitize_input "////v".data = .ok "//v".data ∧
    ("////v".data : Str) ≠ "//v".data :=
  ⟨rfl, rfl, by decide⟩

/-! ## Claim C6 -/

/-- C6 (amended): for every extracted entry there is a matching list item
whose flattened text is the entry's text and whose url field is the
item's first descendant anchor href (first in document order, not
necessarily a direct child) resolved by `urljoin` against the base - in
particular `none` exactly when the item has no anchor with an href; an
empty href resolves to the base URL itself (not null); and an absolute
href whose scheme differs from the base's passes through unchanged.
(An absolute href sharing the base's scheme is reparsed and reserialized
- e.g. its scheme is lower-cased - rather than passing through
unchanged; see the counterexample.) -/
theorem C6_url_from_first_anchor (soup : List Node) (base : Str) (pts : List Entry) :
    (extract_scholarship_data soup base = .ok pts →
      ∀ e ∈ pts, ∃ li ∈ find_all_li soup, e.text = get_text li ∧
        e.url = (findHref li).bind fun hr => (urljoinE base hr).toOption) ∧
    (∀ (li : Node) (hr : Str), findHref li = some hr ↔
      ∃ pre n post, subnodes li = pre ++ n :: post ∧ hrefOf n = some hr ∧
        ∀ m ∈ pre, hrefOf m = none) ∧
    (base ≠ [] → urljoinE base [] = .ok base) ∧
    (∀ (h : Str) (b r : ParseRes), urlparseE base [] = .ok b →
      urlparseE h b.scheme = .ok r → r.scheme ≠ b.scheme → h ≠ [] → base ≠ [] →
      urljoinE base h = .ok h) := by
  refine ⟨?_, ?_, ?_, ?_⟩
  · intro h e he
    rcases extractFrom_mem h e he with ⟨li, hli, _, ht, hd⟩
    refine ⟨li, hli, ht, ?_⟩
    rcases hd with ⟨h1, h2⟩ | ⟨hr, u, h1, h2, h3⟩
    · rw [h1, h2]
      rfl
    · rw [h1, h3]
      show some u = (urljoinE base hr).toOption
      rw [h2]
      rfl
  · intro li hr
    exact head?_filterMap_iff
  · intro hb
    rw [urljoinE, if_neg hb]
    rfl
  · intro h b r hpb hpr hne hh hbase
    rw [urljoinE, if_neg hbase, if_neg hh, hpb]
    dsimp only
    rw [hpr]
    dsimp only
    rw [if_pos (.inl hne)]

/-- Witness for C6 at concrete inputs. -/
theorem C6_url_from_first_anchor_witness :
    (∃ li ∈ find_all_li [liPlain],
      (⟨"Merit Scholarship".data, none⟩ : Entry).text = get_text li ∧
      (⟨"Merit Scholarship".data, none⟩ : Entry).url =
        ((findHref li).bind fun hr => (urljoinE baseExample hr).toOption)) ∧
    urljoinE baseExample [] = .ok baseExample ∧
    urljoinE baseExample "mailto:x".data = .ok "mailto:x".data := by
  refine ⟨?_, ?_, ?_⟩
  · exact (C6_url_from_first_anchor [liPlain] baseExample
      [⟨"Merit Scholarship".data, none⟩]).1 rfl _ (by simp)
  · exact (C6_url_from_first_anchor [] baseExample []).2.2.1 (by simp [baseExample])
  · exact (C6_url_from_first_anchor [] baseExample []).2.2.2 "mailto:x".data
      ⟨"http".data, "example.com".data, "/".data, [], [], []⟩
      ⟨"mailto".data, [], "x".data, [], [], []⟩ rfl rfl (by simp) (by simp)
      (by simp [baseExample])

/-- Counterexample to C6 as stated ("an absolute href passes through
unchanged"): an absolute href sharing the base's scheme, written in upper
case, is reparsed and reserialized with a lower-cased scheme - the entry
url differs from the href. -/
theorem C6_counterexample :
    extract_scholarship_data [liUpper] "http://h/".data =
      .ok [⟨"scholarship link".data, some "http://OTHER.ORG/x".data⟩] ∧
    "http://OTHER.ORG/x".data ≠ "HTTP://OTHER.ORG/x".data := by
  refine ⟨rfl, by decide⟩

/-! ## Claim C7 -/

/-- C7 (amended): `fetch_page_content` issues exactly one GET with the
fixed 10-second timeout; a response fails precisely when its status is in
400..599 (so 1xx/3xx responses such as 304 are returned as content, not
failures - see the counterexample); a timeout is a failure; and at the
endpoint a timeout or an HTTP 500 yields the error response with no
entries returned and no write attempted. -/
theorem C7_fetch_behaviour :
    (∀ (oracle : FetchOutcome) (url : Str),
      (fetch_page_content oracle url).1 = [⟨url, 10⟩]) ∧
    (∀ (url : Str) (st : Nat) (body : List Node),
      isOkE (fetch_page_content (.response st body) url).2 =
        !decide ((400 ≤ st ∧ st < 500) ∨ (500 ≤ st ∧ st < 600))) ∧
    (∀ url : Str, (fetch_page_content .timeout url).2 = .error .timeout) ∧
    (∀ (p : Payload) (d : Bool) (b : List Node) (pts : List Entry),
      (scrape p (.response 500 b) d).1 ≠ .okPoints pts ∧
        (scrape p (.response 500 b) d).2 = none) ∧
    (∀ (p : Payload) (d : Bool) (pts : List Entry),
      (scrape p .timeout d).1 ≠ .okPoints pts ∧
        (scrape p .timeout d).2 = none) := by
  refine ⟨fun _ _ => rfl, ?_, fun _ => rfl, ?_, ?_⟩
  · intro url st body
    by_cases hc : (400 ≤ st ∧ st < 500) ∨ (500 ≤ st ∧ st < 600)
    · simp [fetch_page_content, hc, isOkE]
    · simp [fetch_page_content, hc, isOkE]
  · intro p d b pts
    cases p with
    | noJson => exact ⟨by simp [scrape], rfl⟩
    | withUrl ou =>
        cases ou with
        | none => exact ⟨by simp [scrape], rfl⟩
        | some u =>
            rw [scrape]
            by_cases hu : u = []
            · simp [hu]
            · rw [if_neg hu]
              cases hs : sanitize_input u with
              | error e => exact ⟨by simp, rfl⟩
              | ok su =>
                  by_cases hv : validate_url su
                  · have hfetch : (fetch_page_content (.response 500 b) su).2 =
                        .error (.httpStatus 500) := by
                      simp [fetch_page_content]
                    simp [hv, hfetch]
                  · simp [hv]
  · intro p d pts
    cases p with
    | noJson => exact ⟨by simp [scrape], rfl⟩
    | withUrl ou =>
        cases ou with
        | none => exact ⟨by simp [scrape], rfl⟩
        | some u =>
            rw [scrape]
            by_cases hu : u = []
            · simp [hu]
            · rw [if_neg hu]
              cases hs : sanitize_input u with
              | error e => exact ⟨by simp, rfl⟩
              | ok su =>
                  by_cases hv : validate_url su
                  · simp [hv, fetch_page_content]
                  · simp [hv]

/-- Counterexample to C7 as stated: an HTTP 304 response is not 2xx, yet
`fetch_page_content` returns its body as content rather than treating it
as a failure (`raise_for_status` raises only for 400..599). -/
theorem C7_counterexample :
    (fetch_page_content (.response 304 []) baseExample).2 = .ok [] ∧
      ¬ (200 ≤ 304 ∧ 304 < 300) := by
  refine ⟨?_, by decide⟩
  simp [fetch_page_content]

/-! ## Claim C9 -/

theorem scrapeCore_fst_independent (soup : List Node) (su : Str) (d d2 : Bool) :
    (scrapeCore soup su d).1 = (scrapeCore soup su d2).1 := by
  rw [scrapeCore, scrapeCore]
  cases extract_scholarship_data soup su with
  | error e => rfl
  | ok pts =>
      by_cases hp : pts = []
      · simp [hp]
      · simp [hp]

/-- C9 (confirmed): the response of an invocation does not depend on the
outcome of the best-effort JSON write - `save_to_json` catches its own
IOError, so a successful invocation returns the same entries whether the
write succeeds or fails. -/
theorem C9_save_failure_response_unchanged :
    ∀ (p : Payload) (oracle : FetchOutcome) (d d2 : Bool),
      (scrape p oracle d).1 = (scrape p oracle d2).1 := by
  intro p oracle d d2
  cases p with
  | noJson => rfl
  | withUrl ou =>
      cases ou with
      | none => rfl
      | some u =>
          rw [scrape, scrape]
          by_cases hu : u = []
          · simp [hu]
          · rw [if_neg hu, if_neg hu]
            cases sanitize_input u with
            | error e => rfl
            | ok su =>
                dsimp only
                by_cases hv : validate_url su
                · rw [if_pos hv, if_pos hv]
                  cases (fetch_page_content oracle su).2 with
                  | error e => rfl
                  | ok body => exact scrapeCore_fst_independent body su d d2
                · rw [if_neg hv, if_neg hv]

/-! ## Claim C10 -/

/-- C10 (confirmed): when extraction yields zero entries, the invocation
returns the empty 200 response and no write to the JSON output file is
attempted (its contents are unchanged by a scholarship-free scrape);
conversely, a write is attempted only for a non-empty entry list. -/
theorem C10_no_write_on_empty (soup : List Node) (su : Str) (d : Bool) :
    (extract_scholarship_data soup su = .ok [] →
      scrapeCore soup su d = (.okEmpty, none)) ∧
    (∀ out, (scrapeCore soup su d).2 = some out →
      ∃ pts, pts ≠ [] ∧ extract_scholarship_data soup su = .ok pts ∧
        (scrapeCore soup su d).1 = .okPoints pts ∧ out = save_to_json d pts) := by
  constructor
  · intro h
    rw [scrapeCore, h]
    rfl
  · intro out hout
    rw [scrapeCore] at hout ⊢
    cases hex : extract_scholarship_data soup su with
    | error e =>
        rw [hex] at hout
        dsimp only at hout
        exact absurd hout (by simp)
    | ok pts =>
        rw [hex] at hout
        dsimp only at hout
        by_cases hp : pts = []
        · rw [if_pos hp] at hout
          exact absurd hout (by simp)
        · rw [if_neg hp] at hout
          refine ⟨pts, hp, rfl, by dsimp only; rw [if_neg hp], ?_⟩
          have := Option.some.injEq _ _ ▸ hout
          exact this.symm

/-- Witness for C10 at a concrete input: the empty document extracts zero
entries and the core returns the empty response with no write. -/
theorem C10_no_write_on_empty_witness :
    scrapeCore [] baseExample true = (.okEmpty, none) :=
  (C10_no_write_on_empty [] baseExample true).1 rfl

end ScholarSoup
